import Mathlib

/-!
# logview-goversion: log-artifact retrieval and file-exposure pipeline

A shallow embedding of the Go sources under `internal/` (ziputil, fileutil,
cache, httpclient, services, handlers) and of the tree builder of the legacy
pipeline (`utils/log_processor.go`), together with the properties of the
written specification that they satisfy or violate.

Conventions of the embedding:

* A Go `string` holding a path, an identifier or a key is a `List Char`
  (`GoString`).  The only byte the path functions inspect is the ASCII
  separator, which never occurs inside a multi-byte UTF-8 sequence, so
  working on characters instead of bytes does not change their behaviour.
* File contents are byte sequences (`Bytes`).
* The operating system is an explicit value: a flat table from cleaned path
  to object (`FS`) for code that mutates the disk, and a finite tree of
  `Stat`/`ReadDir` answers (`FsView`) for the recursive tree builder.
* Go `int64` sizes and limits are `Int`; no arithmetic on them can overflow
  in the modelled code (only comparisons are performed).  Instants are
  nanoseconds since the epoch as `Int`; the one sum the code forms on them,
  the expiration `now + ttl` of a cache entry, is reduced to the range of
  `int64` where the code stores it (`Cache.SetInt64`).
* Standard-library code the sources call is modelled from its documented
  behaviour (`path/filepath`, `net/url`, `strings`, `fmt`); the ZIP container
  format, `encoding/json` and the Unicode case tables are parameters.
-/

namespace LogView

/-- Text of a Go string, one element per character. -/
abbrev GoString := List Char

/-- Raw file content, one element per byte. -/
abbrev Bytes := List Nat

/-- The constant `os.PathSeparator` on the platforms the server targets. -/
def Separator : Char := '/'

namespace strings

/-- Go `strings.HasPrefix(s, pre)`. -/
def HasPrefix (s pre : GoString) : Bool := pre.isPrefixOf s

end strings

/-! ## `path/filepath` (standard library, Unix flavour) -/

namespace filepath

/-- Cut a path at every separator; `"a//b"` gives `["a", "", "b"]`. -/
def splitSep : GoString → List GoString
  | [] => [[]]
  | c :: cs =>
    if c = Separator then [] :: splitSep cs
    else
      match splitSep cs with
      | [] => [[c]]
      | h :: t => (c :: h) :: t

/-- Glue elements with single separators (inverse of `splitSep`). -/
def joinSep : List GoString → GoString
  | [] => []
  | [e] => e
  | e :: es => e ++ Separator :: joinSep es

/-- Whether the path starts at the root. -/
def isRooted : GoString → Bool
  | [] => false
  | c :: _ => decide (c = Separator)

/-- One iteration of the element loop of `filepath.Clean`.  The output buffer
is kept as the stack of elements written so far, most recent first.
Empty and `.` elements are dropped; `..` removes the last real element when
there is one (`out.w > dotdot`), is appended when the path is not rooted, and
is dropped at the root; any other element is appended. -/
def cleanStep (rooted : Bool) (stack : List GoString) (e : GoString) : List GoString :=
  if e = [] ∨ e = ['.'] then stack
  else if e = ['.', '.'] then
    match stack with
    | [] => if rooted then [] else [e]
    | top :: rest => if top = ['.', '.'] then e :: stack else rest
  else e :: stack

/-- The elements `filepath.Clean` keeps, most recent first. -/
def cleanStack (path : GoString) : List GoString :=
  (splitSep path).foldl (cleanStep (isRooted path)) []

/-- Text of a cleaned path before the empty result is replaced by `.`. -/
def render (rooted : Bool) (stack : List GoString) : GoString :=
  (if rooted then [Separator] else []) ++ joinSep stack.reverse

/-- Go `filepath.Clean`: the shortest path equivalent to `path` by purely
lexical processing. -/
def Clean (path : GoString) : GoString :=
  if path = [] then ['.']
  else
    let out := render (isRooted path) (cleanStack path)
    if out = [] then ['.'] else out

/-- Go `filepath.Join` for two elements: empty elements are ignored, the rest
is joined with the separator and cleaned. -/
def Join (a b : GoString) : GoString :=
  if a ≠ [] then Clean (a ++ Separator :: b)
  else if b ≠ [] then Clean b
  else []

/-- The part of `path` up to and including its last separator (empty when
there is none): the slice `path[:i+1]` of `filepath.Dir`. -/
def dirPart (path : GoString) : GoString :=
  (path.reverse.dropWhile (fun c => decide (c ≠ Separator))).reverse

/-- Go `filepath.Dir`. -/
def Dir (path : GoString) : GoString := Clean (dirPart path)

/-- Go `filepath.Base`: the last element of the path, after removing trailing
separators. -/
def Base (path : GoString) : GoString :=
  if path = [] then ['.']
  else
    let stripped := (path.reverse.dropWhile (fun c => decide (c = Separator))).reverse
    let last := (stripped.reverse.takeWhile (fun c => decide (c ≠ Separator))).reverse
    if last = [] then [Separator] else last

end filepath

/-! ## The disk -/

/-- Errors reported by the operating system. -/
inductive OsError where
  | ENOENT
  | ENOTDIR
  | EISDIR
  | EIO
  deriving DecidableEq, Repr

/-- What a path of the disk holds. -/
inductive FsObj where
  | dir
  | file (data : Bytes)
  deriving DecidableEq, Repr

/-- The disk: the objects that exist, addressed by cleaned path.  Resolution
is lexical (there are no symbolic links in the model). -/
structure FS where
  objs : List (GoString × FsObj)
  deriving DecidableEq, Repr

namespace FS

/-- First binding of `p` in a table. -/
def find (p : GoString) : List (GoString × FsObj) → Option FsObj
  | [] => none
  | (k, o) :: rest => if k = p then some o else find p rest

/-- The object stored under the (already cleaned) path `p`. -/
def lookup (fs : FS) (p : GoString) : Option FsObj := find p fs.objs

/-- Bind `p` to `o`, replacing any earlier binding. -/
def put (fs : FS) (p : GoString) (o : FsObj) : FS :=
  ⟨(p, o) :: fs.objs.filter (fun kv => decide (kv.1 ≠ p))⟩

/-- Whether `p` is an existing directory.  The current directory and the
root always exist. -/
def isDir (fs : FS) (p : GoString) : Bool :=
  match fs.lookup p with
  | some FsObj.dir => true
  | some (FsObj.file _) => false
  | none => decide (p = ['.']) || decide (p = [Separator])

/-- Whether `p` is an existing regular file. -/
def isFile (fs : FS) (p : GoString) : Bool :=
  match fs.lookup p with
  | some (FsObj.file _) => true
  | _ => false

/-- The proper ancestors of a cleaned path, outermost first: every non-empty
`a` with `p = a ++ "/" ++ rest`.  These are the parents `os.MkdirAll` visits
when it strips one trailing element at a time. -/
def ancestors (p : GoString) : List GoString :=
  p.inits.filter (fun a => decide (a ≠ []) && decide ((p.drop a.length).head? = some Separator))

/-- Make the directories of a chain that do not exist yet, outermost first;
an existing non-directory stops the chain with `ENOTDIR`. -/
def mkdirChain (fs : FS) : List GoString → FS × Option OsError
  | [] => (fs, none)
  | q :: qs =>
    match fs.lookup q with
    | some FsObj.dir => mkdirChain fs qs
    | some (FsObj.file _) => (fs, some OsError.ENOTDIR)
    | none => mkdirChain (fs.put q FsObj.dir) qs

/-- Go `os.MkdirAll(path, 0755)`: creates `path` and every missing parent;
succeeds without change when `path` is already a directory. -/
def MkdirAll (fs : FS) (path : GoString) : FS × Option OsError :=
  let p := filepath.Clean path
  mkdirChain fs (ancestors p ++ [p])

/-- Go `os.Create(path)`: creates or truncates the file.  Fails with `ENOENT`
on the empty path, with `EISDIR` when the path is a directory, and when the
parent directory does not exist with `ENOTDIR` if a parent is a regular file
and with `ENOENT` otherwise. -/
def Create (fs : FS) (path : GoString) : FS × Option OsError :=
  let p := filepath.Clean path
  if path = [] then (fs, some OsError.ENOENT)
  else if fs.isDir p then (fs, some OsError.EISDIR)
  else if fs.isDir (filepath.Dir p) then (fs.put p (FsObj.file []), none)
  else if (ancestors p).any fs.isFile then (fs, some OsError.ENOTDIR)
  else (fs, some OsError.ENOENT)

/-- Append bytes to an open file (the writes issued by `io.Copy`). -/
def Write (fs : FS) (path : GoString) (data : Bytes) : FS :=
  let p := filepath.Clean path
  match fs.lookup p with
  | some (FsObj.file old) => fs.put p (FsObj.file (old ++ data))
  | _ => fs

/-- Go `os.Remove(path)` for a file (errors are ignored by every caller). -/
def Remove (fs : FS) (path : GoString) : FS :=
  let p := filepath.Clean path
  match fs.lookup p with
  | some (FsObj.file _) => ⟨fs.objs.filter (fun kv => decide (kv.1 ≠ p))⟩
  | _ => fs

/-- Go `os.RemoveAll(path)`: removes the path and everything below it. -/
def RemoveAll (fs : FS) (path : GoString) : FS :=
  let p := filepath.Clean path
  ⟨fs.objs.filter (fun kv =>
    decide (kv.1 ≠ p) && !(strings.HasPrefix kv.1 (p ++ [Separator])))⟩

end FS

/-! ## `internal/pkg/ziputil` -/

/-- What reading one archive member yields: `file.Open()` can fail, and the
copy can stop with an error after part of the bytes were written. -/
inductive ZipPayload where
  | data (bytes : Bytes)
  | openFails
  | copyFails (written : Bytes)
  deriving DecidableEq, Repr

/-- One member of a ZIP archive (`zip.File`): its stored name, whether its
mode marks a directory, and its decompressed content. -/
structure ZipFile where
  Name : GoString
  IsDir : Bool
  payload : ZipPayload
  deriving DecidableEq, Repr

/-- Errors returned by `ZipUtil.Extract`, one per `fmt.Errorf` site. -/
inductive ExtractError where
  | mkdirDest (e : OsError)
  | openZip
  | mkdir (e : OsError)
  | mkdirParent (e : OsError)
  | extractFile (name : GoString) (e : OsError)
  deriving DecidableEq, Repr

namespace ZipUtil

/-- Go `zip.OpenReader`/`zip.NewReader` on the bytes stored at `zipPath`:
the container format itself is a parameter `parseZip` of the model. -/
def openReader (parseZip : Bytes → Option (List ZipFile)) (fs : FS) (zipPath : GoString) :
    Option (List ZipFile) :=
  match fs.lookup (filepath.Clean zipPath) with
  | some (FsObj.file bytes) => parseZip bytes
  | _ => none

/-- `ZipUtil.IsValid`: the file opens and its container index parses. -/
def IsValid (parseZip : Bytes → Option (List ZipFile)) (fs : FS) (filePath : GoString) : Bool :=
  (openReader parseZip fs filePath).isSome

/-- `ZipUtil.extractFile`: open the member, create the destination, copy. -/
def extractFile (fs : FS) (file : ZipFile) (destPath : GoString) : FS × Option OsError :=
  match file.payload with
  | ZipPayload.openFails => (fs, some OsError.EIO)
  | ZipPayload.data bytes =>
    match fs.Create destPath with
    | (fs1, some e) => (fs1, some e)
    | (fs1, none) => (fs1.Write destPath bytes, none)
  | ZipPayload.copyFails written =>
    match fs.Create destPath with
    | (fs1, some e) => (fs1, some e)
    | (fs1, none) => (fs1.Write destPath written, some OsError.EIO)

/-- Body of the `for _, file := range reader.File` loop of `Extract`. -/
def extractEntry (fs : FS) (extractTo : GoString) (file : ZipFile) : FS × Option ExtractError :=
  let path := filepath.Join extractTo file.Name
  if !(strings.HasPrefix path (filepath.Clean extractTo ++ [Separator])) then
    (fs, none)
  else if file.IsDir then
    match fs.MkdirAll path with
    | (fs1, some e) => (fs1, some (ExtractError.mkdir e))
    | (fs1, none) => (fs1, none)
  else
    match fs.MkdirAll (filepath.Dir path) with
    | (fs1, some e) => (fs1, some (ExtractError.mkdirParent e))
    | (fs1, none) =>
      match extractFile fs1 file path with
      | (fs2, some e) => (fs2, some (ExtractError.extractFile file.Name e))
      | (fs2, none) => (fs2, none)

/-- The loop of `Extract` over the members, stopping at the first error. -/
def extractLoop (fs : FS) (extractTo : GoString) : List ZipFile → FS × Option ExtractError
  | [] => (fs, none)
  | file :: rest =>
    match extractEntry fs extractTo file with
    | (fs1, some e) => (fs1, some e)
    | (fs1, none) => extractLoop fs1 extractTo rest

/-- `ZipUtil.Extract(zipPath, extractTo)`. -/
def Extract (parseZip : Bytes → Option (List ZipFile)) (fs : FS) (zipPath extractTo : GoString) :
    FS × Option ExtractError :=
  match fs.MkdirAll extractTo with
  | (fs1, some e) => (fs1, some (ExtractError.mkdirDest e))
  | (fs1, none) =>
    match openReader parseZip fs1 zipPath with
    | none => (fs1, some ExtractError.openZip)
    | some files => extractLoop fs1 extractTo files

end ZipUtil

/-! ## `internal/services/log_service.go`: identifier validation -/

/-- A finite IEEE double, `(-1)^sign * mant * 2^exp`; JSON decoding yields no
other values. -/
structure Float64 where
  sign : Bool
  mant : Nat
  exp : Int
  deriving DecidableEq, Repr

/-- The dynamic value held by `DownloadRequest.LogID` (`interface{}`). -/
inductive LogIDValue where
  | nil
  | str (v : GoString)
  | float64 (v : Float64)
  | int (v : Int)
  | int64 (v : Int)
  | other
  deriving DecidableEq, Repr

/-- Message `models.ErrInvalidLogID`. -/
def ErrInvalidLogID : GoString := "无效的日志ID".toList

/-- Message `models.ErrLogNotFound`. -/
def ErrLogNotFound : GoString := "日志不存在".toList

/-- Message `models.ErrFileNotFound`. -/
def ErrFileNotFound : GoString := "文件不存在".toList

namespace fmt

/-- Rendering of `%d`. -/
def sprintInt (v : Int) : GoString :=
  if v < 0 then '-' :: Nat.toDigits 10 v.natAbs else Nat.toDigits 10 v.toNat

/-- The magnitude `mant * 2^exp` rounded to an integer, ties to even. -/
def roundHalfEven (mant : Nat) (exp : Int) : Nat :=
  if 0 ≤ exp then mant * 2 ^ exp.toNat
  else
    let d := 2 ^ (-exp).toNat
    let q := mant / d
    let r := mant % d
    if d < 2 * r then q + 1
    else if 2 * r < d then q
    else if q % 2 = 0 then q else q + 1

/-- Rendering of `%.0f`. -/
def sprintFloat0 (v : Float64) : GoString :=
  (if v.sign then ['-'] else []) ++ Nat.toDigits 10 (roundHalfEven v.mant v.exp)

end fmt

namespace LogService

/-- `LogService.ValidateLogID`. -/
def ValidateLogID (logID : LogIDValue) : Except GoString GoString :=
  match logID with
  | LogIDValue.nil => Except.error ErrInvalidLogID
  | LogIDValue.str v => if v = [] then Except.error ErrInvalidLogID else Except.ok v
  | LogIDValue.float64 v => Except.ok (fmt.sprintFloat0 v)
  | LogIDValue.int v => Except.ok (fmt.sprintInt v)
  | LogIDValue.int64 v => Except.ok (fmt.sprintInt v)
  | LogIDValue.other => Except.error ErrInvalidLogID

end LogService

/-! ## `internal/config` -/

/-- `config.StorageConfig`. -/
structure StorageConfig where
  BaseDir : GoString
  ZipDir : GoString
  ExtractDir : GoString
  MaxFileSize : Int
  MaxPreview : Int
  deriving DecidableEq, Repr

/-- `config.RemoteAPIConfig` (the fields the pipeline reads). -/
structure RemoteAPIConfig where
  BaseURL : GoString
  deriving DecidableEq, Repr

/-- `config.Config`. -/
structure Config where
  Storage : StorageConfig
  RemoteAPI : RemoteAPIConfig
  deriving DecidableEq, Repr

/-! ## `internal/pkg/fileutil` -/

/-- Result of `os.Stat`. -/
structure FileInfo where
  IsDir : Bool
  Size : Int
  deriving DecidableEq, Repr

namespace FS

/-- Go `os.Stat(path)`.  A missing path fails with `ENOTDIR` when one of its
parents is a regular file and with `ENOENT` otherwise (permissions are not
part of the disk model).  The size reported for a directory is not modelled:
every caller reads the size of a regular file only. -/
def Stat (fs : FS) (path : GoString) : Except OsError FileInfo :=
  let p := filepath.Clean path
  match fs.lookup p with
  | some (FsObj.file data) => Except.ok ⟨false, data.length⟩
  | _ =>
    if fs.isDir p then Except.ok ⟨true, 0⟩
    else if (ancestors p).any fs.isFile then Except.error OsError.ENOTDIR
    else Except.error OsError.ENOENT

end FS

/-- The system calls issued by the content reader, in order. -/
inductive SysCall where
  | stat (path : GoString)
  | openFile (path : GoString)
  | read (path : GoString) (bufLen : Int)
  | readFile (path : GoString)
  deriving DecidableEq, Repr

/-- Failures of `FileUtil.ReadFileContent`. -/
inductive ReadError where
  | os (e : OsError)
  | tooLarge (size max : Int)
  | unreadable (path : GoString)
  | makeslicePanic
  deriving DecidableEq, Repr

/-- The disk as seen by one call of the content reader, with the transient
I/O faults that may hit each of its calls. -/
structure ReadEnv where
  fs : FS
  failOpen : Bool
  failRead : Bool
  failReadFile : Nat → Bool

namespace FileUtil

/-- Go `os.ReadFile(path)` at the given attempt. -/
def osReadFile (env : ReadEnv) (attempt : Nat) (filePath : GoString) : Except OsError Bytes :=
  if env.failReadFile attempt then Except.error OsError.EIO
  else
    match env.fs.lookup (filepath.Clean filePath) with
    | some (FsObj.file data) => Except.ok data
    | some FsObj.dir => Except.error OsError.EISDIR
    | none => Except.error OsError.ENOENT

/-- `FileUtil.readFileWithEncoding`: every branch returns the bytes as read. -/
def readFileWithEncoding (env : ReadEnv) (attempt : Nat) (filePath : GoString)
    (encoding : String) : Except OsError Bytes :=
  match osReadFile env attempt filePath with
  | Except.error e => Except.error e
  | Except.ok data =>
    match encoding with
    | "utf-8" => Except.ok data
    | "gbk" => Except.ok data
    | _ => Except.ok data

/-- The constant `maxRW` of `internal/poll`: the most one `Read` on a file
transfers (1 GiB). -/
def maxRW : Nat := 1073741824

/-- `FileUtil.readFilePreview`.  `notice maxBytes` stands for the text
`fmt.Sprintf("\n\n... (文件太大，仅显示前 %.2f KB)", float64(maxBytes)/1024)`;
that text is `FileUtil.previewNotice`, with which the statements about the
preview instantiate it.  The one `file.Read(buffer)` fills the buffer as far
as the file reaches, but never with more than `maxRW` bytes. -/
def readFilePreview (notice : Int → Bytes) (env : ReadEnv) (filePath : GoString)
    (maxBytes : Int) : Except ReadError Bytes × List SysCall :=
  if env.failOpen then (Except.error (ReadError.os OsError.EIO), [SysCall.openFile filePath])
  else
    match env.fs.lookup (filepath.Clean filePath) with
    | none => (Except.error (ReadError.os OsError.ENOENT), [SysCall.openFile filePath])
    | some obj =>
      if maxBytes < 0 then (Except.error ReadError.makeslicePanic, [SysCall.openFile filePath])
      else
        let trace := [SysCall.openFile filePath, SysCall.read filePath maxBytes]
        match obj with
        | FsObj.dir => (Except.error (ReadError.os OsError.EISDIR), trace)
        | FsObj.file data =>
          if env.failRead then (Except.error (ReadError.os OsError.EIO), trace)
          else (Except.ok (data.take (min maxBytes.toNat maxRW) ++ notice maxBytes), trace)

/-- The `for _, encoding := range encodings` loop of `ReadFileContent`. -/
def tryEncodings (env : ReadEnv) (filePath : GoString) :
    Nat → List String → Except ReadError Bytes × List SysCall
  | _, [] => (Except.error (ReadError.unreadable filePath), [])
  | attempt, encoding :: rest =>
    match readFileWithEncoding env attempt filePath encoding with
    | Except.ok content => (Except.ok content, [SysCall.readFile filePath])
    | Except.error _ =>
      let r := tryEncodings env filePath (attempt + 1) rest
      (r.1, SysCall.readFile filePath :: r.2)

/-- `FileUtil.ReadFileContent`, returning the content or error together with
the system calls performed. -/
def ReadFileContent (cfg : Config) (notice : Int → Bytes) (env : ReadEnv) (filePath : GoString) :
    Except ReadError Bytes × List SysCall :=
  match env.fs.Stat filePath with
  | Except.error e => (Except.error (ReadError.os e), [SysCall.stat filePath])
  | Except.ok fileInfo =>
    let fileSize := fileInfo.Size
    if fileSize > cfg.Storage.MaxFileSize then
      (Except.error (ReadError.tooLarge fileSize cfg.Storage.MaxFileSize), [SysCall.stat filePath])
    else if fileSize > cfg.Storage.MaxPreview then
      let r := readFilePreview notice env filePath cfg.Storage.MaxPreview
      (r.1, SysCall.stat filePath :: r.2)
    else
      let r := tryEncodings env filePath 0 ["utf-8", "gbk", "latin-1"]
      (r.1, SysCall.stat filePath :: r.2)

end FileUtil

/-- What `os.Stat` and `os.ReadDir` answer at a path and below it: the stat
fails, or the path is a file of some size, or a directory whose listing fails,
or a directory with its entries in the order `ReadDir` returns them. -/
inductive FsView where
  | statFails
  | file (size : Int)
  | dirUnlistable
  | dir (entries : List (GoString × FsView))

/-- `fileutil.FileNode` (and the field-for-field identical `models.FileNode`).
`Typ` is the Go field `Type`. -/
structure FileNode where
  Name : GoString
  Path : GoString
  Typ : String
  Size : Int
  Children : List FileNode
  deriving Repr

namespace FileUtil

/-- The comparison closure of `sortNodes`. -/
def less (a b : FileNode) : Bool :=
  if a.Typ ≠ b.Typ then decide (a.Typ = "directory") else decide (a.Name < b.Name)

/-- Move a node left past every node it is `less` than. -/
def insertNode (x : FileNode) : List FileNode → List FileNode
  | [] => [x]
  | y :: ys => if less x y then x :: y :: ys else y :: insertNode x ys

/-- `FileUtil.sortNodes`: `sort.Slice` with `less`, as the insertion sort the
standard library runs on short slices. -/
def sortNodes (nodes : List FileNode) : List FileNode :=
  nodes.foldl (fun sorted x => insertNode x sorted) []

mutual
/-- `FileUtil.BuildTree(rootPath, relativePath)` against the answers `fs` of
the operating system at and below `rootPath`. -/
def BuildTree (fs : FsView) (rootPath relativePath : GoString) : Except OsError FileNode :=
  match fs with
  | FsView.statFails => Except.error OsError.ENOENT
  | FsView.file size =>
    Except.ok ⟨filepath.Base rootPath, relativePath, "file", size, []⟩
  | FsView.dirUnlistable => Except.error OsError.EIO
  | FsView.dir entries =>
    Except.ok ⟨filepath.Base rootPath, relativePath, "directory", 0,
      sortNodes (buildChildren entries rootPath relativePath)⟩
/-- The `for _, entry := range entries` loop of `BuildTree`: children whose
build fails are skipped. -/
def buildChildren (entries : List (GoString × FsView)) (rootPath relativePath : GoString) :
    List FileNode :=
  match entries with
  | [] => []
  | (name, sub) :: rest =>
    match BuildTree sub (filepath.Join rootPath name) (filepath.Join relativePath name) with
    | Except.error _ => buildChildren rest rootPath relativePath
    | Except.ok child => child :: buildChildren rest rootPath relativePath
end

end FileUtil

/-! ## `internal/pkg/cache` -/

/-- The value a Go `int64` computation yields when its mathematical result is
`n`: the integer congruent to `n` modulo `2^64` that lies in the range of
`int64`. -/
def int64 (n : Int) : Int :=
  (n + 9223372036854775808) % 18446744073709551616 - 9223372036854775808

/-- Whether the integer is a value of type `int64`. -/
def IsInt64 (n : Int) : Prop := -9223372036854775808 ≤ n ∧ n < 9223372036854775808

instance (n : Int) : Decidable (IsInt64 n) := by
  unfold IsInt64
  exact inferInstance

/-- `cache.CacheItem`. -/
structure CacheItem (V : Type) where
  Value : V
  Expiration : Int

/-- `cache.Cache`: the Go map `items` is a finite partial function from key
to item; times are `UnixNano` instants. -/
structure Cache (V : Type) where
  items : GoString → Option (CacheItem V)
  ttl : Int

namespace Cache

variable {V : Type}

/-- `cache.NewCache(ttl)`. -/
def NewCache (ttl : Int) : Cache V := ⟨fun _ => none, ttl⟩

/-- The map after `delete(c.items, key)`. -/
def erase (c : Cache V) (key : GoString) : Cache V :=
  ⟨fun k => if k = key then none else c.items k, c.ttl⟩

/-- `Cache.Get(key)` at instant `now`: the value and whether it was found,
together with the cache after the call (an expired entry is deleted). -/
def Get (c : Cache V) (now : Int) (key : GoString) : Cache V × Option V :=
  match c.items key with
  | none => (c, none)
  | some item =>
    if item.Expiration > 0 ∧ now > item.Expiration then (c.erase key, none)
    else (c, some item.Value)

/-- `Cache.Set(key, value)` at instant `now`, with instants as mathematical
integers: the expiration is `now + ttl`.  This is what `cache.go` stores
whenever that instant is representable (`SetInt64` below, which it equals
then). -/
def Set (c : Cache V) (now : Int) (key : GoString) (value : V) : Cache V :=
  ⟨fun k => if k = key then some ⟨value, now + c.ttl⟩ else c.items k, c.ttl⟩

/-- `Cache.Set(key, value)` at instant `now` with the arithmetic of the
source: `time.Now().Add(c.ttl).UnixNano()` is an `int64`, so an expiration
instant outside the range of `int64` wraps around. -/
def SetInt64 (c : Cache V) (now : Int) (key : GoString) (value : V) : Cache V :=
  ⟨fun k => if k = key then some ⟨value, int64 (now + c.ttl)⟩ else c.items k, c.ttl⟩

/-- `Cache.Delete(key)`. -/
def Delete (c : Cache V) (key : GoString) : Cache V := c.erase key

/-- `Cache.Clear()`. -/
def Clear (c : Cache V) : Cache V := ⟨fun _ => none, c.ttl⟩

end Cache

/-! ## `net/url` and the remote transport -/

namespace url

/-- The table `upperhex`. -/
def upperhex (n : Nat) : Char := "0123456789ABCDEF".toList.getD n '0'

/-- Bytes that `QueryEscape` leaves as they are: letters, digits and `-_.~`. -/
def unreserved (c : Char) : Bool :=
  c.isAlphanum || decide (c = '-') || decide (c = '_') || decide (c = '.') || decide (c = '~')

/-- Go `url.QueryEscape`: a space becomes `+`, every other byte outside the
unreserved set becomes `%XX`. -/
def QueryEscape (s : GoString) : GoString :=
  s.flatMap (fun c =>
    if unreserved c then [c]
    else if c = ' ' then ['+']
    else (String.utf8EncodeChar c).flatMap (fun b =>
      ['%', upperhex (b.toNat / 16), upperhex (b.toNat % 16)]))

end url

/-- What the remote answers to the authenticated GET: a transport failure, or
a status with a body whose streaming may break after some bytes. -/
inductive HttpResponse where
  | transportError
  | response (StatusCode : Nat) (body : Bytes) (breaksAfter : Option Nat)
  deriving DecidableEq, Repr

/-- Errors of `Client.DownloadWithAuth`, one per `fmt.Errorf` site. -/
inductive DownloadError where
  | sendFailed
  | notFoundOrExpired
  | httpStatus (code : Nat)
  | createFailed (e : OsError)
  | saveFailed
  deriving DecidableEq, Repr

namespace Client

/-- `Client.DownloadWithAuth(url, savePath)` given the remote answer. -/
def DownloadWithAuth (fs : FS) (resp : HttpResponse) (savePath : GoString) :
    FS × Option DownloadError :=
  match resp with
  | HttpResponse.transportError => (fs, some DownloadError.sendFailed)
  | HttpResponse.response code body breaksAfter =>
    if code = 404 then (fs, some DownloadError.notFoundOrExpired)
    else if code ≠ 200 then (fs, some (DownloadError.httpStatus code))
    else
      match fs.Create savePath with
      | (fs1, some e) => (fs1, some (DownloadError.createFailed e))
      | (fs1, none) =>
        match breaksAfter with
        | some n => (fs1.Write savePath (body.take n), some DownloadError.saveFailed)
        | none => (fs1.Write savePath body, none)

end Client

/-! ## `internal/repository` and `internal/services` -/

/-- `models.Log` (row of table `logs`; `log_id` is `UNIQUE`). -/
structure Log where
  LogID : GoString
  FilePath : GoString
  ExtractPath : GoString
  Tags : GoString
  Notes : GoString
  deriving DecidableEq, Repr

/-- Everything the request handlers read and write: the disk, the tree cache
of the file service and the record table. -/
structure World where
  fs : FS
  treeCache : Cache FileNode
  logs : List Log

namespace LogRepository

/-- `LogRepository.Create`: `INSERT OR REPLACE` keyed by `log_id`. -/
def Create (logs : List Log) (logID filePath extractPath : GoString) : List Log :=
  ⟨logID, filePath, extractPath, [], []⟩ :: logs.filter (fun l => decide (l.LogID ≠ logID))

/-- `LogRepository.GetByID`. -/
def GetByID (logs : List Log) (logID : GoString) : Option Log :=
  logs.find? (fun l => decide (l.LogID = logID))

/-- `LogRepository.Delete`: the table after `DELETE ... WHERE log_id = ?` and
whether a row was affected. -/
def Delete (logs : List Log) (logID : GoString) : List Log × Bool :=
  (logs.filter (fun l => decide (l.LogID ≠ logID)), logs.any (fun l => decide (l.LogID = logID)))

end LogRepository

/-- Why `FileService.DownloadLog` reports `Success = false`. -/
inductive DownloadFailure where
  | download (e : DownloadError)
  | invalidZip
  | extract (e : ExtractError)
  deriving DecidableEq, Repr

/-- `models.DownloadResult`. -/
structure DownloadResult where
  Success : Bool
  FilePath : GoString
  ExtractPath : GoString
  Error : Option DownloadFailure
  deriving DecidableEq, Repr

/-- Errors returned by the file service. -/
inductive ServiceError where
  | logNotFound
  | fileNotFound
  | os (e : OsError)
  deriving DecidableEq, Repr

namespace FS

/-- Names of the entries directly inside directory `p`, as `os.ReadDir`
returns them (sorted by name). -/
def childNames (fs : FS) (p : GoString) : List GoString :=
  let pre : GoString :=
    if p = ['.'] then [] else if p = [Separator] then [Separator] else p ++ [Separator]
  let names := fs.objs.filterMap (fun kv =>
    if strings.HasPrefix kv.1 pre then
      let r := kv.1.drop pre.length
      if r ≠ [] ∧ Separator ∉ r ∧ r ≠ ['.'] ∧ r ≠ ['.', '.'] then some r else none
    else none)
  names.eraseDups.insertionSort (fun a b => ¬ b < a)

/-- The answers of `os.Stat` and `os.ReadDir` at `path` and below, unfolded
to the given depth. -/
def view (fs : FS) : Nat → GoString → FsView
  | fuel, path =>
    let p := filepath.Clean path
    if fs.isDir p then
      match fuel with
      | 0 => FsView.dirUnlistable
      | n + 1 => FsView.dir ((fs.childNames p).map (fun name => (name, view fs n (filepath.Join p name))))
    else
      match fs.lookup p with
      | some (FsObj.file data) => FsView.file data.length
      | _ => FsView.statFails

/-- A depth no path of the disk exceeds. -/
def depthBound (fs : FS) : Nat := fs.objs.length + 1

end FS

namespace FileService

/-- The key under which the tree of a log is cached. -/
def cacheKey (logID : GoString) : GoString := "tree:".toList ++ logID

/-- The extraction directory of a log:
`filepath.Join(s.cfg.Storage.ExtractDir, logID)`. -/
def extractPath (cfg : Config) (logID : GoString) : GoString :=
  filepath.Join cfg.Storage.ExtractDir logID

/-- The temporary archive of a log:
`filepath.Join(s.cfg.Storage.BaseDir, fmt.Sprintf("%s.zip", logID))`. -/
def zipPath (cfg : Config) (logID : GoString) : GoString :=
  filepath.Join cfg.Storage.BaseDir (logID ++ ".zip".toList)

/-- The fetch URL of a log. -/
def downloadURL (cfg : Config) (logID : GoString) : GoString :=
  cfg.RemoteAPI.BaseURL ++ "/download-log/".toList ++ url.QueryEscape logID

/-- `FileService.DownloadLog(logID)`. -/
def DownloadLog (cfg : Config) (parseZip : Bytes → Option (List ZipFile))
    (remote : GoString → HttpResponse) (w : World) (logID : GoString) : World × DownloadResult :=
  let urlStr := downloadURL cfg logID
  let zip := zipPath cfg logID
  match Client.DownloadWithAuth w.fs (remote urlStr) zip with
  | (fs1, some e) =>
    ({ w with fs := fs1 }, ⟨false, [], [], some (DownloadFailure.download e)⟩)
  | (fs1, none) =>
    if !(ZipUtil.IsValid parseZip fs1 zip) then
      ({ w with fs := fs1.Remove zip }, ⟨false, [], [], some DownloadFailure.invalidZip⟩)
    else
      let dir := extractPath cfg logID
      match ZipUtil.Extract parseZip fs1 zip dir with
      | (fs2, some e) =>
        ({ w with fs := fs2.Remove zip }, ⟨false, [], [], some (DownloadFailure.extract e)⟩)
      | (fs2, none) =>
        ({ w with fs := fs2.Remove zip }, ⟨true, [], dir, none⟩)

mutual
/-- `FileService.convertFileNode`: field-for-field copy. -/
def convertFileNode : FileNode → FileNode
  | ⟨name, path, typ, size, children⟩ => ⟨name, path, typ, size, convertChildren children⟩
/-- The loop of `convertFileNode` over the children. -/
def convertChildren : List FileNode → List FileNode
  | [] => []
  | child :: rest => convertFileNode child :: convertChildren rest
end

/-- `FileService.GetFileStructure(logID)` at instant `now`.  Only a stat
failure that `os.IsNotExist` recognises gives the not-found error; after any
other stat failure the code goes on to `BuildTree`, whose first action is the
same `os.Stat`, and returns that error as it is. -/
def GetFileStructure (cfg : Config) (w : World) (now : Int) (logID : GoString) :
    World × Except ServiceError FileNode :=
  match w.treeCache.Get now (cacheKey logID) with
  | (cache1, some cached) => ({ w with treeCache := cache1 }, Except.ok cached)
  | (cache1, none) =>
    let dir := extractPath cfg logID
    match w.fs.Stat dir with
    | Except.error OsError.ENOENT =>
      ({ w with treeCache := cache1 }, Except.error ServiceError.logNotFound)
    | Except.error e => ({ w with treeCache := cache1 }, Except.error (ServiceError.os e))
    | Except.ok _ =>
      match FileUtil.BuildTree (w.fs.view w.fs.depthBound dir) dir [] with
      | Except.error e => ({ w with treeCache := cache1 }, Except.error (ServiceError.os e))
      | Except.ok fileNode =>
        let result := convertFileNode fileNode
        ({ w with treeCache := cache1.SetInt64 now (cacheKey logID) result }, Except.ok result)

/-- `FileService.InvalidateTreeCache(logID)`. -/
def InvalidateTreeCache (w : World) (logID : GoString) : World :=
  { w with treeCache := w.treeCache.Delete (cacheKey logID) }

/-- `FileService.DeleteLogFiles(logID)`. -/
def DeleteLogFiles (cfg : Config) (w : World) (logID : GoString) : World × Option OsError :=
  let dir := extractPath cfg logID
  match w.fs.Stat dir with
  | Except.ok _ => ({ w with fs := w.fs.RemoveAll dir }, none)
  | Except.error _ => (w, none)

end FileService

/-! ## `internal/handlers` -/

/-- The `error` field of an error reply: a fixed message, or the text of an
operating-system or download error. -/
inductive ReplyError where
  | message (text : GoString)
  | osError (e : OsError)
  | download (e : Option DownloadFailure)
  deriving DecidableEq, Repr

/-- The JSON reply of a handler: status code and, for errors, the error. -/
structure Reply where
  status : Nat
  error : Option ReplyError
  deriving DecidableEq, Repr

namespace LogHandler

/-- `LogHandler.DeleteLog` (`DELETE /api/logs/:log_id`). -/
def DeleteLog (cfg : Config) (w : World) (logID : GoString) : World × Reply :=
  match LogRepository.Delete w.logs logID with
  | (_, false) => (w, ⟨404, some (ReplyError.message ErrLogNotFound)⟩)
  | (logs1, true) =>
    match FileService.DeleteLogFiles cfg { w with logs := logs1 } logID with
    | (w1, some e) => (w1, ⟨500, some (ReplyError.osError e)⟩)
    | (w1, none) => (w1, ⟨200, none⟩)

/-- `LogHandler.DownloadLog` (`POST /api/download`) for a decoded request. -/
def DownloadLog (cfg : Config) (parseZip : Bytes → Option (List ZipFile))
    (remote : GoString → HttpResponse) (w : World) (reqLogID : LogIDValue) : World × Reply :=
  match LogService.ValidateLogID reqLogID with
  | Except.error _ => (w, ⟨400, some (ReplyError.message ErrInvalidLogID)⟩)
  | Except.ok logID =>
    match FileService.DownloadLog cfg parseZip remote w logID with
    | (w1, result) =>
      if !result.Success then (w1, ⟨500, some (ReplyError.download result.Error)⟩)
      else
        ({ w1 with logs := LogRepository.Create w1.logs logID result.FilePath result.ExtractPath },
          ⟨200, none⟩)

end LogHandler

/-! ## Predicates used in the statements -/

namespace filepath

/-- The element `..`. -/
def dotdot : GoString := ['.', '.']

/-- Shape of the element stack of a cleaned path (most recent first): every
element is non-empty, is not `.`, holds no separator, and a `..` element
occurs only in a path that is not rooted, with nothing but `..` beneath it. -/
def Normal (rooted : Bool) : List GoString → Prop
  | [] => True
  | e :: below =>
    e ≠ [] ∧ e ≠ ['.'] ∧ Separator ∉ e ∧
      (e = dotdot → rooted = false ∧ ∀ x ∈ below, x = dotdot) ∧ Normal rooted below

/-- An ordinary single path element: not empty, without separator, and
neither `.` nor `..`. -/
def IsElement (name : GoString) : Prop :=
  name ≠ [] ∧ Separator ∉ name ∧ name ≠ ['.'] ∧ name ≠ ['.', '.']

instance (name : GoString) : Decidable (IsElement name) := by
  unfold IsElement
  exact inferInstance

/-- The remainder of the cleaned path `p` after the cleaned directory `d`,
when `p` continues `d` with a separator (for the directories `.` and `/`:
when `p` is relative, respectively rooted). -/
def below (d p : GoString) : Option GoString :=
  if strings.HasPrefix p (d ++ [Separator]) then some (p.drop (d.length + 1))
  else if d = ['.'] ∧ isRooted p = false then some p
  else if d = [Separator] ∧ isRooted p = true then some (p.drop 1)
  else none

/-- Whether the cleaned path `p` is a proper subdirectory of directory `root`
by lexical resolution: it continues the cleaned root with at least one
element, the first of which does not step back out (`..`). -/
def IsProperSubdir (root p : GoString) : Bool :=
  match below (Clean root) p with
  | none => false
  | some r =>
    decide (r ≠ []) && decide (r ≠ ['.']) &&
      decide (r.takeWhile (fun c => decide (c ≠ Separator)) ≠ dotdot)

end filepath

/-- Whether `os.Stat` of the root of the view succeeds. -/
def FsView.statOk : FsView → Bool
  | FsView.statFails => false
  | _ => true

namespace FS

/-- The directory `d` and all its parents exist. -/
def DestReady (fs : FS) (d : GoString) : Prop :=
  ∀ q, (q = d ∨ q ∈ ancestors d) → fs.lookup q = some FsObj.dir

end FS

/-! ## Sample data for the concrete instances -/

/-- An archive with an absolute name, a name climbing out of the destination,
a directory member and a name with an inner `../`. -/
def sampleArchive : List ZipFile :=
  [⟨"/etc/passwd".toList, false, ZipPayload.data [1, 2]⟩,
   ⟨"../x".toList, false, ZipPayload.data [3]⟩,
   ⟨"d/".toList, true, ZipPayload.data []⟩,
   ⟨"a/../b.txt".toList, false, ZipPayload.data [7]⟩]

/-- A disk holding only the downloaded archive `z.zip`. -/
def sampleDisk : FS := ⟨[("z.zip".toList, FsObj.file [80, 75])]⟩

/-- A container parser that reads every file as `sampleArchive`. -/
def sampleParse : Bytes → Option (List ZipFile) := fun _ => some sampleArchive

/-- The fixture directory of the specification: `b.txt`, `A/`, `a.txt`, in
the order the listing returns them. -/
def fixtureView : FsView :=
  FsView.dir [("b.txt".toList, FsView.file 3), ("A".toList, FsView.dir []),
    ("a.txt".toList, FsView.file 1)]

/-- A disk with the three-byte file `/logs/a.txt`. -/
def readDisk : FS :=
  ⟨[("/logs/a.txt".toList, FsObj.file [104, 105, 10]), ("/logs".toList, FsObj.dir)]⟩

/-- The reader environment on `readDisk` without I/O faults. -/
def readEnv : ReadEnv := ⟨readDisk, false, false, fun _ => false⟩

/-- The default configuration of `config.Load` with small size limits. -/
def sampleConfig : Config :=
  ⟨⟨".".toList, "storage/zips".toList, "storage/extracted".toList, 50, 10⟩,
   ⟨"https://hlogs.lazycat.cloud/api/v1".toList⟩⟩

/-- A container parser for the scenarios: the bytes `[1]` are an archive with
the single file `old.txt`, the bytes `[2]` one with the single file
`a/b.json`; nothing else is a valid archive. -/
def scenarioParse : Bytes → Option (List ZipFile)
  | [1] => some [⟨"old.txt".toList, false, ZipPayload.data [111]⟩]
  | [2] => some [⟨"a/b.json".toList, false, ZipPayload.data [123, 125]⟩]
  | _ => none

/-- The remote serving the first archive. -/
def remoteOld : GoString → HttpResponse := fun _ => HttpResponse.response 200 [1] none

/-- The remote serving the second archive. -/
def remoteNew : GoString → HttpResponse := fun _ => HttpResponse.response 200 [2] none

/-- A freshly started server: empty disk, empty cache with the five-minute
TTL of `NewFileService` (in nanoseconds), no records. -/
def freshWorld : World := ⟨⟨[]⟩, Cache.NewCache 300000000000, []⟩

/-- The world after log `log1` was downloaded (first archive) through the
download handler and then browsed once at instant `1000`. -/
def browsedWorld : World :=
  (FileService.GetFileStructure sampleConfig
    (LogHandler.DownloadLog sampleConfig scenarioParse remoteOld freshWorld
      (LogIDValue.str "log1".toList)).1 1000 "log1".toList).1

/-- The names of the children of a tree returned by the file service. -/
def childNamesOf (r : Except ServiceError FileNode) : Option (List GoString) :=
  r.toOption.map (fun node => node.Children.map (fun c => c.Name))

/-! ## Further predicates and sample data -/

namespace FileUtil

/-- The child built for one directory entry, if its build succeeds. -/
def childOf (rootPath relativePath : GoString) (entry : GoString × FsView) : Option FileNode :=
  (BuildTree entry.2 (filepath.Join rootPath entry.1) (filepath.Join relativePath entry.1)).toOption

end FileUtil

/-- A directory with a readable file, an entry whose stat fails, an
unlistable subdirectory and an empty subdirectory. -/
def damagedView : FsView :=
  FsView.dir [("ok.txt".toList, FsView.file 5), ("gone".toList, FsView.statFails),
    ("locked".toList, FsView.dirUnlistable), ("sub".toList, FsView.dir [])]

mutual
/-- Whether the view is what the operating system can answer for a real
directory tree: in every listing the entry names are pairwise distinct
ordinary elements (`os.ReadDir` never returns an empty name, `.`, `..` or a
name holding a separator, and a directory holds each name once). -/
def FsView.wellListed : FsView → Bool
  | FsView.dir entries =>
    decide ((entries.map Prod.fst).Nodup) && FsView.entriesWellListed entries
  | _ => true
/-- `wellListed` for every entry of a listing. -/
def FsView.entriesWellListed : List (GoString × FsView) → Bool
  | [] => true
  | (name, sub) :: rest =>
    decide (filepath.IsElement name) && FsView.wellListed sub && FsView.entriesWellListed rest
end

/-- The relative path of a child: the name alone below the root (empty
relative path), otherwise the relative path of the parent, a forward slash and
the name. -/
def joinRel (parentRel name : GoString) : GoString :=
  if parentRel = [] then name else parentRel ++ '/' :: name

mutual
/-- The path invariant of a tree built at filesystem path `fsPath`: the name
of the node is the last element of `fsPath`, and every child carries the
relative path `joinRel` of this node's relative path and the child's name and
satisfies the invariant at `fsPath` joined with its name. -/
def FileNode.PathsOk (fsPath : GoString) : FileNode → Prop
  | ⟨name, path, _, _, children⟩ =>
    name = filepath.Base fsPath ∧ FileNode.PathsOkList fsPath path children
/-- The path invariant for the children of a node. -/
def FileNode.PathsOkList (fsPath parentRel : GoString) : List FileNode → Prop
  | [] => True
  | child :: rest =>
    child.Path = joinRel parentRel child.Name ∧
      FileNode.PathsOk (filepath.Join fsPath child.Name) child ∧
      FileNode.PathsOkList fsPath parentRel rest
end

/-- A relative path as the tree builder produces it: empty (the root), or a
non-empty cleaned path that keeps at least one element. -/
def GoodRel (rel : GoString) : Prop :=
  rel = [] ∨ (rel ≠ [] ∧ filepath.cleanStack rel ≠ [] ∧ filepath.Clean rel = rel)

/-- A two-level directory: `a/` holding `b.json`, and the file `z.log`. -/
def nestedView : FsView :=
  FsView.dir [("z.log".toList, FsView.file 9),
    ("a".toList, FsView.dir [("b.json".toList, FsView.file 2)])]

/-- The tree of `nestedView` built at `/data/log1`. -/
def nestedTree : FileNode :=
  ⟨"log1".toList, [], "directory", 0,
    [⟨"a".toList, "a".toList, "directory", 0,
        [⟨"b.json".toList, "a/b.json".toList, "file", 2, []⟩]⟩,
     ⟨"z.log".toList, "z.log".toList, "file", 9, []⟩]⟩

mutual
/-- The same directory tree as the operating system may present it on another
call: the listing of the directory at each path `p` comes back rearranged by
`reorder p`. -/
def FsView.shuffle (reorder : GoString → List (GoString × FsView) → List (GoString × FsView))
    (path : GoString) : FsView → FsView
  | FsView.statFails => FsView.statFails
  | FsView.file size => FsView.file size
  | FsView.dirUnlistable => FsView.dirUnlistable
  | FsView.dir entries => FsView.dir (reorder path (FsView.shuffleEntries reorder path entries))
/-- `shuffle` below every entry of the directory at `path`. -/
def FsView.shuffleEntries
    (reorder : GoString → List (GoString × FsView) → List (GoString × FsView))
    (path : GoString) : List (GoString × FsView) → List (GoString × FsView)
  | [] => []
  | (name, sub) :: rest =>
    (name, FsView.shuffle reorder (filepath.Join path name) sub)
      :: FsView.shuffleEntries reorder path rest
end

/-- A cache with the five-minute TTL holding the value `7` under `tree:log1`,
stored at instant `1000`. -/
def sampleCache : Cache Nat :=
  (Cache.NewCache 300000000000).Set 1000 "tree:log1".toList 7

namespace Cache

variable {V : Type}

end Cache

namespace FS

/-- Some file is stored under `q`. -/
def IsFileAt (fs : FS) (q : GoString) : Prop := ∃ data, fs.lookup q = some (FsObj.file data)

end FS

/-- A remote that answers every request with 404. -/
def remote404 : GoString → HttpResponse := fun _ => HttpResponse.response 404 [] none

/-! ## Locking discipline of `internal/pkg/cache` -/

/-- What a cache method does to the mutex `c.mu` and to the map `c.items`,
one action per statement. -/
inductive LockStep where
  | rlock
  | runlock
  | lock
  | unlock
  | mapRead
  | mapWrite
  deriving DecidableEq, Repr

namespace Cache

variable {V : Type}

/-- The actions of `Get(key)` in program order: `RLock`, the lookup
`c.items[key]`, the `delete(c.items, key)` when the entry is expired, and the
deferred `RUnlock`. -/
def GetSteps (c : Cache V) (now : Int) (key : GoString) : List LockStep :=
  [LockStep.rlock, LockStep.mapRead] ++
    (match c.items key with
     | none => []
     | some item =>
       if item.Expiration > 0 ∧ now > item.Expiration then [LockStep.mapWrite] else []) ++
    [LockStep.runlock]

/-- The actions of `Set`: `Lock`, the assignment `c.items[key] = ...`,
`Unlock`. -/
def SetSteps : List LockStep := [LockStep.lock, LockStep.mapWrite, LockStep.unlock]

/-- The actions of `Delete`: `Lock`, `delete(c.items, key)`, `Unlock`. -/
def DeleteSteps : List LockStep := [LockStep.lock, LockStep.mapWrite, LockStep.unlock]

/-- The actions of `Clear`: `Lock`, the replacement of `c.items`, `Unlock`. -/
def ClearSteps : List LockStep := [LockStep.lock, LockStep.mapWrite, LockStep.unlock]

/-- The actions of `DeleteExpired`: `Lock`, the iteration over `c.items`, the
deletions, `Unlock`. -/
def DeleteExpiredSteps : List LockStep :=
  [LockStep.lock, LockStep.mapRead, LockStep.mapWrite, LockStep.unlock]

end Cache

/-- State of a `sync.RWMutex`: how many goroutines hold it for reading and
whether one holds it for writing. -/
structure RWMutex where
  readers : Nat
  writer : Bool
  deriving DecidableEq, Repr

/-- Goroutines running cache methods on one cache: the mutex and, for each
goroutine, the actions it still has to perform. -/
structure Goroutines where
  mu : RWMutex
  pending : List (List LockStep)
  deriving DecidableEq, Repr

namespace Goroutines

/-- Whether the mutex lets the action proceed: `RLock` waits for the writer,
`Lock` waits for the writer and for all readers, nothing else waits. -/
def enabled (mu : RWMutex) : LockStep → Bool
  | LockStep.rlock => !mu.writer
  | LockStep.lock => !mu.writer && decide (mu.readers = 0)
  | _ => true

/-- The mutex after the action. -/
def after (mu : RWMutex) : LockStep → RWMutex
  | LockStep.rlock => ⟨mu.readers + 1, mu.writer⟩
  | LockStep.runlock => ⟨mu.readers - 1, mu.writer⟩
  | LockStep.lock => ⟨mu.readers, true⟩
  | LockStep.unlock => ⟨mu.readers, false⟩
  | _ => mu

/-- Goroutine `i` performs its next action, if it has one and is not blocked. -/
def step (s : Goroutines) (i : Nat) : Option Goroutines :=
  match s.pending.get? i with
  | some (a :: rest) =>
    if enabled s.mu a then some ⟨after s.mu a, s.pending.set i rest⟩ else none
  | _ => none

/-- Run a schedule: the goroutine to move at each step. -/
def run (s : Goroutines) : List Nat → Option Goroutines
  | [] => some s
  | i :: rest =>
    match step s i with
    | none => none
    | some s1 => run s1 rest

/-- A data race on the map: two goroutines are both about to access
`c.items`, one of them writing, with no mutex operation between them. -/
def racing (s : Goroutines) : Bool :=
  let next := s.pending.map List.head?
  decide (1 ≤ next.count (some LockStep.mapWrite)) &&
    decide (2 ≤ next.count (some LockStep.mapWrite) + next.count (some LockStep.mapRead))

/-- Two goroutines at the start of the given methods, mutex free. -/
def start (first second : List LockStep) : Goroutines := ⟨⟨0, false⟩, [first, second]⟩

/-- Every schedule of two goroutines with at most `n` steps. -/
def schedules : Nat → List (List Nat)
  | 0 => [[]]
  | n + 1 => [] :: ((schedules n).map (List.cons 0) ++ (schedules n).map (List.cons 1))

/-- No schedule of at most `n` steps from `s` reaches a data race. -/
def raceFree (s : Goroutines) (n : Nat) : Bool :=
  (schedules n).all (fun schedule =>
    match run s schedule with
    | none => true
    | some s1 => !racing s1)

end Goroutines

/-! ## Sample data and predicates for the retrieval orchestrator and its identifiers -/

/-- A remote whose body stream breaks after two of four bytes. -/
def remoteBroken : GoString → HttpResponse :=
  fun _ => HttpResponse.response 200 [80, 75, 3, 4] (some 2)

/-- The UTF-8 bytes of a Go string. -/
def utf8 (s : GoString) : Bytes :=
  s.flatMap (fun c => (String.utf8EncodeChar c).map UInt8.toNat)

namespace url

/-- Go `ishex`. -/
def ishex (c : Char) : Bool :=
  (decide ('0' ≤ c) && decide (c ≤ '9')) || (decide ('a' ≤ c) && decide (c ≤ 'f')) ||
    (decide ('A' ≤ c) && decide (c ≤ 'F'))

/-- Go `unhex`. -/
def unhex (c : Char) : Nat :=
  if '0' ≤ c ∧ c ≤ '9' then c.toNat - 48
  else if 'a' ≤ c ∧ c ≤ 'f' then c.toNat - 97 + 10
  else if 'A' ≤ c ∧ c ≤ 'F' then c.toNat - 65 + 10
  else 0

/-- Go `unescape(s, mode)` for the modes `encodeQueryComponent` (`query =
true`, used by `QueryUnescape`) and `encodePathSegment` (`query = false`, used
by `PathUnescape`), returning the bytes of the result: `%XX` becomes the byte
`XX`, a malformed `%` is an error, `+` becomes a space in query mode only. -/
def unescape (query : Bool) : GoString → Option Bytes
  | [] => some []
  | c :: rest =>
    if c = '%' then
      match rest with
      | h1 :: h2 :: rest2 =>
        if ishex h1 && ishex h2 then
          (unescape query rest2).map (fun t => (unhex h1 * 16 + unhex h2) :: t)
        else none
      | _ => none
    else if c = '+' then
      (unescape query rest).map (fun t => (if query then 32 else 43) :: t)
    else (unescape query rest).map (fun t => utf8 [c] ++ t)

/-- Go `url.PathUnescape`. -/
def PathUnescape (s : GoString) : Option Bytes := unescape false s

/-- Go `url.QueryUnescape`. -/
def QueryUnescape (s : GoString) : Option Bytes := unescape true s

/-- What `QueryEscape` writes for one character. -/
def escapeChar (c : Char) : GoString :=
  if unreserved c then [c]
  else if c = ' ' then ['+']
  else (String.utf8EncodeChar c).flatMap (fun b =>
    ['%', upperhex (b.toNat / 16), upperhex (b.toNat % 16)])

end url

/-- The magnitude of an integer-valued double. -/
def Float64.magnitude (v : Float64) : Nat :=
  if 0 ≤ v.exp then v.mant * 2 ^ v.exp.toNat else v.mant / 2 ^ (-v.exp).toNat

/-- The number a string of decimal digits denotes. -/
def decimalValue (ds : GoString) : Nat :=
  ds.foldl (fun acc c => 10 * acc + (c.toNat - 48)) 0

/-- Plain decimal notation of an integer: a minus sign when negative, then
the decimal digits of the magnitude. -/
def plainDecimal (negative : Bool) (magnitude : Nat) : GoString :=
  (if negative then ['-'] else []) ++ Nat.toDigits 10 magnitude

namespace filepath

/-- A relative path made only of ordinary components: cut at the separators,
every piece is an ordinary element (none is empty, `.` or `..`). -/
def IsOrdinary (name : GoString) : Prop := ∀ e ∈ splitSep name, IsElement e

instance (name : GoString) : Decidable (IsOrdinary name) := by
  unfold IsOrdinary
  exact inferInstance

end filepath

/-! ## `internal/pkg/fileutil`: type detection and display formatting -/

namespace strings

/-- Go `strings.ToLower`: an ASCII upper-case letter becomes the lower-case
letter, every other ASCII character stays; a character outside ASCII goes
through the table `unicode.ToLower`, a parameter of the model. -/
def ToLower (unicodeLower : Char → Char) (s : GoString) : GoString :=
  s.map (fun c => if c.toNat < 128 then c.toLower else unicodeLower c)

end strings

namespace filepath

/-- The loop of `filepath.Ext`, walking the path backwards from its end: the
first argument is `path[:i+1]` reversed, the second is `path[i+1:]`.  The
walk stops without result at a separator and returns `path[i:]` at a dot. -/
def extLoop : GoString → GoString → GoString
  | [], _ => []
  | c :: before, suffix =>
    if c = Separator then []
    else if c = '.' then c :: suffix
    else extLoop before (c :: suffix)

/-- Go `filepath.Ext`: the suffix beginning at the final dot in the final
element of the path; empty if there is no dot. -/
def Ext (path : GoString) : GoString := extLoop path.reverse []

end filepath

/-- What `json.Unmarshal` stores in an `interface{}`. -/
inductive JsonValue where
  | null
  | bool (b : Bool)
  | number (v : Float64)
  | string (s : GoString)
  | array (items : List JsonValue)
  | object (fields : List (GoString × JsonValue))

/-- The two functions of the standard library `encoding/json` the file
utility calls, on an `interface{}` target: `json.Unmarshal` (absent result:
the call returned an error) and `json.MarshalIndent(v, prefix, indent)`. -/
structure JsonCodec where
  Unmarshal : Bytes → Option JsonValue
  MarshalIndent : JsonValue → GoString → GoString → Option Bytes

namespace FileUtil

/-- `FileUtil.isJSON`. -/
def isJSON (json : JsonCodec) (content : Bytes) : Bool := (json.Unmarshal content).isSome

/-- `FileUtil.DetectFileType(filename, content)`. -/
def DetectFileType (unicodeLower : Char → Char) (json : JsonCodec) (filename : GoString)
    (content : Bytes) : String :=
  let ext := strings.ToLower unicodeLower (filepath.Ext filename)
  if ext = ".json".toList then "json"
  else if ext = ".log".toList ∨ ext = ".txt".toList then "text"
  else if ext = ".xml".toList then "xml"
  else if ext = ".yaml".toList ∨ ext = ".yml".toList then "yaml"
  else if ext = ".html".toList ∨ ext = ".htm".toList then "html"
  else if isJSON json content then "json"
  else "text"

/-- `FileUtil.FormatContent(content, fileType)`. -/
def FormatContent (json : JsonCodec) (content : Bytes) (fileType : String) : Bytes :=
  if fileType = "json" then
    match json.Unmarshal content with
    | some v =>
      match json.MarshalIndent v [] [' ', ' '] with
      | some formatted => formatted
      | none => content
    | none => content
  else content

/-- `FileUtil.IsFile(path)`. -/
def IsFile (fs : FS) (path : GoString) : Bool :=
  match fs.Stat path with
  | Except.error _ => false
  | Except.ok fileInfo => !fileInfo.IsDir

end FileUtil

/-! ## `FileService.GetFileContent` -/

/-- `models.FileContent`; `Typ` is the Go field `Type`. -/
structure FileContent where
  Content : Bytes
  Typ : String
  Size : Int
  deriving DecidableEq, Repr

/-- The path a system call of the content reader is issued on. -/
def SysCall.path : SysCall → GoString
  | SysCall.stat p => p
  | SysCall.openFile p => p
  | SysCall.read p _ => p
  | SysCall.readFile p => p

namespace FileService

/-- `FileService.GetFileContent(logID, filePath)`, returning the result
together with the system calls performed.  `errorText e` stands for the text
`fmt.Sprintf("读取文件时出错: %v", err)`. -/
def GetFileContent (cfg : Config) (unicodeLower : Char → Char) (json : JsonCodec)
    (notice : Int → Bytes) (errorText : ReadError → Bytes) (env : ReadEnv)
    (logID filePath : GoString) : Except ServiceError FileContent × List SysCall :=
  let extractPath := filepath.Join cfg.Storage.ExtractDir logID
  let fullPath := filepath.Join extractPath filePath
  let notExist :=
    match env.fs.Stat fullPath with
    | Except.error OsError.ENOENT => true
    | _ => false
  if notExist then (Except.error ServiceError.fileNotFound, [SysCall.stat fullPath])
  else if !(FileUtil.IsFile env.fs fullPath) then
    (Except.error ServiceError.fileNotFound, [SysCall.stat fullPath, SysCall.stat fullPath])
  else
    let r := FileUtil.ReadFileContent cfg notice env fullPath
    let trace := SysCall.stat fullPath :: SysCall.stat fullPath :: r.2
    match r.1 with
    | Except.error e => (Except.ok ⟨errorText e, "error", 0⟩, trace)
    | Except.ok content =>
      let fileType := FileUtil.DetectFileType unicodeLower json filePath content
      (Except.ok ⟨FileUtil.FormatContent json content fileType, fileType, content.length⟩, trace)

end FileService

/-! ## `utils/log_processor.go`: the legacy tree builder -/

namespace LogProcessor

/-- The inner loop `for j := i + 1; j < len(node.Children); j++` of the sort
in `buildTree` for a fixed `i`: `x` is `Children[i]` and the list is
`Children[i+1:]`; the two are exchanged whenever `Children[i].Name >
Children[j].Name`.  Returns `Children[i]` and `Children[i+1:]` after the loop. -/
def sortInner (x : FileNode) : List FileNode → FileNode × List FileNode
  | [] => (x, [])
  | y :: ys =>
    if x.Name > y.Name then
      let r := sortInner y ys
      (r.1, x :: r.2)
    else
      let r := sortInner x ys
      (r.1, y :: r.2)

/-- The outer loop `for i := 0; i < len(node.Children)-1; i++`, with the
number of iterations still to run and the slice `Children[i:]`. -/
def sortOuter : Nat → List FileNode → List FileNode
  | 0, nodes => nodes
  | _ + 1, [] => []
  | n + 1, x :: rest =>
    let r := sortInner x rest
    r.1 :: sortOuter n r.2

/-- The sort of `buildTree` ("按名称排序", by name). -/
def sortByName (nodes : List FileNode) : List FileNode := sortOuter (nodes.length - 1) nodes

mutual
/-- `LogProcessor.buildTree(rootPath, relativePath)` against the answers `fs`
of the operating system at and below `rootPath`. -/
def buildTree (fs : FsView) (rootPath relativePath : GoString) : Except OsError FileNode :=
  match fs with
  | FsView.statFails => Except.error OsError.ENOENT
  | FsView.file size =>
    Except.ok ⟨filepath.Base rootPath, relativePath, "file", size, []⟩
  | FsView.dirUnlistable => Except.error OsError.EIO
  | FsView.dir entries =>
    Except.ok ⟨filepath.Base rootPath, relativePath, "directory", 0,
      sortByName (buildChildren entries rootPath relativePath)⟩
/-- The `for _, entry := range entries` loop of `buildTree`. -/
def buildChildren (entries : List (GoString × FsView)) (rootPath relativePath : GoString) :
    List FileNode :=
  match entries with
  | [] => []
  | (name, sub) :: rest =>
    match buildTree sub (filepath.Join rootPath name) (filepath.Join relativePath name) with
    | Except.error _ => buildChildren rest rootPath relativePath
    | Except.ok child => child :: buildChildren rest rootPath relativePath
end

end LogProcessor

/-! ## What `Extract` places where -/

namespace ZipUtil

/-- Whether `Extract` lets the entry through its prefix check. -/
def accepts (extractTo : GoString) (file : ZipFile) : Bool :=
  strings.HasPrefix (filepath.Join extractTo file.Name) (filepath.Clean extractTo ++ [Separator])

/-- Whether the entry is a file entry that `Extract` writes at the path `p`. -/
def writes (extractTo p : GoString) (file : ZipFile) : Bool :=
  accepts extractTo file && !file.IsDir && decide (filepath.Join extractTo file.Name = p)

/-- The last entry of the archive that satisfies `pred`. -/
def lastWhere (pred : ZipFile → Bool) : List ZipFile → Option ZipFile
  | [] => none
  | file :: rest =>
    match lastWhere pred rest with
    | some later => some later
    | none => if pred file then some file else none

end ZipUtil

/-! ## Sample data for type detection, extraction, lookup and content requests -/

/-- JSON white space: space, tab, line feed, carriage return. -/
def jsonSpace (b : Nat) : Bool := decide (b = 32) || decide (b = 9) || decide (b = 10) || decide (b = 13)

/-- A small decoder and encoder for the concrete instances, covering the JSON
literals: `null`, `true` and `false` surrounded by any white space decode, and
encode as the bare literal. -/
def literalCodec : JsonCodec where
  Unmarshal := fun content =>
    let text := ((content.dropWhile jsonSpace).reverse.dropWhile jsonSpace).reverse
    if text = [110, 117, 108, 108] then some JsonValue.null
    else if text = [116, 114, 117, 101] then some (JsonValue.bool true)
    else if text = [102, 97, 108, 115, 101] then some (JsonValue.bool false)
    else none
  MarshalIndent := fun v _ _ =>
    match v with
    | JsonValue.null => some [110, 117, 108, 108]
    | JsonValue.bool true => some [116, 114, 117, 101]
    | JsonValue.bool false => some [102, 97, 108, 115, 101]
    | _ => none

/-- An archive in which two differently spelled names resolve to one path. -/
def aliasArchive : List ZipFile :=
  [⟨"a".toList, false, ZipPayload.data [1]⟩, ⟨"./a".toList, false, ZipPayload.data [2]⟩]

/-- A container parser that reads every file as `aliasArchive`. -/
def aliasParse : Bytes → Option (List ZipFile) := fun _ => some aliasArchive

/-- An archive with a directory entry, a file below it and a file that occurs
twice. -/
def plainArchive : List ZipFile :=
  [⟨"d".toList, true, ZipPayload.data []⟩,
   ⟨"d/x.txt".toList, false, ZipPayload.data [1]⟩,
   ⟨"a".toList, false, ZipPayload.data [2]⟩,
   ⟨"a".toList, false, ZipPayload.data [3]⟩]

/-- A container parser that reads every file as `plainArchive`. -/
def plainParse : Bytes → Option (List ZipFile) := fun _ => some plainArchive

/-- The world after log `log1` was downloaded, browsed at instant `1000` and
then deleted through the delete handler. -/
def deletedWorld : World := (LogHandler.DeleteLog sampleConfig browsedWorld "log1".toList).1

/-- A disk with the extracted logs `log1` (one file) and `log2` (one file),
and a file outside the extraction root. -/
def sharedDisk : FS :=
  ⟨[("storage/extracted/log1/a.txt".toList, FsObj.file [104, 105]),
    ("storage/extracted/log1".toList, FsObj.dir),
    ("storage/extracted/log2/secret.txt".toList, FsObj.file [115, 51]),
    ("storage/extracted/log2".toList, FsObj.dir),
    ("storage/extracted".toList, FsObj.dir),
    ("storage".toList, FsObj.dir),
    ("app.db".toList, FsObj.file [1, 2, 3])]⟩

/-- The reader environment on `sharedDisk` without I/O faults. -/
def sharedEnv : ReadEnv := ⟨sharedDisk, false, false, fun _ => false⟩

/-- A directory holding the subdirectory `a` and the file `B.txt`. -/
def mixedCaseView : FsView :=
  FsView.dir [("a".toList, FsView.dir []), ("B.txt".toList, FsView.file 4)]

/-- The names and types of the children of a built tree. -/
def childrenOf (r : Except OsError FileNode) : Option (List (GoString × String)) :=
  r.toOption.map (fun node => node.Children.map (fun c => (c.Name, c.Typ)))

/-! ## The truncation notice of the preview -/

/-- Go `float64(n)` for an `int64` `n`: exact when the magnitude has at most
53 bits, otherwise rounded to 53 bits, ties to even. -/
def Float64.ofInt (n : Int) : Float64 :=
  let m := n.natAbs
  let shift : Nat := if m < 9007199254740992 then 0 else Nat.log2 m - 52
  ⟨decide (n < 0), fmt.roundHalfEven m (-(shift : Int)), shift⟩

/-- Go `v / 1024` on doubles: a division by a power of two is exact. -/
def Float64.div1024 (v : Float64) : Float64 := ⟨v.sign, v.mant, v.exp - 10⟩

namespace fmt

/-- The decimal digit of a number below ten. -/
def digit (n : Nat) : Char := Char.ofNat (48 + n % 10)

/-- Rendering of `%.2f`: the exact value rounded to hundredths, ties to
even. -/
def sprintFloat2 (v : Float64) : GoString :=
  let n := roundHalfEven (v.mant * 100) v.exp
  (if v.sign then ['-'] else []) ++ Nat.toDigits 10 (n / 100) ++
    ['.', digit (n / 10), digit n]

end fmt

namespace FileUtil

/-- The text `fmt.Sprintf("\n\n... (文件太大，仅显示前 %.2f KB)",
float64(maxBytes)/1024)` that `readFilePreview` appends. -/
def previewNotice (maxBytes : Int) : Bytes :=
  utf8 ("\n\n... (文件太大，仅显示前 ".toList ++
    fmt.sprintFloat2 (Float64.ofInt maxBytes).div1024 ++ " KB)".toList)

end FileUtil

/-- A disk with one file of `2^30 + 2` zero bytes. -/
def bigDisk : FS := ⟨[("/big".toList, FsObj.file (List.replicate 1073741826 0))]⟩

/-- The reader environment on `bigDisk` without I/O faults. -/
def bigEnv : ReadEnv := ⟨bigDisk, false, false, fun _ => false⟩

/-! ## Predicates on paths for identifiers and extraction destinations -/

namespace filepath

/-- The elements `filepath.Clean` keeps of `name` read as a path relative to
some directory, most recent first. -/
def relStack (name : GoString) : List GoString := (splitSep name).foldl (cleanStep false) []

/-- The name, resolved relative to a directory, stays inside that directory:
cleaning it leaves at least one element and no `..`. -/
def StaysBelow (name : GoString) : Prop := relStack name ≠ [] ∧ dotdot ∉ relStack name

instance (name : GoString) : Decidable (StaysBelow name) := by
  unfold StaysBelow
  exact inferInstance

/-- The directory name used to show that a name leaves its directory: longer
than the name, hence none of its elements. -/
def freshRoot (name : GoString) : GoString := List.replicate (name.length + 1) 'r'

/-- The path is a chain of `..` elements: `..`, `../..`, and so on. -/
def IsDotDotChain (path : GoString) : Prop := ∀ e ∈ splitSep path, e = dotdot

instance (path : GoString) : Decidable (IsDotDotChain path) := by
  unfold IsDotDotChain
  exact inferInstance

end filepath

/-! ## Lemmas on paths -/

namespace filepath

theorem splitSep_ne_nil (s : GoString) : splitSep s ≠ [] := by
  cases s with
  | nil => simp [splitSep]
  | cons c cs =>
    simp only [splitSep]
    split
    · simp
    · split <;> simp

theorem splitSep_append_sep (a b : GoString) :
    splitSep (a ++ Separator :: b) = splitSep a ++ splitSep b := by
  induction a with
  | nil => simp [splitSep]
  | cons c a ih =>
    rw [show (c :: a) ++ Separator :: b = c :: (a ++ Separator :: b) from rfl]
    simp only [splitSep]
    by_cases hc : c = Separator
    · simp [hc, ih]
    · simp only [hc, if_false]
      rw [ih]
      cases h : splitSep a with
      | nil => exact absurd h (splitSep_ne_nil a)
      | cons x xs => simp

theorem splitSep_of_not_mem (e : GoString) (h : Separator ∉ e) : splitSep e = [e] := by
  induction e with
  | nil => simp [splitSep]
  | cons c e ih =>
    have hc : c ≠ Separator := fun hc => h (by simp [hc])
    have he : Separator ∉ e := fun he => h (by simp [he])
    simp [splitSep, hc, ih he]

theorem not_mem_of_mem_splitSep (s e : GoString) (h : e ∈ splitSep s) : Separator ∉ e := by
  induction s generalizing e with
  | nil => simp [splitSep] at h; simp [h]
  | cons c s ih =>
    simp only [splitSep] at h
    by_cases hc : c = Separator
    · simp only [hc, if_true, List.mem_cons] at h
      rcases h with h | h
      · simp [h]
      · exact ih e h
    · simp only [hc, if_false] at h
      cases hs : splitSep s with
      | nil => exact absurd hs (splitSep_ne_nil s)
      | cons x xs =>
        rw [hs] at h ih
        simp only [List.mem_cons] at h
        rcases h with h | h
        · subst h
          have hx := ih x (by simp)
          intro hm
          simp only [List.mem_cons] at hm
          rcases hm with hm | hm
          · exact hc hm.symm
          · exact hx hm
        · exact ih e (by simp [h])

theorem splitSep_joinSep (es : List GoString) (hne : es ≠ [])
    (h : ∀ e ∈ es, Separator ∉ e) : splitSep (joinSep es) = es := by
  induction es with
  | nil => exact absurd rfl hne
  | cons e es ih =>
    cases es with
    | nil => simpa [joinSep] using splitSep_of_not_mem e (h e (by simp))
    | cons e2 es =>
      simp only [joinSep]
      rw [splitSep_append_sep, splitSep_of_not_mem e (h e (by simp)),
        ih (by simp) (fun x hx => h x (by simp [hx]))]
      simp

theorem joinSep_append_singleton (es : List GoString) (e : GoString) (hne : es ≠ []) :
    joinSep (es ++ [e]) = joinSep es ++ Separator :: e := by
  induction es with
  | nil => exact absurd rfl hne
  | cons x es ih =>
    cases es with
    | nil => simp [joinSep]
    | cons y es =>
      have h2 : joinSep (y :: (es ++ [e])) = joinSep (y :: es) ++ Separator :: e := by
        simpa using ih (by simp)
      show x ++ Separator :: joinSep (y :: (es ++ [e])) = _
      rw [h2]
      simp [joinSep]

end filepath

namespace filepath

theorem Normal_tail {rooted : Bool} {e : GoString} {below : List GoString}
    (h : Normal rooted (e :: below)) : Normal rooted below := h.2.2.2.2

theorem Normal_of_append {rooted : Bool} (xs acc : List GoString)
    (h : Normal rooted (xs ++ acc)) : Normal rooted acc := by
  induction xs with
  | nil => simpa using h
  | cons x xs ih => exact ih (Normal_tail h)

theorem cleanStep_normal (rooted : Bool) (stack : List GoString) (e : GoString)
    (hs : Normal rooted stack) (he : Separator ∉ e) : Normal rooted (cleanStep rooted stack e) := by
  unfold cleanStep
  by_cases h1 : e = [] ∨ e = ['.']
  · simp [h1, hs]
  · simp only [h1, if_false]
    have hne : e ≠ [] := fun h => h1 (Or.inl h)
    have hnd : e ≠ ['.'] := fun h => h1 (Or.inr h)
    by_cases h2 : e = ['.', '.']
    · simp only [h2, if_true]
      cases stack with
      | nil =>
        cases rooted with
        | true => simp [Normal]
        | false => simp [Normal, Separator, dotdot]
      | cons top rest =>
        by_cases h3 : top = ['.', '.']
        · simp only [h3, if_true]
          subst h3
          have htop := hs.2.2.2.1 rfl
          refine ⟨by simp, by simp, by simp [Separator], ?_, hs⟩
          intro _
          refine ⟨htop.1, ?_⟩
          intro x hx
          simp only [List.mem_cons] at hx
          rcases hx with hx | hx
          · exact hx
          · exact htop.2 x hx
        · simp only [h3, if_false]
          exact Normal_tail hs
    · simp only [h2, if_false]
      exact ⟨hne, hnd, he, fun h => absurd h h2, hs⟩

theorem foldl_cleanStep_normal (rooted : Bool) (es : List GoString) (acc : List GoString)
    (hacc : Normal rooted acc) (hes : ∀ e ∈ es, Separator ∉ e) :
    Normal rooted (es.foldl (cleanStep rooted) acc) := by
  induction es generalizing acc with
  | nil => simpa using hacc
  | cons e es ih =>
    simp only [List.foldl_cons]
    exact ih _ (cleanStep_normal rooted acc e hacc (hes e (by simp)))
      (fun x hx => hes x (by simp [hx]))

theorem cleanStack_normal (path : GoString) : Normal (isRooted path) (cleanStack path) :=
  foldl_cleanStep_normal _ _ [] trivial (fun e he => not_mem_of_mem_splitSep path e he)

/-- Elements that already form a cleaned stack are all appended. -/
theorem foldl_cleanStep_of_normal (rooted : Bool) (es acc : List GoString)
    (h : Normal rooted (es.reverse ++ acc)) :
    es.foldl (cleanStep rooted) acc = es.reverse ++ acc := by
  induction es generalizing acc with
  | nil => simp
  | cons e es ih =>
    simp only [List.foldl_cons, List.reverse_cons, List.append_assoc, List.singleton_append] at h ⊢
    have hn : Normal rooted (e :: acc) := Normal_of_append _ _ h
    have hstep : cleanStep rooted acc e = e :: acc := by
      unfold cleanStep
      have h1 : ¬ (e = [] ∨ e = ['.']) := by
        rintro (h1 | h1)
        · exact hn.1 h1
        · exact hn.2.1 h1
      simp only [h1, if_false]
      by_cases h2 : e = ['.', '.']
      · simp only [h2, if_true]
        have hd := hn.2.2.2.1 h2
        cases acc with
        | nil => simp [hd.1]
        | cons top rest =>
          have : top = ['.', '.'] := hd.2 top (by simp)
          simp [this]
      · simp [h2]
    rw [hstep]
    exact ih (e :: acc) h

theorem isRooted_render (rooted : Bool) (stack : List GoString) (hn : Normal rooted stack)
    (hne : stack ≠ [] ∨ rooted = true) : isRooted (render rooted stack) = rooted := by
  cases rooted with
  | true => simp [render, isRooted]
  | false =>
    have hs : stack ≠ [] := by simpa using hne
    simp only [render, Bool.false_eq_true, if_false, List.nil_append]
    obtain ⟨l, a, rfl⟩ : ∃ l a, stack = l ++ [a] := by
      rcases List.eq_nil_or_concat stack with h | ⟨l, a, h⟩
      · exact absurd h hs
      · exact ⟨l, a, by simpa using h⟩
    have ha : Normal false [a] := by
      have := Normal_of_append l [a] hn
      exact this
    simp only [List.reverse_append, List.reverse_singleton, List.singleton_append]
    cases a with
    | nil => exact absurd rfl ha.1
    | cons c a =>
      have hc : c ≠ Separator := fun hc => ha.2.2.1 (by simp [hc])
      cases hl : l.reverse with
      | nil => simp [joinSep, isRooted, hc]
      | cons y ys => simp [joinSep, isRooted, hc]

theorem cleanStack_render (rooted : Bool) (stack : List GoString) (hn : Normal rooted stack)
    (hne : stack ≠ [] ∨ rooted = true) : cleanStack (render rooted stack) = stack := by
  unfold cleanStack
  rw [isRooted_render rooted stack hn hne]
  have hall : ∀ e ∈ stack.reverse, Separator ∉ e := by
    intro e he
    have he2 : e ∈ stack := by simpa using he
    clear hne he
    induction stack with
    | nil => simp at he2
    | cons x xs ih =>
      simp only [List.mem_cons] at he2
      rcases he2 with h | h
      · subst h; exact hn.2.2.1
      · exact ih (Normal_tail hn) h
  by_cases hs : stack = []
  · subst hs
    have hr : rooted = true := by simpa using hne
    subst hr
    simp [render, joinSep, splitSep, cleanStep, Separator]
  · have hsplit : splitSep (joinSep stack.reverse) = stack.reverse :=
      splitSep_joinSep _ (by simpa using hs) hall
    have hfold : stack.reverse.foldl (cleanStep rooted) [] = stack := by
      have := foldl_cleanStep_of_normal rooted stack.reverse [] (by simpa using hn)
      simpa using this
    cases rooted with
    | true =>
      simp only [render, if_true, List.singleton_append]
      rw [show splitSep (Separator :: joinSep stack.reverse) = [] :: splitSep (joinSep stack.reverse) by
        simp [splitSep]]
      rw [hsplit]
      simp only [List.foldl_cons]
      rw [show cleanStep true [] [] = [] by simp [cleanStep]]
      exact hfold
    | false =>
      simp only [render, Bool.false_eq_true, if_false, List.nil_append]
      rw [hsplit]
      exact hfold

end filepath

namespace filepath

theorem render_ne_nil (rooted : Bool) (stack : List GoString) (hn : Normal rooted stack)
    (hne : stack ≠ [] ∨ rooted = true) : render rooted stack ≠ [] := by
  intro h
  have := isRooted_render rooted stack hn hne
  rw [h] at this
  cases rooted with
  | true => simp [isRooted] at this
  | false =>
    have hs : stack ≠ [] := by simpa using hne
    have h2 := cleanStack_render false stack hn hne
    rw [h] at h2
    simp [cleanStack, splitSep, cleanStep] at h2
    exact hs h2

/-- A rendered clean stack is a fixed point of `Clean`. -/
theorem Clean_render (rooted : Bool) (stack : List GoString) (hn : Normal rooted stack)
    (hne : stack ≠ [] ∨ rooted = true) : Clean (render rooted stack) = render rooted stack := by
  have h0 := render_ne_nil rooted stack hn hne
  unfold Clean
  simp only [h0, if_false]
  rw [cleanStack_render rooted stack hn hne, isRooted_render rooted stack hn hne]
  simp [h0]

theorem Clean_ne_nil (path : GoString) : Clean path ≠ [] := by
  unfold Clean
  by_cases h : path = []
  · simp [h]
  · simp only [h, if_false]
    by_cases h2 : render (isRooted path) (cleanStack path) = []
    · simp [h2]
    · simp [h2]

/-- Every result of `Clean` is `.` or the rendering of a clean stack. -/
theorem Clean_cases (path : GoString) :
    Clean path = ['.'] ∨
      (Clean path = render (isRooted path) (cleanStack path) ∧
        (cleanStack path ≠ [] ∨ isRooted path = true)) := by
  unfold Clean
  by_cases h : path = []
  · simp [h]
  · simp only [h, if_false]
    by_cases h2 : render (isRooted path) (cleanStack path) = []
    · simp [h2]
    · right
      refine ⟨by simp [h2], ?_⟩
      by_contra hc
      push_neg at hc
      apply h2
      have hr : isRooted path = false := by simpa using hc.2
      simp [render, hc.1, hr, joinSep]

/-- `filepath.Clean` is idempotent. -/
theorem Clean_idem (path : GoString) : Clean (Clean path) = Clean path := by
  rcases Clean_cases path with h | ⟨h, hne⟩
  · rw [h]; decide
  · rw [h]
    exact Clean_render _ _ (cleanStack_normal path) hne

/-- A trailing separator does not change the cleaned path. -/
theorem Clean_append_sep (a : GoString) (ha : a ≠ []) : Clean (a ++ [Separator]) = Clean a := by
  have hr : isRooted (a ++ [Separator]) = isRooted a := by
    cases a with
    | nil => exact absurd rfl ha
    | cons c a => simp [isRooted]
  have hs : cleanStack (a ++ [Separator]) = cleanStack a := by
    unfold cleanStack
    rw [hr, splitSep_append_sep]
    simp [splitSep, cleanStep]
  unfold Clean
  simp [ha, hr, hs]

theorem dirPart_append (a e : GoString) (he : Separator ∉ e) :
    dirPart (a ++ Separator :: e) = a ++ [Separator] := by
  unfold dirPart
  have h1 : (a ++ Separator :: e).reverse = e.reverse ++ (Separator :: a.reverse) := by simp
  rw [h1]
  have h2 : ∀ l : List Char, (∀ c ∈ l, c ≠ Separator) →
      (l ++ Separator :: a.reverse).dropWhile (fun c => decide (c ≠ Separator))
        = Separator :: a.reverse := by
    intro l hl
    induction l with
    | nil => simp [List.dropWhile]
    | cons c l ih =>
      have hc : c ≠ Separator := hl c (by simp)
      simp only [List.cons_append, List.dropWhile, hc, ne_eq, not_false_eq_true, decide_True]
      exact ih (fun x hx => hl x (by simp [hx]))
  rw [h2 e.reverse (fun c hc hcs => he (by
    have : c ∈ e := by simpa using hc
    exact hcs ▸ this))]
  simp

/-- Two ways of cutting a text at a separator: when the piece after the
first cut holds no separator, the first cut is at or after the second. -/
theorem cut_compare (a e d r : GoString) (he : Separator ∉ e)
    (h : a ++ Separator :: e = d ++ Separator :: r) :
    a = d ∨ ∃ c, a = d ++ Separator :: c := by
  rcases List.append_eq_append_iff.mp h with ⟨x, hx1, hx2⟩ | ⟨x, hx1, hx2⟩
  · cases x with
    | nil => left; exact (by simpa using hx1 : d = a).symm
    | cons y x =>
      simp only [List.cons_append, List.cons.injEq] at hx2
      exact absurd (by rw [hx2.2]; simp) he
  · cases x with
    | nil => left; simpa using hx1
    | cons y x =>
      simp only [List.cons_append, List.cons.injEq] at hx2
      right
      exact ⟨x, by rw [hx1, hx2.1]⟩

/-- The parent of a cleaned path that lies below `d` is `d` itself or lies
below `d`. -/
theorem Dir_under (x d : GoString) (hd : d ≠ [])
    (h : d ++ [Separator] <+: Clean x) :
    Dir (Clean x) = d ∨ d ++ [Separator] <+: Dir (Clean x) := by
  obtain ⟨r, hr⟩ := h
  have hr2 : Clean x = d ++ Separator :: r := by simpa using hr.symm
  rcases Clean_cases x with h1 | ⟨h1, hne⟩
  · rw [h1] at hr2
    cases d with
    | nil => exact absurd rfl hd
    | cons c d =>
      simp only [List.cons_append, List.cons.injEq] at hr2
      have := hr2.2
      simp at this
  · have hn := cleanStack_normal x
    cases hst : cleanStack x with
    | nil =>
      rw [hst] at h1
      rw [h1] at hr2
      cases d with
      | nil => exact absurd rfl hd
      | cons c d =>
        cases hrt : isRooted x <;> simp [render, joinSep, hrt] at hr2
    | cons e below =>
      rw [hst] at hn h1
      have hes : Separator ∉ e := hn.2.2.1
      cases below with
      | nil =>
        exfalso
        rw [h1] at hr2
        cases hrt : isRooted x with
        | false =>
          simp only [render, hrt, Bool.false_eq_true, if_false, List.nil_append, List.reverse_cons,
            List.reverse_nil, joinSep] at hr2
          exact hes (by rw [hr2]; simp)
        | true =>
          simp only [render, hrt, if_true, List.reverse_cons, List.reverse_nil, List.nil_append,
            joinSep, List.singleton_append] at hr2
          cases d with
          | nil => exact absurd rfl hd
          | cons c d =>
            simp only [List.cons_append, List.cons.injEq] at hr2
            exact hes (by rw [hr2.2]; simp)
      | cons b below =>
        have hnb : Normal (isRooted x) (b :: below) := Normal_tail hn
        have hA : Clean x = render (isRooted x) (b :: below) ++ Separator :: e := by
          rw [h1]
          simp only [render, List.reverse_cons, List.append_assoc]
          rw [← List.append_assoc below.reverse [b] [e],
            joinSep_append_singleton _ e (by simp)]
        have hAne : render (isRooted x) (b :: below) ≠ [] :=
          render_ne_nil _ _ hnb (Or.inl (by simp))
        have hDir : Dir (Clean x) = render (isRooted x) (b :: below) := by
          unfold Dir
          rw [hA, dirPart_append _ _ hes, Clean_append_sep _ hAne]
          exact Clean_render _ _ hnb (Or.inl (by simp))
        rw [hDir]
        rw [hA] at hr2
        rcases cut_compare _ _ _ _ hes hr2 with hc | ⟨c, hc⟩
        · exact Or.inl hc
        · right
          exact ⟨c, by rw [hc]; simp⟩

end filepath

/-! ## Lemmas on the disk model -/

namespace FS

theorem find_filter_ne (p q : GoString) (l : List (GoString × FsObj)) :
    find q (l.filter (fun kv => decide (kv.1 ≠ p))) = if q = p then none else find q l := by
  induction l with
  | nil => simp [find]
  | cons kv l ih =>
    obtain ⟨k, o⟩ := kv
    rw [List.filter_cons]
    by_cases hk : k = p
    · have hd : decide ((k, o).1 ≠ p) = false := by simp [hk]
      rw [hd, if_neg (by simp), ih]
      by_cases hq : q = p
      · simp [hq]
      · have hkq : ¬ k = q := fun h => hq (h ▸ hk)
        simp [hq, find, hkq]
    · have hd : decide ((k, o).1 ≠ p) = true := by simp [hk]
      rw [hd, if_pos rfl]
      simp only [find]
      by_cases hkq : k = q
      · have hq : ¬ q = p := fun h => hk (hkq ▸ h)
        simp [hkq, hq]
      · simp only [hkq, if_false]
        exact ih

theorem lookup_put (fs : FS) (p q : GoString) (o : FsObj) :
    (fs.put p o).lookup q = if q = p then some o else fs.lookup q := by
  unfold put lookup
  by_cases hq : q = p
  · simp [find, hq]
  · have hq2 : ¬ p = q := fun h => hq h.symm
    simp only [find, hq2, if_false, hq]
    rw [find_filter_ne]
    simp [hq]

theorem mem_ancestors (p a : GoString) :
    a ∈ ancestors p ↔ a ≠ [] ∧ ∃ r, p = a ++ Separator :: r := by
  unfold ancestors
  simp only [List.mem_filter, List.mem_inits, Bool.and_eq_true, decide_eq_true_eq]
  constructor
  · rintro ⟨⟨t, ht⟩, hne, hh⟩
    refine ⟨hne, ?_⟩
    subst ht
    simp only [List.drop_left] at hh
    cases t with
    | nil => simp at hh
    | cons c t =>
      simp only [List.head?_cons, Option.some.injEq] at hh
      exact ⟨t, by rw [hh]⟩
  · rintro ⟨hne, r, hr⟩
    subst hr
    exact ⟨⟨_, rfl⟩, hne, by simp⟩

/-- A chain of `mkdir` calls changes only paths of the chain that held
nothing before. -/
theorem mkdirChain_frame (qs : List GoString) (fs : FS) (q : GoString)
    (h : (mkdirChain fs qs).1.lookup q ≠ fs.lookup q) : q ∈ qs ∧ fs.lookup q = none := by
  induction qs generalizing fs with
  | nil => simp [mkdirChain] at h
  | cons q0 qs ih =>
    unfold mkdirChain at h
    cases hl : fs.lookup q0 with
    | none =>
      simp only [hl] at h
      by_cases hch : (mkdirChain (fs.put q0 FsObj.dir) qs).1.lookup q = (fs.put q0 FsObj.dir).lookup q
      · rw [hch, lookup_put] at h
        by_cases hq : q = q0
        · subst hq; exact ⟨by simp, hl⟩
        · simp [hq] at h
      · obtain ⟨hm, hn⟩ := ih _ hch
        rw [lookup_put] at hn
        by_cases hq : q = q0
        · simp [hq] at hn
        · simp only [hq, if_false] at hn
          exact ⟨by simp [hm], hn⟩
    | some o =>
      cases o with
      | dir =>
        simp only [hl] at h
        obtain ⟨hm, hn⟩ := ih _ h
        exact ⟨by simp [hm], hn⟩
      | file d =>
        simp [hl] at h

theorem mkdirChain_keeps (qs : List GoString) (fs : FS) (q : GoString) (o : FsObj)
    (h : fs.lookup q = some o) : (mkdirChain fs qs).1.lookup q = some o := by
  by_contra hc
  have hne : (mkdirChain fs qs).1.lookup q ≠ fs.lookup q := by rw [h]; exact hc
  have := (mkdirChain_frame qs fs q hne).2
  rw [h] at this
  exact absurd this (by simp)

/-- After a successful chain every element of the chain is a directory. -/
theorem mkdirChain_ok (qs : List GoString) (fs : FS)
    (h : (mkdirChain fs qs).2 = none) :
    ∀ q ∈ qs, (mkdirChain fs qs).1.lookup q = some FsObj.dir := by
  induction qs generalizing fs with
  | nil => intro q hq; simp at hq
  | cons q0 qs ih =>
    intro q hq
    unfold mkdirChain at h ⊢
    cases hl : fs.lookup q0 with
    | none =>
      simp only [hl] at h ⊢
      simp only [List.mem_cons] at hq
      rcases hq with hq | hq
      · subst hq
        exact mkdirChain_keeps _ _ _ _ (by rw [lookup_put]; simp)
      · exact ih _ h q hq
    | some o =>
      cases o with
      | dir =>
        simp only [hl] at h ⊢
        simp only [List.mem_cons] at hq
        rcases hq with hq | hq
        · subst hq
          exact mkdirChain_keeps _ _ _ _ hl
        · exact ih _ h q hq
      | file d => simp [hl] at h

end FS

/-! ## Safe extractor: confinement below the destination (C1, C2) -/

namespace FS

theorem MkdirAll_ready (fs : FS) (path : GoString) (h : (fs.MkdirAll path).2 = none) :
    DestReady (fs.MkdirAll path).1 (filepath.Clean path) := by
  intro q hq
  apply mkdirChain_ok _ _ h
  rcases hq with hq | hq
  · simp [hq]
  · simp [hq]

/-- No ancestor-or-self of `d` lies strictly below `d`. -/
theorem not_under_of_ready_path (d q : GoString) (hq : q = d ∨ q ∈ ancestors d) :
    ¬ (d ++ [Separator] <+: q) := by
  intro hp
  have hlen := hp.length_le
  rcases hq with hq | hq
  · subst hq
    simp at hlen
  · obtain ⟨_, r, hr⟩ := (mem_ancestors d q).mp hq
    have : d.length = q.length + (r.length + 1) := by rw [hr]; simp
    simp at hlen
    omega

theorem DestReady_of_frame (fs fs2 : FS) (d : GoString) (hr : DestReady fs d)
    (hf : ∀ q, fs2.lookup q ≠ fs.lookup q → d ++ [Separator] <+: q) : DestReady fs2 d := by
  intro q hq
  by_cases hch : fs2.lookup q = fs.lookup q
  · rw [hch]; exact hr q hq
  · exact absurd (hf q hch) (not_under_of_ready_path d q hq)

/-- `MkdirAll` of a cleaned path at or below an existing directory `d`
creates directories below `d` only. -/
theorem MkdirAll_frame_under (fs : FS) (d path : GoString) (hr : DestReady fs d)
    (hclean : filepath.Clean path = path)
    (hunder : path = d ∨ d ++ [Separator] <+: path) (q : GoString)
    (h : (fs.MkdirAll path).1.lookup q ≠ fs.lookup q) : d ++ [Separator] <+: q := by
  unfold MkdirAll at h
  simp only [hclean] at h
  obtain ⟨hm, hnone⟩ := mkdirChain_frame _ _ _ h
  have hnot : ¬ (q = d ∨ q ∈ ancestors d) := by
    intro hq
    rw [hr q hq] at hnone
    exact absurd hnone (by simp)
  simp only [List.mem_append, List.mem_singleton] at hm
  rcases hm with hm | hm
  · obtain ⟨hne, r, hr2⟩ := (mem_ancestors path q).mp hm
    rcases hunder with hu | ⟨t, ht⟩
    · exact absurd (Or.inr (hu ▸ hm)) hnot
    · have heq : q ++ Separator :: r = d ++ Separator :: t := by
        rw [← hr2, ← ht]; simp
      rcases List.append_eq_append_iff.mp heq with ⟨x, hx1, hx2⟩ | ⟨x, hx1, hx2⟩
      · cases x with
        | nil => exact absurd (Or.inl (by simpa using hx1.symm)) hnot
        | cons y x =>
          simp only [List.cons_append, List.cons.injEq] at hx2
          exact absurd (Or.inr ((mem_ancestors d q).mpr ⟨hne, x, by rw [hx1, hx2.1]⟩)) hnot
      · cases x with
        | nil => exact absurd (Or.inl (by simpa using hx1)) hnot
        | cons y x =>
          simp only [List.cons_append, List.cons.injEq] at hx2
          exact ⟨x, by rw [hx1, hx2.1]; simp⟩
  · rcases hunder with hu | hu
    · exact absurd (Or.inl (hm.trans hu)) hnot
    · rw [hm]; exact hu

theorem Create_frame (fs : FS) (path q : GoString)
    (h : (fs.Create path).1.lookup q ≠ fs.lookup q) : q = filepath.Clean path := by
  unfold Create at h
  by_contra hq
  apply h
  simp only []
  split
  · rfl
  · split
    · rfl
    · split
      · simp [lookup_put, hq]
      · split <;> rfl

theorem Write_frame (fs : FS) (path q : GoString) (data : Bytes)
    (h : (fs.Write path data).lookup q ≠ fs.lookup q) : q = filepath.Clean path := by
  unfold Write at h
  by_contra hq
  apply h
  cases hl : fs.lookup (filepath.Clean path) with
  | none => simp [hl]
  | some o =>
    cases o with
    | dir => simp [hl]
    | file d => simp [hl, lookup_put, hq]

end FS

namespace ZipUtil

theorem extractFile_frame (fs : FS) (file : ZipFile) (destPath q : GoString)
    (h : (extractFile fs file destPath).1.lookup q ≠ fs.lookup q) :
    q = filepath.Clean destPath := by
  unfold extractFile at h
  by_contra hq
  have hc : (fs.Create destPath).1.lookup q = fs.lookup q := by
    by_contra hc
    exact hq (FS.Create_frame _ _ _ hc)
  have hw : ∀ (f : FS) (d : Bytes), (f.Write destPath d).lookup q = f.lookup q := by
    intro f d
    by_contra hc
    exact hq (FS.Write_frame _ _ _ _ hc)
  apply h
  cases hp : file.payload with
  | openFails => simp [hp]
  | data bytes =>
    simp only [hp]
    rcases hcr : fs.Create destPath with ⟨fs1, _ | e⟩
    · simp only []
      rw [hw, ← hc, hcr]
    · simp only []
      rw [← hc, hcr]
  | copyFails written =>
    simp only [hp]
    rcases hcr : fs.Create destPath with ⟨fs1, _ | e⟩
    · simp only []
      rw [hw, ← hc, hcr]
    · simp only []
      rw [← hc, hcr]

/-- One loop iteration only touches paths below the cleaned destination. -/
theorem extractEntry_frame (fs : FS) (extractTo : GoString) (file : ZipFile)
    (hr : FS.DestReady fs (filepath.Clean extractTo)) (q : GoString)
    (h : (extractEntry fs extractTo file).1.lookup q ≠ fs.lookup q) :
    filepath.Clean extractTo ++ [Separator] <+: q := by
  unfold extractEntry at h
  simp only [] at h
  by_cases hpre : strings.HasPrefix (filepath.Join extractTo file.Name)
      (filepath.Clean extractTo ++ [Separator]) = true
  · have hp : filepath.Clean extractTo ++ [Separator] <+: filepath.Join extractTo file.Name := by
      simpa [strings.HasPrefix] using hpre
    obtain ⟨x, hx⟩ : ∃ x, filepath.Join extractTo file.Name = filepath.Clean x := by
      unfold filepath.Join
      by_cases ha : extractTo = []
      · by_cases hb : file.Name = []
        · exfalso
          have : filepath.Join extractTo file.Name = [] := by simp [filepath.Join, ha, hb]
          rw [this] at hp
          have := hp.length_le
          simp at this
        · exact ⟨file.Name, by simp [ha, hb]⟩
      · exact ⟨extractTo ++ Separator :: file.Name, by simp [ha]⟩
    have hclean : filepath.Clean (filepath.Join extractTo file.Name)
        = filepath.Join extractTo file.Name := by rw [hx]; exact filepath.Clean_idem x
    simp only [hpre, Bool.not_true, Bool.false_eq_true, if_false] at h
    by_cases hdir : file.IsDir = true
    · simp only [hdir, if_true] at h
      have hfr := FS.MkdirAll_frame_under fs _ _ hr hclean (Or.inr hp) q
      rcases hmk : fs.MkdirAll (filepath.Join extractTo file.Name) with ⟨fs1, _ | e⟩
      · rw [hmk] at h hfr; exact hfr h
      · rw [hmk] at h hfr; exact hfr h
    · simp only [hdir, Bool.false_eq_true, if_false] at h
      have hdu := filepath.Dir_under x _ (filepath.Clean_ne_nil extractTo) (hx ▸ hp)
      rw [← hx] at hdu
      have hdclean : filepath.Clean (filepath.Dir (filepath.Join extractTo file.Name))
          = filepath.Dir (filepath.Join extractTo file.Name) := filepath.Clean_idem _
      have hfr := FS.MkdirAll_frame_under fs _ _ hr hdclean hdu
      rcases hmk : fs.MkdirAll (filepath.Dir (filepath.Join extractTo file.Name)) with ⟨fs1, _ | e⟩
      · rw [hmk] at h hfr
        simp only [] at h hfr
        by_cases hq1 : fs1.lookup q = fs.lookup q
        · have hef := extractFile_frame fs1 file (filepath.Join extractTo file.Name) q
          rw [hclean] at hef
          rcases hex : extractFile fs1 file (filepath.Join extractTo file.Name) with ⟨fs2, _ | e⟩
          · rw [hex] at h hef
            simp only [] at h hef
            rw [hef (by rw [hq1]; exact h)]
            exact hp
          · rw [hex] at h hef
            simp only [] at h hef
            rw [hef (by rw [hq1]; exact h)]
            exact hp
        · exact hfr q hq1
      · rw [hmk] at h hfr
        exact hfr q h
  · simp [hpre] at h

theorem extractLoop_frame (files : List ZipFile) (fs : FS) (extractTo : GoString)
    (hr : FS.DestReady fs (filepath.Clean extractTo)) (q : GoString)
    (h : (extractLoop fs extractTo files).1.lookup q ≠ fs.lookup q) :
    filepath.Clean extractTo ++ [Separator] <+: q := by
  induction files generalizing fs with
  | nil => simp [extractLoop] at h
  | cons file rest ih =>
    unfold extractLoop at h
    have hfr := extractEntry_frame fs extractTo file hr
    rcases hen : extractEntry fs extractTo file with ⟨fs1, _ | e⟩
    · rw [hen] at h hfr
      simp only [] at h hfr
      by_cases hq1 : fs1.lookup q = fs.lookup q
      · exact ih fs1 (FS.DestReady_of_frame fs fs1 _ hr hfr) (by rw [hq1]; exact h)
      · exact hfr q hq1
    · rw [hen] at h hfr
      exact hfr q h

end ZipUtil

/-- **C2 (as stated) fails.** Extracting `sampleArchive` into `/tmp/out`
succeeds; the member with the absolute name `/etc/passwd` is not skipped but
written to `/tmp/out/etc/passwd`, and the member `a/../b.txt`, whose name
contains `../`, is written to `/tmp/out/b.txt`. -/
theorem C2_names_with_dotdot_or_absolute_are_extracted :
    filepath.isRooted "/etc/passwd".toList = true ∧
    "../".toList <:+: "a/../b.txt".toList ∧
    (ZipUtil.Extract sampleParse sampleDisk "z.zip".toList "/tmp/out".toList).2 = none ∧
    (sampleDisk.MkdirAll "/tmp/out".toList).1.lookup "/tmp/out/etc/passwd".toList = none ∧
    (ZipUtil.Extract sampleParse sampleDisk "z.zip".toList "/tmp/out".toList).1.lookup
        "/tmp/out/etc/passwd".toList = some (FsObj.file [1, 2]) ∧
    (sampleDisk.MkdirAll "/tmp/out".toList).1.lookup "/tmp/out/b.txt".toList = none ∧
    (ZipUtil.Extract sampleParse sampleDisk "z.zip".toList "/tmp/out".toList).1.lookup
        "/tmp/out/b.txt".toList = some (FsObj.file [7]) := by
  decide

/-! ## Identifier validation and the extraction directory (C3) -/

namespace filepath

theorem isRooted_of_element (name : GoString) (h : IsElement name) : isRooted name = false := by
  cases name with
  | nil => rfl
  | cons c cs =>
    have hc : c ≠ Separator := fun hc => h.2.1 (by simp [hc])
    simp [isRooted, hc]

theorem cleanStep_element (rooted : Bool) (stack : List GoString) (name : GoString)
    (h : IsElement name) : cleanStep rooted stack name = name :: stack := by
  unfold cleanStep
  have h1 : ¬ (name = [] ∨ name = ['.']) := by
    rintro (h1 | h1)
    · exact h.1 h1
    · exact h.2.2.1 h1
  simp [h1, h.2.2.2]

theorem Clean_element (name : GoString) (h : IsElement name) : Clean name = name := by
  unfold Clean cleanStack
  rw [splitSep_of_not_mem name h.2.1, isRooted_of_element name h]
  simp [cleanStep_element, h, h.1, render, joinSep]

theorem cleanStack_append_element (root name : GoString) (hroot : root ≠ [])
    (h : IsElement name) :
    isRooted (root ++ Separator :: name) = isRooted root ∧
      cleanStack (root ++ Separator :: name) = name :: cleanStack root := by
  have hr : isRooted (root ++ Separator :: name) = isRooted root := by
    cases root with
    | nil => exact absurd rfl hroot
    | cons c cs => simp [isRooted]
  refine ⟨hr, ?_⟩
  unfold cleanStack
  rw [hr, splitSep_append_sep, splitSep_of_not_mem name h.2.1, List.foldl_append]
  simp [cleanStep_element, h]

theorem hasPrefix_sep_of_element (d name : GoString) (h : IsElement name) :
    strings.HasPrefix name (d ++ [Separator]) = false := by
  unfold strings.HasPrefix
  by_contra hc
  have hp : d ++ [Separator] <+: name := by simpa using hc
  obtain ⟨t, ht⟩ := hp
  exact h.2.1 (by rw [← ht]; simp)

theorem takeWhile_element (name : GoString) (h : Separator ∉ name) :
    name.takeWhile (fun c => decide (c ≠ Separator)) = name := by
  induction name with
  | nil => rfl
  | cons c cs ih =>
    have hc : c ≠ Separator := fun hc => h (by simp [hc])
    have hcs : Separator ∉ cs := fun hcs => h (by simp [hcs])
    simp only [List.takeWhile, hc, ne_eq, not_false_eq_true, decide_True]
    rw [ih hcs]

/-- Joining a directory with one ordinary element gives the entry of that
name directly inside the cleaned directory. -/
theorem below_Join_element (root name : GoString) (h : IsElement name) :
    below (Clean root) (Join root name) = some name := by
  have hnr := isRooted_of_element name h
  by_cases hroot : root = []
  · subst hroot
    have hj : Join [] name = name := by
      simp [Join, h.1, Clean_element name h]
    have hc : Clean [] = ['.'] := by decide
    rw [hj, hc]
    unfold below
    rw [hasPrefix_sep_of_element _ name h]
    simp [hnr]
  · obtain ⟨hr, hs⟩ := cleanStack_append_element root name hroot h
    have hj : Join root name = render (isRooted root) (name :: cleanStack root) := by
      unfold Join
      simp only [hroot, ne_eq, not_false_eq_true, if_true]
      unfold Clean
      have hne : root ++ Separator :: name ≠ [] := by simp
      simp only [hne, if_false, hr, hs]
      have : render (isRooted root) (name :: cleanStack root) ≠ [] := by
        cases hrt : isRooted root
        · simp only [render, Bool.false_eq_true, if_false, List.nil_append, List.reverse_cons]
          cases hst : (cleanStack root).reverse with
          | nil => simpa [joinSep] using h.1
          | cons x xs =>
            intro hc
            have := congrArg List.length hc
            rw [joinSep_append_singleton _ _ (by simp)] at this
            simp at this
        · simp [render]
      simp [this]
    have hn := cleanStack_normal root
    by_cases hst : cleanStack root = []
    · have hcr : Clean root = if isRooted root then [Separator] else ['.'] := by
        unfold Clean
        simp only [hroot, if_false, hst]
        cases hrt : isRooted root <;> simp [render, joinSep]
      rw [hj, hcr, hst]
      cases hrt : isRooted root
      · simp only [render, Bool.false_eq_true, if_false, List.nil_append, List.reverse_cons,
          List.reverse_nil, joinSep]
        unfold below
        rw [hasPrefix_sep_of_element _ name h]
        simp [hnr]
      · simp only [render, if_true, List.reverse_cons, List.reverse_nil, List.nil_append, joinSep,
          List.singleton_append]
        unfold below
        have hp : strings.HasPrefix (Separator :: name) ([Separator] ++ [Separator]) = false := by
          cases name with
          | nil => exact absurd rfl h.1
          | cons c cs =>
            have hc : c ≠ Separator := fun hc => h.2.1 (by simp [hc])
            have hc2 : ¬ (Separator = c) := fun hc2 => hc hc2.symm
            simp [strings.HasPrefix, List.isPrefixOf, hc2]
        rw [hp]
        simp [isRooted, Separator]
    · have hne := render_ne_nil (isRooted root) (cleanStack root) hn (Or.inl hst)
      have hcr : Clean root = render (isRooted root) (cleanStack root) := by
        unfold Clean
        simp [hroot, hne]
      have hj2 : Join root name = Clean root ++ Separator :: name := by
        rw [hj, hcr]
        simp only [render, List.reverse_cons, List.append_assoc]
        rw [joinSep_append_singleton _ _ (by simpa using hst)]
      rw [hj2]
      unfold below
      have hp : strings.HasPrefix (Clean root ++ Separator :: name) (Clean root ++ [Separator])
          = true := by
        simp [strings.HasPrefix]
      rw [hp]
      simp

end filepath

/-- **C3 (as stated) fails.** `ValidateLogID` accepts the identifier `..`, and
with the default extraction root `storage/extracted` the directory the file
service then works on is `storage`, the parent of the extraction root. -/
theorem C3_dotdot_identifier_leaves_extraction_root :
    LogService.ValidateLogID (LogIDValue.str "..".toList) = Except.ok "..".toList ∧
    FileService.extractPath sampleConfig "..".toList = "storage".toList ∧
    filepath.IsProperSubdir sampleConfig.Storage.ExtractDir
      (FileService.extractPath sampleConfig "..".toList) = false :=
  ⟨rfl, by decide, by decide⟩

/-! ## Tree builder: ordering and failure (C9, C10) -/

namespace FileUtil

theorem less_asymm (a b : FileNode) (h : less a b = true) : less b a = false := by
  unfold less at h ⊢
  by_cases ht : a.Typ = b.Typ
  · have ht2 : b.Typ = a.Typ := ht.symm
    simp only [ne_eq, ht, not_true_eq_false, if_false, decide_eq_true_eq] at h
    simp only [ne_eq, ht2, not_true_eq_false, if_false, decide_eq_false_iff_not]
    exact lt_asymm h
  · have ht2 : ¬ b.Typ = a.Typ := fun h2 => ht h2.symm
    simp only [ne_eq, ht, not_false_eq_true, if_true, decide_eq_true_eq] at h
    simp only [ne_eq, ht2, not_false_eq_true, if_true, decide_eq_false_iff_not]
    intro hb
    exact ht (h.trans hb.symm)

theorem less_trans (a b c : FileNode) (hab : less a b = true) (hbc : less b c = true) :
    less a c = true := by
  unfold less at hab hbc ⊢
  by_cases h1 : a.Typ = b.Typ
  · by_cases h2 : b.Typ = c.Typ
    · have h3 : a.Typ = c.Typ := h1.trans h2
      simp only [ne_eq, h1, h2, h3, not_true_eq_false, if_false, decide_eq_true_eq] at hab hbc ⊢
      exact lt_trans hab hbc
    · have h3 : ¬ a.Typ = c.Typ := fun h => h2 (h1.symm.trans h)
      simp only [ne_eq, h2, not_false_eq_true, if_true, decide_eq_true_eq] at hbc
      simp only [ne_eq, h3, not_false_eq_true, if_true, decide_eq_true_eq]
      exact h1.trans hbc
  · simp only [ne_eq, h1, not_false_eq_true, if_true, decide_eq_true_eq] at hab
    by_cases h2 : b.Typ = c.Typ
    · have h3 : ¬ a.Typ = c.Typ := fun h => h1 (h.trans h2.symm)
      simp only [ne_eq, h3, not_false_eq_true, if_true, decide_eq_true_eq]
      exact hab
    · simp only [ne_eq, h2, not_false_eq_true, if_true, decide_eq_true_eq] at hbc
      exact absurd (hab.trans hbc.symm) h1

theorem insertNode_perm (x : FileNode) (l : List FileNode) : (insertNode x l).Perm (x :: l) := by
  induction l with
  | nil => simp [insertNode]
  | cons y ys ih =>
    unfold insertNode
    split
    · exact List.Perm.refl _
    · exact (List.Perm.cons y ih).trans (List.Perm.swap x y ys)

theorem foldl_insertNode_perm (l acc : List FileNode) :
    (l.foldl (fun sorted x => insertNode x sorted) acc).Perm (l ++ acc) := by
  induction l generalizing acc with
  | nil => simp
  | cons x xs ih =>
    simp only [List.foldl_cons]
    refine (ih (insertNode x acc)).trans ?_
    refine (List.Perm.append_left xs (insertNode_perm x acc)).trans ?_
    exact List.perm_middle

/-- The result of `sortNodes` is a rearrangement of its input. -/
theorem sortNodes_perm (l : List FileNode) : (sortNodes l).Perm l := by
  simpa [sortNodes] using foldl_insertNode_perm l []

theorem insertNode_sorted (x : FileNode) (l : List FileNode)
    (h : l.Pairwise (fun a b => less b a = false)) :
    (insertNode x l).Pairwise (fun a b => less b a = false) := by
  induction l with
  | nil => simp [insertNode]
  | cons y ys ih =>
    rw [List.pairwise_cons] at h
    unfold insertNode
    by_cases hxy : less x y = true
    · simp only [hxy, if_true]
      rw [List.pairwise_cons]
      refine ⟨?_, List.pairwise_cons.mpr h⟩
      intro w hw
      simp only [List.mem_cons] at hw
      rcases hw with hw | hw
      · subst hw; exact less_asymm x w hxy
      · by_contra hc
        have hwx : less w x = true := by simpa using hc
        have := less_trans w x y hwx hxy
        rw [h.1 w hw] at this
        exact absurd this (by simp)
    · have hxy2 : less x y = false := by simpa using hxy
      rw [hxy2]
      simp only [Bool.false_eq_true, if_false]
      rw [List.pairwise_cons]
      refine ⟨?_, ih h.2⟩
      intro w hw
      have hw2 : w ∈ x :: ys := (insertNode_perm x ys).subset hw
      simp only [List.mem_cons] at hw2
      rcases hw2 with hw2 | hw2
      · subst hw2; exact hxy2
      · exact h.1 w hw2

theorem foldl_insertNode_sorted (l acc : List FileNode)
    (h : acc.Pairwise (fun a b => less b a = false)) :
    (l.foldl (fun sorted x => insertNode x sorted) acc).Pairwise (fun a b => less b a = false) := by
  induction l generalizing acc with
  | nil => simpa using h
  | cons x xs ih =>
    simp only [List.foldl_cons]
    exact ih _ (insertNode_sorted x acc h)

/-- In the result of `sortNodes` no node is `less` than a node before it. -/
theorem sortNodes_sorted (l : List FileNode) :
    (sortNodes l).Pairwise (fun a b => less b a = false) :=
  foldl_insertNode_sorted l [] List.Pairwise.nil

theorem BuildTree_Typ (fs : FsView) (rootPath relativePath : GoString) (node : FileNode)
    (h : BuildTree fs rootPath relativePath = Except.ok node) :
    node.Typ = "directory" ∨ node.Typ = "file" := by
  cases fs with
  | statFails => simp [BuildTree] at h
  | file size =>
    simp only [BuildTree, Except.ok.injEq] at h
    right; rw [← h]
  | dirUnlistable => simp [BuildTree] at h
  | dir entries =>
    simp only [BuildTree, Except.ok.injEq] at h
    left; rw [← h]

theorem buildChildren_Typ (entries : List (GoString × FsView)) (rootPath relativePath : GoString) :
    ∀ c ∈ buildChildren entries rootPath relativePath, c.Typ = "directory" ∨ c.Typ = "file" := by
  induction entries with
  | nil => intro c hc; simp [buildChildren] at hc
  | cons e rest ih =>
    obtain ⟨name, sub⟩ := e
    intro c hc
    rw [buildChildren] at hc
    cases hb : BuildTree sub (filepath.Join rootPath name) (filepath.Join relativePath name) with
    | error err =>
      rw [hb] at hc
      exact ih c hc
    | ok child =>
      rw [hb] at hc
      simp only [List.mem_cons] at hc
      rcases hc with hc | hc
      · subst hc; exact BuildTree_Typ _ _ _ _ hb
      · exact ih c hc

end FileUtil

/-- **C9.** For every directory (any entries, in any listing order, with any
failures below), `BuildTree` returns a node whose children are a permutation
of the successfully built child nodes; each child is a directory or a file; no
file comes before a directory, and two children of the same kind are in
ascending order of name.  For the fixture `b.txt, A/, a.txt` the order is
`A, a.txt, b.txt`. -/
theorem C9_children_sorted_directories_first
    (entries : List (GoString × FsView)) (rootPath relativePath : GoString) :
    (∃ node, FileUtil.BuildTree (FsView.dir entries) rootPath relativePath = Except.ok node ∧
      node.Children.Perm (FileUtil.buildChildren entries rootPath relativePath) ∧
      (∀ c ∈ node.Children, c.Typ = "directory" ∨ c.Typ = "file") ∧
      node.Children.Pairwise (fun a b =>
        ¬ (a.Typ = "file" ∧ b.Typ = "directory") ∧ (a.Typ = b.Typ → a.Name ≤ b.Name))) ∧
    ((FileUtil.BuildTree fixtureView "/data/fixture".toList []).toOption.map
        (fun node => node.Children.map (fun c => (c.Name, c.Typ)))
      = some [("A".toList, "directory"), ("a.txt".toList, "file"), ("b.txt".toList, "file")]) := by
  refine ⟨⟨_, by rw [FileUtil.BuildTree], FileUtil.sortNodes_perm _, ?_, ?_⟩, by decide⟩
  · intro c hc
    exact FileUtil.buildChildren_Typ entries rootPath relativePath c
      ((FileUtil.sortNodes_perm _).subset hc)
  · refine List.Pairwise.imp ?_ (FileUtil.sortNodes_sorted _)
    intro a b hba
    unfold FileUtil.less at hba
    constructor
    · rintro ⟨ha, hb⟩
      have hne : b.Typ ≠ a.Typ := by rw [ha, hb]; decide
      rw [if_pos hne, decide_eq_false_iff_not] at hba
      exact hba hb
    · intro hab
      have hab2 : b.Typ = a.Typ := hab.symm
      simp only [ne_eq, hab2, not_true_eq_false, if_false, decide_eq_false_iff_not] at hba
      exact not_lt.mp hba

/-- **C10 (as stated) fails.** The root is a directory whose `Stat` succeeds
but whose listing fails: `BuildTree` returns the listing error, not a node. -/
theorem C10_unlistable_root_fails :
    FsView.statOk FsView.dirUnlistable = true ∧
    FileUtil.BuildTree FsView.dirUnlistable "/data/root".toList [] = Except.error OsError.EIO :=
  ⟨rfl, by rw [FileUtil.BuildTree]⟩

/-- **C10 (amended).** `BuildTree` returns a node exactly when `Stat` of the
root succeeds and the root is not a directory whose own listing fails;
whatever stat or listing failures occur below the root (in any entry of a
listed root directory) never make it fail. -/
theorem C10_fails_only_at_the_root (fs : FsView) (rootPath relativePath : GoString) :
    (∃ node, FileUtil.BuildTree fs rootPath relativePath = Except.ok node) ↔
      (fs.statOk = true ∧ fs ≠ FsView.dirUnlistable) := by
  cases fs with
  | statFails => simp [FileUtil.BuildTree, FsView.statOk]
  | file size => simp [FileUtil.BuildTree, FsView.statOk]
  | dirUnlistable => simp [FileUtil.BuildTree, FsView.statOk]
  | dir entries => simp [FileUtil.BuildTree, FsView.statOk]

/-! ## Content reader: size ceilings (C6, C7, C8) -/

namespace FileUtil

theorem readFileWithEncoding_eq (env : ReadEnv) (attempt : Nat) (filePath : GoString)
    (encoding : String) :
    readFileWithEncoding env attempt filePath encoding = osReadFile env attempt filePath := by
  unfold readFileWithEncoding
  cases osReadFile env attempt filePath with
  | error e => rfl
  | ok data =>
    simp only []
    split <;> rfl

theorem Stat_file (fs : FS) (filePath : GoString) (data : Bytes)
    (h : fs.lookup (filepath.Clean filePath) = some (FsObj.file data)) :
    fs.Stat filePath = Except.ok ⟨false, data.length⟩ := by
  simp [FS.Stat, h]

theorem tryEncodings_not_tooLarge (env : ReadEnv) (filePath : GoString) (encodings : List String)
    (attempt : Nat) (size max : Int) :
    (tryEncodings env filePath attempt encodings).1 ≠ Except.error (ReadError.tooLarge size max) := by
  induction encodings generalizing attempt with
  | nil => simp [tryEncodings]
  | cons e rest ih =>
    unfold tryEncodings
    cases readFileWithEncoding env attempt filePath e with
    | error err => exact ih (attempt + 1)
    | ok content => simp

theorem readFilePreview_not_tooLarge (notice : Int → Bytes) (env : ReadEnv)
    (filePath : GoString) (maxBytes size max : Int) :
    (readFilePreview notice env filePath maxBytes).1 ≠ Except.error (ReadError.tooLarge size max) := by
  unfold readFilePreview
  split
  · simp
  · split
    · simp
    · split
      · simp
      · split
        · simp
        · split <;> simp

end FileUtil

/-- **C6.** For a file whose size exceeds `MaxFileSize`, `ReadFileContent`
returns the too-large error and the only system call it performs is the
`Stat` (the file is neither opened nor read); a file of exactly `MaxFileSize`
bytes is not rejected with the too-large error, and a file of exactly
`MaxFileSize + 1` bytes is. -/
theorem C6_oversized_file_rejected_after_stat_only
    (cfg : Config) (notice : Int → Bytes) (env : ReadEnv) (filePath : GoString) (data : Bytes)
    (hfile : env.fs.lookup (filepath.Clean filePath) = some (FsObj.file data)) :
    ((data.length : Int) > cfg.Storage.MaxFileSize →
      FileUtil.ReadFileContent cfg notice env filePath
        = (Except.error (ReadError.tooLarge data.length cfg.Storage.MaxFileSize),
            [SysCall.stat filePath])) ∧
    ((data.length : Int) = cfg.Storage.MaxFileSize →
      ∀ size max, (FileUtil.ReadFileContent cfg notice env filePath).1
        ≠ Except.error (ReadError.tooLarge size max)) ∧
    ((data.length : Int) = cfg.Storage.MaxFileSize + 1 →
      FileUtil.ReadFileContent cfg notice env filePath
        = (Except.error (ReadError.tooLarge data.length cfg.Storage.MaxFileSize),
            [SysCall.stat filePath])) := by
  have hstat := FileUtil.Stat_file env.fs filePath data hfile
  have hbig : (data.length : Int) > cfg.Storage.MaxFileSize →
      FileUtil.ReadFileContent cfg notice env filePath
        = (Except.error (ReadError.tooLarge data.length cfg.Storage.MaxFileSize),
            [SysCall.stat filePath]) := by
    intro h
    simp [FileUtil.ReadFileContent, hstat, h]
  refine ⟨hbig, ?_, fun h => hbig (by omega)⟩
  intro heq size max
  have hnot : ¬ ((data.length : Int) > cfg.Storage.MaxFileSize) := by omega
  simp only [FileUtil.ReadFileContent, hstat, hnot, if_false]
  split
  · exact FileUtil.readFilePreview_not_tooLarge _ _ _ _ _ _
  · exact FileUtil.tryEncodings_not_tooLarge _ _ _ _ _ _

/-- Witness of C6: a three-byte file against the limits 2 and 3. -/
theorem C6_oversized_file_rejected_after_stat_only_witness :
    FileUtil.ReadFileContent ⟨⟨[], [], [], 2, 1⟩, ⟨[]⟩⟩ (fun _ => []) readEnv "/logs/a.txt".toList
      = (Except.error (ReadError.tooLarge 3 2), [SysCall.stat "/logs/a.txt".toList]) ∧
    (∀ size max,
      (FileUtil.ReadFileContent ⟨⟨[], [], [], 3, 1⟩, ⟨[]⟩⟩ (fun _ => []) readEnv
        "/logs/a.txt".toList).1 ≠ Except.error (ReadError.tooLarge size max)) :=
  ⟨(C6_oversized_file_rejected_after_stat_only ⟨⟨[], [], [], 2, 1⟩, ⟨[]⟩⟩ (fun _ => []) readEnv
      "/logs/a.txt".toList [104, 105, 10] (by decide)).1 (by decide),
   (C6_oversized_file_rejected_after_stat_only ⟨⟨[], [], [], 3, 1⟩, ⟨[]⟩⟩ (fun _ => []) readEnv
      "/logs/a.txt".toList [104, 105, 10] (by decide)).2.1 (by decide)⟩

/-- **C8.** For a file whose size is at most `MaxPreview` and at most
`MaxFileSize`, as soon as one of the three read attempts of the encoding loop
succeeds, `ReadFileContent` returns exactly the bytes of the file, whichever
attempt (`utf-8`, `gbk` or `latin-1`) it was. -/
theorem C8_small_file_returned_unchanged
    (cfg : Config) (notice : Int → Bytes) (env : ReadEnv) (filePath : GoString) (data : Bytes)
    (hfile : env.fs.lookup (filepath.Clean filePath) = some (FsObj.file data))
    (hsmall : (data.length : Int) ≤ cfg.Storage.MaxPreview)
    (hhigh : (data.length : Int) ≤ cfg.Storage.MaxFileSize)
    (hreadable : ∃ attempt, attempt < 3 ∧ env.failReadFile attempt = false) :
    (FileUtil.ReadFileContent cfg notice env filePath).1 = Except.ok data := by
  have hstat := FileUtil.Stat_file env.fs filePath data hfile
  have h1 : ¬ ((data.length : Int) > cfg.Storage.MaxFileSize) := by omega
  have h2 : ¬ ((data.length : Int) > cfg.Storage.MaxPreview) := by omega
  have hread : ∀ attempt, FileUtil.osReadFile env attempt filePath
      = if env.failReadFile attempt then Except.error OsError.EIO else Except.ok data := by
    intro attempt
    simp [FileUtil.osReadFile, hfile]
  obtain ⟨attempt, hlt, hok⟩ := hreadable
  simp only [FileUtil.ReadFileContent, hstat, h1, h2, if_false, FileUtil.tryEncodings,
    FileUtil.readFileWithEncoding_eq, hread]
  have hcases : attempt = 0 ∨ attempt = 1 ∨ attempt = 2 := by omega
  cases h0 : env.failReadFile 0 with
  | false => simp
  | true =>
    cases h1 : env.failReadFile (0 + 1) with
    | false => simp
    | true =>
      cases h2 : env.failReadFile (0 + 1 + 1) with
      | false => simp
      | true =>
        rcases hcases with h | h | h <;> subst h <;> simp_all

/-- Witness of C8: the first two read attempts fail, the third succeeds. -/
theorem C8_small_file_returned_unchanged_witness :
    (FileUtil.ReadFileContent sampleConfig (fun _ => [])
        ⟨readDisk, false, false, fun attempt => decide (attempt < 2)⟩ "/logs/a.txt".toList).1
      = Except.ok [104, 105, 10] :=
  C8_small_file_returned_unchanged sampleConfig (fun _ => [])
    ⟨readDisk, false, false, fun attempt => decide (attempt < 2)⟩ "/logs/a.txt".toList
    [104, 105, 10] (by decide) (by decide) (by decide) ⟨2, by decide, by decide⟩

/-! ## Tree cache coherence with delete and download (C4, C5) -/

/-- **C4: the code departs from the claim.** Log `log1` is downloaded and
browsed once; `DELETE /api/logs/log1` then answers 200, the record is gone and
the extraction directory no longer exists, but the tree cache still holds the
entry `tree:log1`, and a later `GetFileStructure("log1")` within the TTL
returns the cached tree of the directory that was removed. -/
theorem C4_delete_leaves_tree_cache_entry :
    (LogHandler.DeleteLog sampleConfig browsedWorld "log1".toList).2 = ⟨200, none⟩ ∧
    (LogHandler.DeleteLog sampleConfig browsedWorld "log1".toList).1.logs = [] ∧
    (LogHandler.DeleteLog sampleConfig browsedWorld "log1".toList).1.fs.lookup
      (FileService.extractPath sampleConfig "log1".toList) = none ∧
    ((LogHandler.DeleteLog sampleConfig browsedWorld "log1".toList).1.treeCache.items
      (FileService.cacheKey "log1".toList)).isSome = true ∧
    childNamesOf (FileService.GetFileStructure sampleConfig
      (LogHandler.DeleteLog sampleConfig browsedWorld "log1".toList).1 2000 "log1".toList).2
      = some ["old.txt".toList] := by
  refine ⟨by decide, by decide, by decide, by decide, by decide⟩

namespace FS

theorem lookup_Remove_dir (fs : FS) (path q : GoString) (h : fs.lookup q = some FsObj.dir) :
    (fs.Remove path).lookup q = some FsObj.dir := by
  unfold Remove
  cases hl : fs.lookup (filepath.Clean path) with
  | none => simpa [hl] using h
  | some o =>
    cases o with
    | dir => simpa [hl] using h
    | file d =>
      simp only [hl]
      have hne : q ≠ filepath.Clean path := by
        intro hq
        rw [hq, hl] at h
        exact absurd h (by simp)
      show find q _ = _
      rw [find_filter_ne]
      simp only [hne, if_false]
      exact h

end FS

namespace ZipUtil

/-- After a successful `Extract` the destination directory exists. -/
theorem Extract_ok_dest_exists (parseZip : Bytes → Option (List ZipFile)) (fs : FS)
    (zipPath extractTo : GoString) (h : (Extract parseZip fs zipPath extractTo).2 = none) :
    (Extract parseZip fs zipPath extractTo).1.lookup (filepath.Clean extractTo)
      = some FsObj.dir := by
  unfold Extract at h ⊢
  have hready := FS.MkdirAll_ready fs extractTo
  rcases hmk : fs.MkdirAll extractTo with ⟨fs1, _ | e⟩
  · rw [hmk] at h hready
    simp only [] at h ⊢
    have hr : FS.DestReady fs1 (filepath.Clean extractTo) := hready rfl
    cases hop : openReader parseZip fs1 zipPath with
    | none => simp [hop] at h
    | some files =>
      simp only [hop] at h ⊢
      have hr2 := FS.DestReady_of_frame fs1 (extractLoop fs1 extractTo files).1 _ hr
        (fun q hq => extractLoop_frame files fs1 extractTo hr q hq)
      exact hr2 _ (Or.inl rfl)
  · rw [hmk] at h
    simp at h

end ZipUtil

namespace FileService

theorem DownloadLog_cache (cfg : Config) (parseZip : Bytes → Option (List ZipFile))
    (remote : GoString → HttpResponse) (w : World) (logID : GoString) :
    (DownloadLog cfg parseZip remote w logID).1.treeCache = w.treeCache := by
  unfold DownloadLog
  simp only []
  split
  · rfl
  · split
    · rfl
    · split <;> rfl

theorem DownloadLog_ok_dir (cfg : Config) (parseZip : Bytes → Option (List ZipFile))
    (remote : GoString → HttpResponse) (w : World) (logID : GoString)
    (h : (DownloadLog cfg parseZip remote w logID).2.Success = true) :
    (DownloadLog cfg parseZip remote w logID).1.fs.lookup
      (filepath.Clean (extractPath cfg logID)) = some FsObj.dir := by
  unfold DownloadLog at h ⊢
  simp only [] at h ⊢
  generalize hd : Client.DownloadWithAuth w.fs (remote (downloadURL cfg logID))
    (zipPath cfg logID) = r at h ⊢
  obtain ⟨fs1, _ | e⟩ := r
  · simp only [] at h ⊢
    by_cases hv : ZipUtil.IsValid parseZip fs1 (zipPath cfg logID) = true
    · simp only [hv, Bool.not_true, Bool.false_eq_true, if_false] at h ⊢
      have hex := ZipUtil.Extract_ok_dest_exists parseZip fs1 (zipPath cfg logID)
        (extractPath cfg logID)
      generalize he : ZipUtil.Extract parseZip fs1 (zipPath cfg logID) (extractPath cfg logID)
        = r2 at h hex ⊢
      obtain ⟨fs2, _ | e⟩ := r2
      · simp only [] at h ⊢
        exact FS.lookup_Remove_dir _ _ _ (hex rfl)
      · simp at h
    · simp [hv] at h
  · simp at h

end FileService

/-- **C5: the code departs from the claim.** Log `log1` was downloaded and
browsed (world `browsedWorld`, cache filled at instant 1000).  It is
downloaded again, now with an archive holding `a/b.json`; the download
succeeds and the extraction directory holds `a` and `old.txt`, but the first
`GetFileStructure("log1")` after it (instant 2000, inside the TTL) returns the
tree cached before the download, with the single child `old.txt`: nothing on
the download path calls `InvalidateTreeCache`. -/
theorem C5_browse_after_redownload_hits_stale_cache :
    (FileService.DownloadLog sampleConfig scenarioParse remoteNew browsedWorld
      "log1".toList).2.Success = true ∧
    ((FileService.DownloadLog sampleConfig scenarioParse remoteNew browsedWorld
      "log1".toList).1.fs.childNames (FileService.extractPath sampleConfig "log1".toList))
      = ["a".toList, "old.txt".toList] ∧
    childNamesOf (FileService.GetFileStructure sampleConfig
      (FileService.DownloadLog sampleConfig scenarioParse remoteNew browsedWorld
        "log1".toList).1 2000 "log1".toList).2
      = some ["old.txt".toList] := by
  refine ⟨by decide, by decide, by decide⟩

/-- Where the claim C5 does hold: `DownloadLog` never changes the tree cache,
and after a successful `DownloadLog(X)` the first `GetFileStructure(X)`
returns the tree built from the extraction directory as it is after that
download (which exists and is listed) whenever the cache holds no unexpired
entry under `tree:X`; with such an entry it returns the cached tree. -/
theorem C5_browse_after_download (cfg : Config) (parseZip : Bytes → Option (List ZipFile))
    (remote : GoString → HttpResponse) (w : World) (logID : GoString) (now : Int)
    (hok : (FileService.DownloadLog cfg parseZip remote w logID).2.Success = true) :
    (FileService.DownloadLog cfg parseZip remote w logID).1.treeCache = w.treeCache ∧
    (∀ cached, (w.treeCache.Get now (FileService.cacheKey logID)).2 = some cached →
      (FileService.GetFileStructure cfg (FileService.DownloadLog cfg parseZip remote w logID).1
        now logID).2 = Except.ok cached) ∧
    ((w.treeCache.Get now (FileService.cacheKey logID)).2 = none →
      ∃ node,
        FileUtil.BuildTree
          ((FileService.DownloadLog cfg parseZip remote w logID).1.fs.view
            (FileService.DownloadLog cfg parseZip remote w logID).1.fs.depthBound
            (FileService.extractPath cfg logID))
          (FileService.extractPath cfg logID) [] = Except.ok node ∧
        (FileService.GetFileStructure cfg (FileService.DownloadLog cfg parseZip remote w logID).1
          now logID).2 = Except.ok (FileService.convertFileNode node)) := by
  have hcache := FileService.DownloadLog_cache cfg parseZip remote w logID
  have hdir := FileService.DownloadLog_ok_dir cfg parseZip remote w logID hok
  generalize FileService.DownloadLog cfg parseZip remote w logID = r at hcache hdir ⊢
  obtain ⟨w1, res⟩ := r
  simp only [] at hcache hdir ⊢
  refine ⟨hcache, ?_, ?_⟩
  · intro cached hhit
    unfold FileService.GetFileStructure
    rw [hcache]
    rcases hg : w.treeCache.Get now (FileService.cacheKey logID) with ⟨c1, _ | v⟩
    · rw [hg] at hhit; simp at hhit
    · rw [hg] at hhit
      simp only [Option.some.injEq] at hhit
      simp [hhit]
  · intro hmiss
    have hisdir : w1.fs.isDir (filepath.Clean (FileService.extractPath cfg logID)) = true := by
      simp [FS.isDir, hdir]
    have hstat : w1.fs.Stat (FileService.extractPath cfg logID) = Except.ok ⟨true, 0⟩ := by
      simp [FS.Stat, hdir, hisdir]
    have hview : ∃ entries, w1.fs.view w1.fs.depthBound (FileService.extractPath cfg logID)
        = FsView.dir entries := by
      refine ⟨(w1.fs.childNames (filepath.Clean (FileService.extractPath cfg logID))).map
        (fun name => (name, w1.fs.view w1.fs.objs.length
          (filepath.Join (filepath.Clean (FileService.extractPath cfg logID)) name))), ?_⟩
      unfold FS.depthBound
      rw [FS.view]
      simp only [hisdir, if_true]
    obtain ⟨entries, hentries⟩ := hview
    refine ⟨_, by rw [hentries, FileUtil.BuildTree], ?_⟩
    unfold FileService.GetFileStructure
    rw [hcache]
    rcases hg : w.treeCache.Get now (FileService.cacheKey logID) with ⟨c1, _ | v⟩
    · simp only [hstat, hentries]
      rw [FileUtil.BuildTree]
    · rw [hg] at hmiss; simp at hmiss

/-- Instance of `C5_browse_after_download`: the first download on a fresh server succeeds,
leaves the cache as it was, and the browse that follows builds the tree from
the extraction directory. -/
theorem C5_browse_after_download_witness :
    (FileService.DownloadLog sampleConfig scenarioParse remoteOld freshWorld
      "log1".toList).2.Success = true ∧
    (FileService.DownloadLog sampleConfig scenarioParse remoteOld freshWorld
      "log1".toList).1.treeCache = freshWorld.treeCache ∧
    (freshWorld.treeCache.Get 1000 (FileService.cacheKey "log1".toList)).2 = none ∧
    ∃ node,
      FileUtil.BuildTree
        ((FileService.DownloadLog sampleConfig scenarioParse remoteOld freshWorld
          "log1".toList).1.fs.view
          (FileService.DownloadLog sampleConfig scenarioParse remoteOld freshWorld
            "log1".toList).1.fs.depthBound
          (FileService.extractPath sampleConfig "log1".toList))
        (FileService.extractPath sampleConfig "log1".toList) [] = Except.ok node ∧
      (FileService.GetFileStructure sampleConfig
        (FileService.DownloadLog sampleConfig scenarioParse remoteOld freshWorld
          "log1".toList).1 1000 "log1".toList).2
        = Except.ok (FileService.convertFileNode node) :=
  ⟨by decide,
   (C5_browse_after_download sampleConfig scenarioParse remoteOld freshWorld "log1".toList 1000
     (by decide)).1,
   rfl,
   (C5_browse_after_download sampleConfig scenarioParse remoteOld freshWorld "log1".toList 1000
     (by decide)).2.2 rfl⟩

/-! ## Tree builder: skipped entries, relative paths, listing order (C11, C12, C13) -/

namespace FileUtil

theorem buildChildren_eq_filterMap (entries : List (GoString × FsView))
    (rootPath relativePath : GoString) :
    buildChildren entries rootPath relativePath
      = entries.filterMap (childOf rootPath relativePath) := by
  induction entries with
  | nil => simp [buildChildren]
  | cons e rest ih =>
    obtain ⟨name, sub⟩ := e
    rw [buildChildren, List.filterMap_cons]
    unfold childOf
    cases hb : BuildTree sub (filepath.Join rootPath name) (filepath.Join relativePath name) with
    | error err => simpa [Except.toOption] using ih
    | ok child => simpa [Except.toOption] using ih

end FileUtil

/-- **C11.** For every directory whose listing succeeds, `BuildTree` returns
a node (no failure of an entry fails the parent), and the children of that
node are a permutation of the nodes of exactly those entries whose recursive
build succeeds: failed entries are omitted, built entries appear once each.
In the directory `ok.txt, gone, locked, sub`, where `gone` cannot be stat'ed
and `locked` cannot be listed, the children are `sub` and `ok.txt`. -/
theorem C11_children_are_the_built_entries
    (entries : List (GoString × FsView)) (rootPath relativePath : GoString) :
    (∃ node, FileUtil.BuildTree (FsView.dir entries) rootPath relativePath = Except.ok node ∧
      node.Children.Perm (entries.filterMap (FileUtil.childOf rootPath relativePath)) ∧
      (∀ entry ∈ entries, ∀ err,
        FileUtil.BuildTree entry.2 (filepath.Join rootPath entry.1)
          (filepath.Join relativePath entry.1) = Except.error err →
        FileUtil.childOf rootPath relativePath entry = none)) ∧
    ((FileUtil.BuildTree damagedView "/data/x".toList []).toOption.map
        (fun node => node.Children.map (fun c => c.Name))
      = some ["sub".toList, "ok.txt".toList]) := by
  refine ⟨⟨_, by rw [FileUtil.BuildTree], ?_, ?_⟩, by decide⟩
  · rw [← FileUtil.buildChildren_eq_filterMap]
    exact FileUtil.sortNodes_perm _
  · intro entry _ err herr
    simp [FileUtil.childOf, herr, Except.toOption]

namespace filepath

theorem takeWhile_append_sep (l r : GoString) (h : Separator ∉ l) :
    (l ++ Separator :: r).takeWhile (fun c => decide (c ≠ Separator)) = l := by
  induction l with
  | nil => simp [List.takeWhile]
  | cons c cs ih =>
    have hc : c ≠ Separator := fun hc => h (by simp [hc])
    have hcs : Separator ∉ cs := fun hcs => h (by simp [hcs])
    have hi := ih hcs
    simp only [List.cons_append, List.takeWhile, hc, ne_eq, not_false_eq_true, decide_True]
    exact congrArg (List.cons c) hi

/-- The last element of a path that ends in the ordinary element `name`. -/
theorem Base_append_element (pre name : GoString) (h : IsElement name)
    (hpre : pre = [] ∨ ∃ a, pre = a ++ [Separator]) : Base (pre ++ name) = name := by
  have hrev : name.reverse ≠ [] := by simpa using h.1
  have hns : Separator ∉ name.reverse := by simpa using h.2.1
  obtain ⟨c, cs, hcs⟩ : ∃ c cs, name.reverse = c :: cs := by
    cases hn : name.reverse with
    | nil => exact absurd hn hrev
    | cons c cs => exact ⟨c, cs, rfl⟩
  have hc : c ≠ Separator := fun hc => hns (by rw [hcs]; simp [hc])
  have hne : pre ++ name ≠ [] := by simp [h.1]
  unfold Base
  simp only [hne, if_false]
  have hdrop : ((pre ++ name).reverse.dropWhile (fun c => decide (c = Separator)))
      = (pre ++ name).reverse := by
    rw [List.reverse_append, hcs]
    simp [List.dropWhile, hc]
  rw [hdrop, List.reverse_reverse]
  have htake : ((pre ++ name).reverse.takeWhile (fun c => decide (c ≠ Separator)))
      = name.reverse := by
    rw [List.reverse_append]
    rcases hpre with hp | ⟨a, ha⟩
    · subst hp
      simpa using takeWhile_element name.reverse hns
    · subst ha
      rw [List.reverse_append]
      simpa using takeWhile_append_sep name.reverse a.reverse hns
  rw [htake, List.reverse_reverse]
  simp [h.1]

/-- The text of a directory joined with one ordinary element. -/
theorem Join_element_cases (root name : GoString) (h : IsElement name) :
    Join root name = name ∨ ∃ a, Join root name = a ++ Separator :: name := by
  have hb := below_Join_element root name h
  unfold below at hb
  by_cases h1 : strings.HasPrefix (Join root name) (Clean root ++ [Separator]) = true
  · right
    have hp : Clean root ++ [Separator] <+: Join root name := by
      simpa [strings.HasPrefix] using h1
    obtain ⟨t, ht⟩ := hp
    simp only [h1, if_true, Option.some.injEq] at hb
    rw [← ht] at hb
    simp at hb
    exact ⟨Clean root, by rw [← ht, hb]; simp⟩
  · simp only [h1, Bool.false_eq_true, if_false] at hb
    by_cases h2 : Clean root = ['.'] ∧ isRooted (Join root name) = false
    · left
      simpa [h2] using hb
    · simp only [h2, if_false] at hb
      by_cases h3 : Clean root = [Separator] ∧ isRooted (Join root name) = true
      · right
        simp only [h3, and_self, if_true, Option.some.injEq] at hb
        cases hj : Join root name with
        | nil => rw [hj] at h3; simp [isRooted] at h3
        | cons c cs =>
          rw [hj] at hb h3
          simp only [List.drop_succ_cons, List.drop_zero] at hb
          have hc : c = Separator := by simpa [isRooted] using h3.2
          exact ⟨[], by simp [hc, hb]⟩
      · simp [h3] at hb

theorem Base_Join_element (root name : GoString) (h : IsElement name) :
    Base (Join root name) = name := by
  rcases Join_element_cases root name h with hj | ⟨a, hj⟩
  · rw [hj]
    simpa using Base_append_element [] name h (Or.inl rfl)
  · rw [hj]
    have := Base_append_element (a ++ [Separator]) name h (Or.inr ⟨a, rfl⟩)
    simpa using this

end filepath

theorem GoodRel_Join (rel name : GoString) (hrel : GoodRel rel) (h : filepath.IsElement name) :
    filepath.Join rel name = joinRel rel name ∧ GoodRel (filepath.Join rel name) := by
  rcases hrel with hnil | ⟨hne, hst, hcl⟩
  · subst hnil
    have hj : filepath.Join [] name = name := by
      simp [filepath.Join, h.1, filepath.Clean_element name h]
    refine ⟨by simp [hj, joinRel], Or.inr ?_⟩
    rw [hj]
    refine ⟨h.1, ?_, filepath.Clean_element name h⟩
    unfold filepath.cleanStack
    rw [filepath.splitSep_of_not_mem name h.2.1]
    simp [filepath.cleanStep_element, h]
  · obtain ⟨hr, hs⟩ := filepath.cleanStack_append_element rel name hne h
    have hb := filepath.below_Join_element rel name h
    have hj : filepath.Join rel name = rel ++ Separator :: name := by
      rcases filepath.Clean_cases rel with hdot | ⟨hren, _⟩
      · exfalso
        rw [hcl] at hdot
        rw [hdot] at hst
        exact hst (by decide)
      · unfold filepath.Join
        simp only [hne, ne_eq, not_false_eq_true, if_true]
        unfold filepath.Clean
        have hne2 : rel ++ Separator :: name ≠ [] := by simp
        simp only [hne2, if_false, hr, hs]
        have hrr : filepath.render (filepath.isRooted rel) (name :: filepath.cleanStack rel)
            = rel ++ Separator :: name := by
          simp only [filepath.render, List.reverse_cons, List.append_assoc]
          rw [filepath.joinSep_append_singleton _ _ (by simpa using hst)]
          rw [← List.append_assoc]
          have : (if filepath.isRooted rel = true then [Separator] else [])
              ++ filepath.joinSep (filepath.cleanStack rel).reverse = rel := by
            have := hren
            rw [hcl] at this
            simpa [filepath.render] using this.symm
          rw [this]
        rw [hrr]
        simp
    refine ⟨by simp [hj, joinRel, hne, Separator], Or.inr ⟨?_, ?_, ?_⟩⟩
    · rw [hj]; simp
    · rw [hj, hs]; simp
    · unfold filepath.Join
      simp only [hne, ne_eq, not_false_eq_true, if_true]
      exact filepath.Clean_idem _

theorem PathsOkList_iff (fsPath parentRel : GoString) (l : List FileNode) :
    FileNode.PathsOkList fsPath parentRel l ↔
      ∀ c ∈ l, c.Path = joinRel parentRel c.Name ∧
        FileNode.PathsOk (filepath.Join fsPath c.Name) c := by
  induction l with
  | nil => simp [FileNode.PathsOkList]
  | cons c rest ih =>
    rw [FileNode.PathsOkList, ih]
    simp only [List.mem_cons, forall_eq_or_imp]
    tauto

theorem wellListed_dir (entries : List (GoString × FsView))
    (h : FsView.wellListed (FsView.dir entries) = true) :
    (entries.map Prod.fst).Nodup ∧ FsView.entriesWellListed entries = true := by
  rw [FsView.wellListed] at h
  simpa using h

theorem entriesWellListed_cons (name : GoString) (sub : FsView) (rest : List (GoString × FsView))
    (h : FsView.entriesWellListed ((name, sub) :: rest) = true) :
    filepath.IsElement name ∧ FsView.wellListed sub = true ∧
      FsView.entriesWellListed rest = true := by
  rw [FsView.entriesWellListed] at h
  simp only [Bool.and_eq_true, decide_eq_true_eq] at h
  exact ⟨h.1.1, h.1.2, h.2⟩

mutual
theorem BuildTree_paths : (v : FsView) → (root rel : GoString) →
    FsView.wellListed v = true → GoodRel rel → (node : FileNode) →
    FileUtil.BuildTree v root rel = Except.ok node →
    node.Path = rel ∧ FileNode.PathsOk root node
  | FsView.statFails, _, _, _, _, _, h => by simp [FileUtil.BuildTree] at h
  | FsView.dirUnlistable, _, _, _, _, _, h => by simp [FileUtil.BuildTree] at h
  | FsView.file size, root, rel, _, _, node, h => by
    simp only [FileUtil.BuildTree, Except.ok.injEq] at h
    subst h
    exact ⟨rfl, by simp [FileNode.PathsOk, FileNode.PathsOkList]⟩
  | FsView.dir entries, root, rel, hv, hrel, node, h => by
    simp only [FileUtil.BuildTree, Except.ok.injEq] at h
    subst h
    refine ⟨rfl, ?_⟩
    rw [FileNode.PathsOk]
    refine ⟨rfl, ?_⟩
    rw [PathsOkList_iff]
    intro c hc
    have hc2 : c ∈ FileUtil.buildChildren entries root rel :=
      (FileUtil.sortNodes_perm _).subset hc
    exact buildChildren_paths entries root rel (wellListed_dir entries hv).2 hrel c hc2
theorem buildChildren_paths : (entries : List (GoString × FsView)) → (root rel : GoString) →
    FsView.entriesWellListed entries = true → GoodRel rel →
    ∀ c ∈ FileUtil.buildChildren entries root rel,
      c.Path = joinRel rel c.Name ∧ FileNode.PathsOk (filepath.Join root c.Name) c
  | [], _, _, _, _ => by
    intro c hc
    simp [FileUtil.buildChildren] at hc
  | (name, sub) :: rest, root, rel, hes, hrel => by
    obtain ⟨hname, hsub, hrest⟩ := entriesWellListed_cons name sub rest hes
    obtain ⟨hjoin, hgood⟩ := GoodRel_Join rel name hrel hname
    intro c hc
    rw [FileUtil.buildChildren] at hc
    cases hb : FileUtil.BuildTree sub (filepath.Join root name) (filepath.Join rel name) with
    | error err =>
      rw [hb] at hc
      exact buildChildren_paths rest root rel hrest hrel c hc
    | ok child =>
      rw [hb] at hc
      simp only [List.mem_cons] at hc
      rcases hc with hc | hc
      · subst hc
        obtain ⟨hp, hok⟩ := BuildTree_paths sub (filepath.Join root name) (filepath.Join rel name)
          hsub hgood c hb
        have hn : c.Name = name := by
          have h1 : c.Name = filepath.Base (filepath.Join root name) := by
            cases c with
            | mk n p t s ch =>
              rw [FileNode.PathsOk] at hok
              exact hok.1
          rw [h1, filepath.Base_Join_element root name hname]
        rw [hn]
        exact ⟨by rw [hp, hjoin], hok⟩
      · exact buildChildren_paths rest root rel hrest hrel c hc
end

/-- **C12.** In every tree that `BuildTree(root, "")` returns for a real
directory tree (every listing holds distinct ordinary names), the root node
has the empty relative path and its name is the last element of `root`; the
relative path of every other node is the relative path of its parent joined
with its own name by a forward slash (just the name for the children of the
root), and its name is the last element of its filesystem path, the path of
its parent joined with that name. -/
theorem C12_relative_paths_follow_the_tree (view : FsView) (root : GoString) (node : FileNode)
    (hview : FsView.wellListed view = true)
    (hbuilt : FileUtil.BuildTree view root [] = Except.ok node) :
    node.Path = [] ∧ node.Name = filepath.Base root ∧ FileNode.PathsOk root node := by
  obtain ⟨hp, hok⟩ := BuildTree_paths view root [] hview (Or.inl rfl) node hbuilt
  refine ⟨hp, ?_, hok⟩
  cases node with
  | mk n p t s ch =>
    rw [FileNode.PathsOk] at hok
    exact hok.1

/-- Witness of C12: the two-level directory `nestedView` built at
`/data/log1`; the node of `a/b.json` has relative path `a/b.json`. -/
theorem C12_relative_paths_follow_the_tree_witness :
    FileUtil.BuildTree nestedView "/data/log1".toList [] = Except.ok nestedTree ∧
    nestedTree.Path = [] ∧ nestedTree.Name = filepath.Base "/data/log1".toList ∧
    FileNode.PathsOk "/data/log1".toList nestedTree :=
  ⟨by rfl, C12_relative_paths_follow_the_tree nestedView "/data/log1".toList nestedTree
    (by decide) (by rfl)⟩

/-- Two arrangements of the same elements that are both ordered by `r` are
equal when `r` is antisymmetric on those elements. -/
theorem eq_of_perm_of_pairwise {α : Type} (r : α → α → Prop) :
    ∀ (l₁ l₂ : List α), (∀ a ∈ l₁, ∀ b ∈ l₁, r a b → r b a → a = b) →
      l₁.Perm l₂ → l₁.Pairwise r → l₂.Pairwise r → l₁ = l₂
  | [], l₂, _, hp, _, _ => hp.nil_eq
  | a :: l₁, [], _, hp, _, _ => absurd hp.symm.nil_eq (by simp)
  | a :: l₁, b :: l₂, hanti, hp, h1, h2 => by
    rw [List.pairwise_cons] at h1 h2
    have hab : a = b := by
      have ha : a ∈ b :: l₂ := hp.subset (by simp)
      have hb : b ∈ a :: l₁ := hp.symm.subset (by simp)
      simp only [List.mem_cons] at ha hb
      rcases ha with ha | ha
      · exact ha
      · rcases hb with hb | hb
        · exact hb.symm
        · exact hanti a (by simp) b (by simp [hb]) (h1.1 b hb) (h2.1 a ha)
    subst hab
    have hp2 : l₁.Perm l₂ := (List.perm_cons a).mp hp
    rw [eq_of_perm_of_pairwise r l₁ l₂
      (fun x hx y hy => hanti x (by simp [hx]) y (by simp [hy])) hp2 h1.2 h2.2]

namespace FileUtil

theorem BuildTree_Name (v : FsView) (rootPath relativePath : GoString) (node : FileNode)
    (h : BuildTree v rootPath relativePath = Except.ok node) :
    node.Name = filepath.Base rootPath := by
  cases v with
  | statFails => simp [BuildTree] at h
  | file size =>
    simp only [BuildTree, Except.ok.injEq] at h
    rw [← h]
  | dirUnlistable => simp [BuildTree] at h
  | dir entries =>
    simp only [BuildTree, Except.ok.injEq] at h
    rw [← h]

/-- The names of the built children are, in order, names of the listing. -/
theorem buildChildren_names_sublist (entries : List (GoString × FsView))
    (rootPath relativePath : GoString) (h : ∀ e ∈ entries, filepath.IsElement e.1) :
    ((buildChildren entries rootPath relativePath).map (fun c => c.Name)).Sublist
      (entries.map Prod.fst) := by
  induction entries with
  | nil => simp [buildChildren]
  | cons e rest ih =>
    obtain ⟨name, sub⟩ := e
    have ih2 := ih (fun x hx => h x (by simp [hx]))
    rw [buildChildren]
    cases hb : BuildTree sub (filepath.Join rootPath name) (filepath.Join relativePath name) with
    | error err => exact List.Sublist.cons _ ih2
    | ok child =>
      have hn : child.Name = name := by
        rw [BuildTree_Name _ _ _ _ hb]
        exact filepath.Base_Join_element rootPath name (h (name, sub) (by simp))
      simp only [List.map_cons, hn]
      exact List.Sublist.cons₂ _ ih2

/-- For nodes that are directories or files, being unordered both ways means
equal kind and equal name. -/
theorem less_antisymm_key (a b : FileNode)
    (ha : a.Typ = "directory" ∨ a.Typ = "file") (hb : b.Typ = "directory" ∨ b.Typ = "file")
    (h1 : less b a = false) (h2 : less a b = false) : a.Name = b.Name := by
  unfold less at h1 h2
  by_cases ht : a.Typ = b.Typ
  · have ht2 : b.Typ = a.Typ := ht.symm
    simp only [ne_eq, ht, not_true_eq_false, if_false, decide_eq_false_iff_not] at h2
    simp only [ne_eq, ht2, not_true_eq_false, if_false, decide_eq_false_iff_not] at h1
    exact le_antisymm (not_lt.mp h1) (not_lt.mp h2)
  · exfalso
    have ht2 : ¬ b.Typ = a.Typ := fun h => ht h.symm
    simp only [ne_eq, ht, not_false_eq_true, if_true, decide_eq_false_iff_not] at h2
    simp only [ne_eq, ht2, not_false_eq_true, if_true, decide_eq_false_iff_not] at h1
    rcases ha with ha | ha
    · exact h2 ha
    · rcases hb with hb | hb
      · exact h1 hb
      · exact ht (ha.trans hb.symm)

/-- `sortNodes` does not depend on the order of its input when the nodes are
directories or files with pairwise distinct names. -/
theorem sortNodes_eq_of_perm (l₁ l₂ : List FileNode) (hp : l₁.Perm l₂)
    (htyp : ∀ c ∈ l₁, c.Typ = "directory" ∨ c.Typ = "file")
    (hnames : (l₁.map (fun c => c.Name)).Nodup) : sortNodes l₁ = sortNodes l₂ := by
  have hperm : (sortNodes l₁).Perm (sortNodes l₂) :=
    (sortNodes_perm l₁).trans (hp.trans (sortNodes_perm l₂).symm)
  refine eq_of_perm_of_pairwise (fun a b => less b a = false) _ _ ?_ hperm
    (sortNodes_sorted l₁) (sortNodes_sorted l₂)
  intro a ha b hb hab hba
  have ha1 : a ∈ l₁ := (sortNodes_perm l₁).subset ha
  have hb1 : b ∈ l₁ := (sortNodes_perm l₁).subset hb
  have hkey := less_antisymm_key a b (htyp a ha1) (htyp b hb1) hab hba
  exact List.inj_on_of_nodup_map hnames ha1 hb1 hkey

end FileUtil

theorem entriesWellListed_names (entries : List (GoString × FsView))
    (h : FsView.entriesWellListed entries = true) : ∀ e ∈ entries, filepath.IsElement e.1 := by
  induction entries with
  | nil => intro e he; simp at he
  | cons x rest ih =>
    obtain ⟨name, sub⟩ := x
    obtain ⟨hname, _, hrest⟩ := entriesWellListed_cons name sub rest h
    intro e he
    simp only [List.mem_cons] at he
    rcases he with he | he
    · subst he; exact hname
    · exact ih hrest e he

theorem shuffleEntries_names
    (reorder : GoString → List (GoString × FsView) → List (GoString × FsView))
    (path : GoString) (entries : List (GoString × FsView)) :
    (FsView.shuffleEntries reorder path entries).map Prod.fst = entries.map Prod.fst := by
  induction entries with
  | nil => simp [FsView.shuffleEntries]
  | cons x rest ih =>
    obtain ⟨name, sub⟩ := x
    rw [FsView.shuffleEntries]
    simp [ih]

mutual
theorem BuildTree_shuffle
    (reorder : GoString → List (GoString × FsView) → List (GoString × FsView))
    (hperm : ∀ p l, (reorder p l).Perm l) :
    (v : FsView) → (root rel : GoString) → FsView.wellListed v = true →
    FileUtil.BuildTree (FsView.shuffle reorder root v) root rel = FileUtil.BuildTree v root rel
  | FsView.statFails, _, _, _ => by rw [FsView.shuffle]
  | FsView.dirUnlistable, _, _, _ => by rw [FsView.shuffle]
  | FsView.file size, _, _, _ => by rw [FsView.shuffle]
  | FsView.dir entries, root, rel, hv => by
    obtain ⟨hnodup, hes⟩ := wellListed_dir entries hv
    rw [FsView.shuffle, FileUtil.BuildTree, FileUtil.BuildTree]
    have hsh := buildChildren_shuffle reorder hperm entries root rel hes
    have hp : (FileUtil.buildChildren
        (reorder root (FsView.shuffleEntries reorder root entries)) root rel).Perm
        (FileUtil.buildChildren entries root rel) := by
      rw [← hsh, FileUtil.buildChildren_eq_filterMap, FileUtil.buildChildren_eq_filterMap]
      exact (hperm root _).filterMap _
    have hnames : ((FileUtil.buildChildren entries root rel).map (fun c => c.Name)).Nodup :=
      hnodup.sublist
        (FileUtil.buildChildren_names_sublist entries root rel (entriesWellListed_names entries hes))
    have hnames2 : ((FileUtil.buildChildren
        (reorder root (FsView.shuffleEntries reorder root entries)) root rel).map
          (fun c => c.Name)).Nodup :=
      (hp.map _).nodup_iff.mpr hnames
    rw [FileUtil.sortNodes_eq_of_perm _ _ hp
      (fun c hc => FileUtil.buildChildren_Typ _ root rel c hc) hnames2]
theorem buildChildren_shuffle
    (reorder : GoString → List (GoString × FsView) → List (GoString × FsView))
    (hperm : ∀ p l, (reorder p l).Perm l) :
    (entries : List (GoString × FsView)) → (root rel : GoString) →
    FsView.entriesWellListed entries = true →
    FileUtil.buildChildren (FsView.shuffleEntries reorder root entries) root rel
      = FileUtil.buildChildren entries root rel
  | [], _, _, _ => by rw [FsView.shuffleEntries]
  | (name, sub) :: rest, root, rel, hes => by
    obtain ⟨_, hsub, hrest⟩ := entriesWellListed_cons name sub rest hes
    rw [FsView.shuffleEntries, FileUtil.buildChildren, FileUtil.buildChildren,
      BuildTree_shuffle reorder hperm sub (filepath.Join root name) (filepath.Join rel name) hsub,
      buildChildren_shuffle reorder hperm rest root rel hrest]
end

/-- **C13.** Building the tree of the same unmodified directory twice gives
the same tree (names, relative paths, kinds, sizes and child order), also when
on the second call every directory listing comes back in a different order:
for a real directory tree (distinct ordinary names in each listing) and any
rearrangement `reorder` of the listings, `BuildTree` returns the same result
on the rearranged answers as on the original ones. -/
theorem C13_build_is_independent_of_listing_order
    (reorder : GoString → List (GoString × FsView) → List (GoString × FsView))
    (view : FsView) (rootPath relativePath : GoString)
    (hreorder : ∀ p l, (reorder p l).Perm l)
    (hview : FsView.wellListed view = true) :
    FileUtil.BuildTree (FsView.shuffle reorder rootPath view) rootPath relativePath
      = FileUtil.BuildTree view rootPath relativePath :=
  BuildTree_shuffle reorder hreorder view rootPath relativePath hview

/-- Witness of C13: every listing of `nestedView` reversed. -/
theorem C13_build_is_independent_of_listing_order_witness :
    FsView.shuffle (fun _ l => l.reverse) "/data/log1".toList nestedView
      = FsView.dir [("a".toList, FsView.dir [("b.json".toList, FsView.file 2)]),
          ("z.log".toList, FsView.file 9)] ∧
    FileUtil.BuildTree (FsView.shuffle (fun _ l => l.reverse) "/data/log1".toList nestedView)
        "/data/log1".toList []
      = FileUtil.BuildTree nestedView "/data/log1".toList [] :=
  ⟨by rfl,
   C13_build_is_independent_of_listing_order (fun _ l => l.reverse) nestedView
     "/data/log1".toList [] (fun _ l => List.reverse_perm l) (by decide)⟩

/-! ## Tree cache operations (C14, C15, C16, C17) -/

namespace Cache

variable {V : Type}

theorem Get_of_live (c : Cache V) (now : Int) (key : GoString) (item : CacheItem V)
    (h : c.items key = some item) (hlive : ¬ (item.Expiration > 0 ∧ now > item.Expiration)) :
    c.Get now key = (c, some item.Value) := by
  simp [Get, h, hlive]

theorem Get_of_absent (c : Cache V) (now : Int) (key : GoString) (h : c.items key = none) :
    c.Get now key = (c, none) := by
  simp [Get, h]

end Cache

/-- **C16.** After `Delete(k)` a `Get(k)` returns absent at every instant
(also before the TTL of the deleted entry has elapsed) and changes nothing,
every other key keeps its entry (value and expiration), and `Delete` of a key
that holds no entry leaves the cache unchanged. -/
theorem C16_delete_removes_only_its_key {V : Type} (c : Cache V) (k : GoString) :
    (∀ now, (c.Delete k).Get now k = (c.Delete k, none)) ∧
    (∀ other, other ≠ k → (c.Delete k).items other = c.items other) ∧
    (c.Delete k).ttl = c.ttl ∧
    (c.items k = none → c.Delete k = c) := by
  refine ⟨?_, ?_, rfl, ?_⟩
  · intro now
    exact Cache.Get_of_absent _ now k (by simp [Cache.Delete, Cache.erase])
  · intro other hne
    simp [Cache.Delete, Cache.erase, hne]
  · intro habsent
    cases c with
    | mk items ttl =>
      simp only [Cache.Delete, Cache.erase, Cache.mk.injEq, and_true]
      funext key
      by_cases hk : key = k
      · subst hk
        simpa using habsent.symm
      · simp [hk]

namespace Cache

variable {V : Type}

end Cache

namespace FS

theorem mkdirChain_file (qs : List GoString) (fs : FS) (q : GoString) (h : IsFileAt fs q) :
    IsFileAt (mkdirChain fs qs).1 q := by
  obtain ⟨d, hd⟩ := h
  exact ⟨d, mkdirChain_keeps qs fs q _ hd⟩

theorem MkdirAll_file (fs : FS) (path q : GoString) (h : IsFileAt fs q) :
    IsFileAt (fs.MkdirAll path).1 q := mkdirChain_file _ fs q h

theorem Create_file (fs : FS) (path q : GoString) (h : IsFileAt fs q) :
    IsFileAt (fs.Create path).1 q := by
  by_cases hq : (fs.Create path).1.lookup q = fs.lookup q
  · obtain ⟨d, hd⟩ := h
    exact ⟨d, by rw [hq, hd]⟩
  · have hqe := Create_frame fs path q hq
    subst hqe
    obtain ⟨d, hd⟩ := h
    unfold Create
    simp only []
    split
    · exact ⟨d, hd⟩
    · split
      · exact ⟨d, hd⟩
      · split
        · exact ⟨[], by simp [lookup_put]⟩
        · split <;> exact ⟨d, hd⟩

theorem Create_ok_lookup (fs : FS) (path : GoString) (h : (fs.Create path).2 = none) :
    (fs.Create path).1.lookup (filepath.Clean path) = some (FsObj.file []) := by
  unfold Create at h ⊢
  simp only [] at h ⊢
  by_cases h1 : path = []
  · simp [h1] at h
  · by_cases h2 : fs.isDir (filepath.Clean path) = true
    · simp [h1, h2] at h
    · by_cases h3 : fs.isDir (filepath.Dir (filepath.Clean path)) = true
      · simp [h1, h2, h3, lookup_put]
      · by_cases h4 : (ancestors (filepath.Clean path)).any fs.isFile = true
        · rw [if_neg h1, if_neg h2, if_neg h3, if_pos h4] at h
          simp at h
        · rw [if_neg h1, if_neg h2, if_neg h3, if_neg h4] at h
          simp at h

theorem Create_ok_file (fs : FS) (path : GoString) (h : (fs.Create path).2 = none) :
    IsFileAt (fs.Create path).1 (filepath.Clean path) := by
  have hl := Create_ok_lookup fs path h
  exact ⟨[], hl⟩

theorem Write_file (fs : FS) (path q : GoString) (data : Bytes) (h : IsFileAt fs q) :
    IsFileAt (fs.Write path data) q := by
  by_cases hq : (fs.Write path data).lookup q = fs.lookup q
  · obtain ⟨d, hd⟩ := h
    exact ⟨d, by rw [hq, hd]⟩
  · have hqe := Write_frame fs path q data hq
    subst hqe
    obtain ⟨d, hd⟩ := h
    unfold Write
    simp only [hd]
    exact ⟨d ++ data, by simp [lookup_put]⟩

theorem Remove_file (fs : FS) (path : GoString) (h : IsFileAt fs (filepath.Clean path)) :
    (fs.Remove path).lookup (filepath.Clean path) = none := by
  obtain ⟨d, hd⟩ := h
  unfold Remove
  simp only [hd]
  show find _ _ = none
  rw [find_filter_ne]
  simp

end FS

namespace ZipUtil

theorem extractFile_file (fs : FS) (file : ZipFile) (destPath q : GoString)
    (h : FS.IsFileAt fs q) : FS.IsFileAt (extractFile fs file destPath).1 q := by
  unfold extractFile
  have hc := FS.Create_file fs destPath q h
  cases file.payload with
  | openFails => exact h
  | data bytes =>
    simp only []
    generalize fs.Create destPath = r at hc
    obtain ⟨fs1, _ | e⟩ := r
    · exact FS.Write_file fs1 destPath q bytes hc
    · exact hc
  | copyFails written =>
    simp only []
    generalize fs.Create destPath = r at hc
    obtain ⟨fs1, _ | e⟩ := r
    · exact FS.Write_file fs1 destPath q written hc
    · exact hc

theorem extractEntry_file (fs : FS) (extractTo : GoString) (file : ZipFile) (q : GoString)
    (h : FS.IsFileAt fs q) : FS.IsFileAt (extractEntry fs extractTo file).1 q := by
  unfold extractEntry
  simp only []
  split
  · exact h
  · split
    · have hm := FS.MkdirAll_file fs (filepath.Join extractTo file.Name) q h
      generalize fs.MkdirAll (filepath.Join extractTo file.Name) = r at hm
      obtain ⟨fs1, _ | e⟩ := r <;> exact hm
    · have hm := FS.MkdirAll_file fs (filepath.Dir (filepath.Join extractTo file.Name)) q h
      generalize fs.MkdirAll (filepath.Dir (filepath.Join extractTo file.Name)) = r at hm
      obtain ⟨fs1, _ | e⟩ := r
      · simp only []
        have hx := extractFile_file fs1 file (filepath.Join extractTo file.Name) q hm
        generalize extractFile fs1 file (filepath.Join extractTo file.Name) = r2 at hx
        obtain ⟨fs2, _ | e⟩ := r2 <;> exact hx
      · exact hm

theorem extractLoop_file (files : List ZipFile) (fs : FS) (extractTo q : GoString)
    (h : FS.IsFileAt fs q) : FS.IsFileAt (extractLoop fs extractTo files).1 q := by
  induction files generalizing fs with
  | nil => exact h
  | cons file rest ih =>
    unfold extractLoop
    have he := extractEntry_file fs extractTo file q h
    generalize extractEntry fs extractTo file = r at he
    obtain ⟨fs1, _ | e⟩ := r
    · exact ih fs1 he
    · exact he

/-- `Extract` never removes a file nor turns it into a directory. -/
theorem Extract_file (parseZip : Bytes → Option (List ZipFile)) (fs : FS)
    (zipPath extractTo q : GoString) (h : FS.IsFileAt fs q) :
    FS.IsFileAt (Extract parseZip fs zipPath extractTo).1 q := by
  unfold Extract
  have hm := FS.MkdirAll_file fs extractTo q h
  generalize fs.MkdirAll extractTo = r at hm
  obtain ⟨fs1, _ | e⟩ := r
  · simp only []
    cases openReader parseZip fs1 zipPath with
    | none => exact hm
    | some files => exact extractLoop_file files fs1 extractTo q hm
  · exact hm

end ZipUtil

namespace Client

theorem DownloadWithAuth_ok_file (fs : FS) (resp : HttpResponse) (savePath : GoString)
    (h : (DownloadWithAuth fs resp savePath).2 = none) :
    FS.IsFileAt (DownloadWithAuth fs resp savePath).1 (filepath.Clean savePath) := by
  unfold DownloadWithAuth at h ⊢
  cases resp with
  | transportError => simp at h
  | response code body breaksAfter =>
    simp only [] at h ⊢
    by_cases h404 : code = 404
    · simp [h404] at h
    · by_cases h200 : code = 200
      · subst h200
        simp only [h404, if_false, ne_eq, not_true_eq_false] at h ⊢
        have hc := FS.Create_ok_file fs savePath
        generalize fs.Create savePath = r at h hc
        obtain ⟨fs1, _ | e⟩ := r
        · cases breaksAfter with
          | none => exact FS.Write_file fs1 savePath _ body (hc rfl)
          | some n => simp at h
        · simp at h
      · simp [h404, h200] at h

end Client

/-- **C19.** When the remote answers the fetch with HTTP 404, `DownloadLog`
returns `Success = false` with the not-found-or-expired error and leaves the
disk, the cache and the records exactly as they were (no temporary archive, no
extraction directory); the download handler then answers 500 with that error
and creates no record. -/
theorem C19_remote_404_changes_nothing (cfg : Config) (parseZip : Bytes → Option (List ZipFile))
    (remote : GoString → HttpResponse) (w : World) (logID : GoString)
    (body : Bytes) (breaksAfter : Option Nat)
    (h404 : remote (FileService.downloadURL cfg logID)
      = HttpResponse.response 404 body breaksAfter) :
    FileService.DownloadLog cfg parseZip remote w logID
      = (w, ⟨false, [], [], some (DownloadFailure.download DownloadError.notFoundOrExpired)⟩) ∧
    (∀ req, LogService.ValidateLogID req = Except.ok logID →
      LogHandler.DownloadLog cfg parseZip remote w req
        = (w, ⟨500, some (ReplyError.download
            (some (DownloadFailure.download DownloadError.notFoundOrExpired)))⟩)) := by
  have hd : FileService.DownloadLog cfg parseZip remote w logID
      = (w, ⟨false, [], [], some (DownloadFailure.download DownloadError.notFoundOrExpired)⟩) := by
    simp [FileService.DownloadLog, h404, Client.DownloadWithAuth]
  refine ⟨hd, ?_⟩
  intro req hreq
  simp [LogHandler.DownloadLog, hreq, hd]

/-- Witness of C19: log `log1` requested from a remote that answers 404. -/
theorem C19_remote_404_changes_nothing_witness :
    (FileService.DownloadLog sampleConfig scenarioParse remote404 browsedWorld "log1".toList).2
      = ⟨false, [], [], some (DownloadFailure.download DownloadError.notFoundOrExpired)⟩ ∧
    (LogHandler.DownloadLog sampleConfig scenarioParse remote404 browsedWorld
      (LogIDValue.str "log1".toList)).2.status = 500 :=
  ⟨congrArg Prod.snd (C19_remote_404_changes_nothing sampleConfig scenarioParse remote404
      browsedWorld "log1".toList [] none rfl).1,
   congrArg (fun r => r.2.status) ((C19_remote_404_changes_nothing sampleConfig scenarioParse
      remote404 browsedWorld "log1".toList [] none rfl).2 (LogIDValue.str "log1".toList) rfl)⟩

/-- **C20.** Once the fetch has written the temporary archive
`<BaseDir>/<logID>.zip` (`DownloadWithAuth` returned no error), that file does
not exist when `DownloadLog` returns, on each remaining path: the archive is
invalid (`Success = false`), the extraction fails (`Success = false` with the
extract error), or everything succeeds (`Success = true` with the extraction
root joined with `logID` as `ExtractPath`). -/
theorem C20_temporary_archive_is_removed (cfg : Config)
    (parseZip : Bytes → Option (List ZipFile)) (remote : GoString → HttpResponse) (w : World)
    (logID : GoString)
    (hfetched : (Client.DownloadWithAuth w.fs (remote (FileService.downloadURL cfg logID))
      (FileService.zipPath cfg logID)).2 = none) :
    (FileService.DownloadLog cfg parseZip remote w logID).1.fs.lookup
      (filepath.Clean (FileService.zipPath cfg logID)) = none ∧
    (ZipUtil.IsValid parseZip
        (Client.DownloadWithAuth w.fs (remote (FileService.downloadURL cfg logID))
          (FileService.zipPath cfg logID)).1 (FileService.zipPath cfg logID) = false →
      (FileService.DownloadLog cfg parseZip remote w logID).2
        = ⟨false, [], [], some DownloadFailure.invalidZip⟩) ∧
    (ZipUtil.IsValid parseZip
        (Client.DownloadWithAuth w.fs (remote (FileService.downloadURL cfg logID))
          (FileService.zipPath cfg logID)).1 (FileService.zipPath cfg logID) = true →
      (FileService.DownloadLog cfg parseZip remote w logID).2
        = match (ZipUtil.Extract parseZip
            (Client.DownloadWithAuth w.fs (remote (FileService.downloadURL cfg logID))
              (FileService.zipPath cfg logID)).1 (FileService.zipPath cfg logID)
            (FileService.extractPath cfg logID)).2 with
          | some e => ⟨false, [], [], some (DownloadFailure.extract e)⟩
          | none => ⟨true, [], FileService.extractPath cfg logID, none⟩) := by
  have hfile := Client.DownloadWithAuth_ok_file w.fs (remote (FileService.downloadURL cfg logID))
    (FileService.zipPath cfg logID) hfetched
  unfold FileService.DownloadLog
  simp only []
  generalize Client.DownloadWithAuth w.fs (remote (FileService.downloadURL cfg logID))
    (FileService.zipPath cfg logID) = r at hfetched hfile ⊢
  obtain ⟨fs1, _ | e⟩ := r
  · simp only [] at hfile ⊢
    by_cases hv : ZipUtil.IsValid parseZip fs1 (FileService.zipPath cfg logID) = true
    · simp only [hv, Bool.not_true, Bool.false_eq_true, if_false, true_implies, false_implies,
        and_true]
      have hx := ZipUtil.Extract_file parseZip fs1 (FileService.zipPath cfg logID)
        (FileService.extractPath cfg logID) _ hfile
      generalize ZipUtil.Extract parseZip fs1 (FileService.zipPath cfg logID)
        (FileService.extractPath cfg logID) = r2 at hx ⊢
      obtain ⟨fs2, _ | e⟩ := r2
      · exact ⟨FS.Remove_file fs2 _ hx, fun h => absurd h (by simp), rfl⟩
      · exact ⟨FS.Remove_file fs2 _ hx, fun h => absurd h (by simp), rfl⟩
    · have hv2 : ZipUtil.IsValid parseZip fs1 (FileService.zipPath cfg logID) = false := by
        simpa using hv
      simp only [hv2, Bool.not_false, if_true, true_implies, Bool.false_eq_true, false_implies,
        and_true]
      exact FS.Remove_file fs1 _ hfile
  · simp at hfetched

/-- Witness of C20: the first download of `log1` on a fresh server; the
temporary archive `log1.zip` is gone afterwards. -/
theorem C20_temporary_archive_is_removed_witness :
    (Client.DownloadWithAuth freshWorld.fs
      (remoteOld (FileService.downloadURL sampleConfig "log1".toList))
      (FileService.zipPath sampleConfig "log1".toList)).1.lookup "log1.zip".toList
      = some (FsObj.file [1]) ∧
    (FileService.DownloadLog sampleConfig scenarioParse remoteOld freshWorld
      "log1".toList).1.fs.lookup
      (filepath.Clean (FileService.zipPath sampleConfig "log1".toList)) = none :=
  ⟨by decide,
   (C20_temporary_archive_is_removed sampleConfig scenarioParse remoteOld freshWorld
     "log1".toList (by decide)).1⟩

/-! ## Cache under concurrent callers (C18) -/

set_option maxRecDepth 20000 in
/-- **C18: the code departs from the claim.** Two goroutines call
`Get("tree:log1")` on an entry that has expired.  Both take the read lock
(neither blocks the other: two readers hold the mutex), and the first reaches
its `delete(c.items, key)` while the second is about to read `c.items`: the
eviction runs under the shared read lock, concurrently with another access to
the map.  The methods that mutate under `Lock` (`Set`, `Delete`, `Clear`,
`DeleteExpired`) never reach such a state with each other or with a `Get` of a
live entry, on any schedule. -/
theorem C18_get_evicts_under_read_lock :
    sampleCache.GetSteps 300000001001 "tree:log1".toList
      = [LockStep.rlock, LockStep.mapRead, LockStep.mapWrite, LockStep.runlock] ∧
    (Goroutines.run
        (Goroutines.start (sampleCache.GetSteps 300000001001 "tree:log1".toList)
          (sampleCache.GetSteps 300000001001 "tree:log1".toList)) [0, 0, 1]).map
        (fun s => (s.mu, s.pending.map List.head?, Goroutines.racing s))
      = some (⟨2, false⟩, [some LockStep.mapWrite, some LockStep.mapRead], true) ∧
    Goroutines.raceFree (Goroutines.start Cache.SetSteps Cache.DeleteSteps) 6 = true ∧
    Goroutines.raceFree (Goroutines.start Cache.ClearSteps Cache.DeleteExpiredSteps) 7 = true ∧
    Goroutines.raceFree
      (Goroutines.start Cache.SetSteps (sampleCache.GetSteps 2000 "tree:log1".toList)) 6 = true ∧
    Goroutines.raceFree
      (Goroutines.start (sampleCache.GetSteps 2000 "tree:log1".toList)
        (sampleCache.GetSteps 2000 "tree:log1".toList)) 6 = true := by
  refine ⟨by decide, by decide, by decide, by decide, by decide, by decide⟩

/-! ## Paths made of ordinary components -/

namespace filepath

theorem foldl_cleanStep_elements (rooted : Bool) (es acc : List GoString)
    (h : ∀ e ∈ es, IsElement e) : es.foldl (cleanStep rooted) acc = es.reverse ++ acc := by
  induction es generalizing acc with
  | nil => rfl
  | cons e es ih =>
    rw [List.foldl_cons, cleanStep_element rooted acc e (h e (by simp)),
      ih _ (fun x hx => h x (by simp [hx]))]
    simp

theorem joinSep_splitSep (s : GoString) : joinSep (splitSep s) = s := by
  induction s with
  | nil => rfl
  | cons c cs ih =>
    simp only [splitSep]
    by_cases hc : c = Separator
    · simp only [hc, if_true]
      cases hs : splitSep cs with
      | nil => exact absurd hs (splitSep_ne_nil cs)
      | cons x xs =>
        rw [hs] at ih
        simp [joinSep, ih]
    · simp only [hc, if_false]
      cases hs : splitSep cs with
      | nil => exact absurd hs (splitSep_ne_nil cs)
      | cons x xs =>
        rw [hs] at ih
        cases xs with
        | nil => simpa [joinSep] using ih
        | cons y ys =>
          simp only [joinSep] at ih ⊢
          simp [ih]

theorem joinSep_append (xs ys : List GoString) (hx : xs ≠ []) (hy : ys ≠ []) :
    joinSep (xs ++ ys) = joinSep xs ++ Separator :: joinSep ys := by
  induction xs with
  | nil => exact absurd rfl hx
  | cons x xs ih =>
    cases xs with
    | nil =>
      cases ys with
      | nil => exact absurd rfl hy
      | cons y ys => simp [joinSep]
    | cons x2 xs =>
      have h2 := ih (by simp)
      show x ++ Separator :: joinSep (x2 :: xs ++ ys) = _
      rw [h2]
      simp [joinSep]

theorem IsOrdinary_ne_nil (name : GoString) (h : IsOrdinary name) : name ≠ [] := by
  intro hn
  subst hn
  exact absurd h (by decide)

theorem isRooted_of_ordinary (name : GoString) (h : IsOrdinary name) : isRooted name = false := by
  cases name with
  | nil => rfl
  | cons c cs =>
    by_cases hc : c = Separator
    · exfalso
      have := h [] (by simp [splitSep, hc])
      exact this.1 rfl
    · simp [isRooted, hc]

/-- A directory that cleans to neither `.` nor the root keeps at least one
element. -/
theorem cleanStack_ne_nil_of_named (root : GoString) (h1 : Clean root ≠ ['.'])
    (h2 : Clean root ≠ [Separator]) : root ≠ [] ∧ cleanStack root ≠ [] := by
  have hroot : root ≠ [] := by
    intro h
    subst h
    exact h1 (by decide)
  refine ⟨hroot, ?_⟩
  intro hst
  have hcr : Clean root = if isRooted root then [Separator] else ['.'] := by
    unfold Clean
    simp only [hroot, if_false, hst]
    cases hrt : isRooted root <;> simp [render, joinSep]
  cases hrt : isRooted root
  · rw [hrt] at hcr; exact h1 (by simpa using hcr)
  · rw [hrt] at hcr; exact h2 (by simpa using hcr)

/-- Joining a named directory with a path of ordinary components appends the
path to the cleaned directory. -/
theorem Join_ordinary (root name : GoString) (h : IsOrdinary name) (h1 : Clean root ≠ ['.'])
    (h2 : Clean root ≠ [Separator]) : Join root name = Clean root ++ Separator :: name := by
  obtain ⟨hroot, hst⟩ := cleanStack_ne_nil_of_named root h1 h2
  have hr : isRooted (root ++ Separator :: name) = isRooted root := by
    cases root with
    | nil => exact absurd rfl hroot
    | cons c cs => simp [isRooted]
  have hs : cleanStack (root ++ Separator :: name) = (splitSep name).reverse ++ cleanStack root := by
    unfold cleanStack
    rw [hr, splitSep_append_sep, List.foldl_append, foldl_cleanStep_elements _ _ _ h]
  have hn := cleanStack_normal root
  have hne := render_ne_nil (isRooted root) (cleanStack root) hn (Or.inl hst)
  have hcr : Clean root = render (isRooted root) (cleanStack root) := by
    unfold Clean
    simp [hroot, hne]
  have hrender : render (isRooted root) ((splitSep name).reverse ++ cleanStack root)
      = render (isRooted root) (cleanStack root) ++ Separator :: name := by
    simp only [render, List.reverse_append, List.reverse_reverse, List.append_assoc]
    rw [joinSep_append _ _ (by simpa using hst) (splitSep_ne_nil name), joinSep_splitSep]
  have hne2 : root ++ Separator :: name ≠ [] := by simp
  have hj : Clean (root ++ Separator :: name)
      = render (isRooted root) (cleanStack root) ++ Separator :: name := by
    unfold Clean
    simp only [hne2, if_false, hr, hs, hrender]
    simp
  unfold Join
  simp only [hroot, ne_eq, not_false_eq_true, if_true]
  rw [hj, hcr]

theorem Clean_Join (a b : GoString) (h : Join a b ≠ []) : Clean (Join a b) = Join a b := by
  unfold Join at h ⊢
  by_cases ha : a = []
  · by_cases hb : b = []
    · simp [ha, hb] at h
    · simp only [ha, ne_eq, not_true_eq_false, if_false, hb, not_false_eq_true, if_true]
      exact Clean_idem b
  · simp only [ha, ne_eq, not_false_eq_true, if_true]
    exact Clean_idem _

end filepath

/-! ## Retrieval orchestrator: broken transfer, record creation (C21, C22) -/

namespace FS

theorem Write_lookup (fs : FS) (path : GoString) (old data : Bytes)
    (h : fs.lookup (filepath.Clean path) = some (FsObj.file old)) :
    (fs.Write path data).lookup (filepath.Clean path) = some (FsObj.file (old ++ data)) := by
  unfold Write
  simp [h, lookup_put]

end FS

namespace FileService

theorem DownloadLog_logs (cfg : Config) (parseZip : Bytes → Option (List ZipFile))
    (remote : GoString → HttpResponse) (w : World) (logID : GoString) :
    (DownloadLog cfg parseZip remote w logID).1.logs = w.logs := by
  unfold DownloadLog
  simp only []
  split
  · rfl
  · split
    · rfl
    · split <;> rfl

theorem DownloadLog_success (cfg : Config) (parseZip : Bytes → Option (List ZipFile))
    (remote : GoString → HttpResponse) (w : World) (logID : GoString)
    (h : (DownloadLog cfg parseZip remote w logID).2.Success = true) :
    (DownloadLog cfg parseZip remote w logID).2 = ⟨true, [], extractPath cfg logID, none⟩ := by
  unfold DownloadLog at h ⊢
  simp only [] at h ⊢
  generalize Client.DownloadWithAuth w.fs (remote (downloadURL cfg logID)) (zipPath cfg logID)
    = r at h ⊢
  obtain ⟨fs1, _ | e⟩ := r
  · simp only [] at h ⊢
    by_cases hv : ZipUtil.IsValid parseZip fs1 (zipPath cfg logID) = true
    · simp only [hv, Bool.not_true, Bool.false_eq_true, if_false] at h ⊢
      generalize ZipUtil.Extract parseZip fs1 (zipPath cfg logID) (extractPath cfg logID)
        = r2 at h ⊢
      obtain ⟨fs2, _ | e⟩ := r2
      · rfl
      · simp at h
    · simp [hv] at h
  · simp at h

end FileService

/-- **C21: the code departs from the claim.** When the remote answers 200 and
the body stream breaks after `n` bytes, `DownloadWithAuth` has already created
`<BaseDir>/<logID>.zip` and returns the save error without removing it, and
`DownloadLog` returns `Success = false` at once: the partial archive (the
first `n` bytes of the body) is still on disk afterwards.  The two later
failure branches of `DownloadLog` (invalid archive, failed extraction) do
call `os.Remove(zipPath)`. -/
theorem C21_partial_archive_is_left_behind (cfg : Config)
    (parseZip : Bytes → Option (List ZipFile)) (remote : GoString → HttpResponse) (w : World)
    (logID : GoString) (body : Bytes) (n : Nat)
    (hbreak : remote (FileService.downloadURL cfg logID)
      = HttpResponse.response 200 body (some n))
    (hcreate : (w.fs.Create (FileService.zipPath cfg logID)).2 = none) :
    (FileService.DownloadLog cfg parseZip remote w logID).2
      = ⟨false, [], [], some (DownloadFailure.download DownloadError.saveFailed)⟩ ∧
    (FileService.DownloadLog cfg parseZip remote w logID).1.fs.lookup
      (filepath.Clean (FileService.zipPath cfg logID)) = some (FsObj.file (body.take n)) := by
  have hl := FS.Create_ok_lookup w.fs _ hcreate
  unfold FileService.DownloadLog
  simp only [hbreak, Client.DownloadWithAuth]
  generalize w.fs.Create (FileService.zipPath cfg logID) = r at hcreate hl
  obtain ⟨fs1, _ | e⟩ := r
  · simp only [] at hl
    have hw := FS.Write_lookup fs1 _ [] (body.take n) hl
    simpa using hw
  · simp at hcreate

/-- Witness of C21: on a fresh server the transfer of `log1` breaks after two
bytes; `log1.zip` holds those two bytes after `DownloadLog` has returned. -/
theorem C21_partial_archive_is_left_behind_witness :
    (FileService.DownloadLog sampleConfig scenarioParse remoteBroken freshWorld "log1".toList).2
      = ⟨false, [], [], some (DownloadFailure.download DownloadError.saveFailed)⟩ ∧
    (FileService.DownloadLog sampleConfig scenarioParse remoteBroken freshWorld
      "log1".toList).1.fs.lookup "log1.zip".toList = some (FsObj.file [80, 75]) :=
  C21_partial_archive_is_left_behind sampleConfig scenarioParse remoteBroken freshWorld
    "log1".toList [80, 75, 3, 4] 2 rfl (by decide)

/-- **C22.** The download handler on a decoded request: an identifier that
fails validation is answered 400 with the world untouched; when
`FileService.DownloadLog` reports `Success = false` the record table is the
one before the request and the answer is 500; when it reports
`Success = true` the reported extraction path is the extraction root joined
with the normalized identifier and the table is the old one with the row of
that identifier replaced by the new record (normalized identifier, empty file
path, that extraction path), every other row kept. -/
theorem C22_record_created_only_on_success (cfg : Config)
    (parseZip : Bytes → Option (List ZipFile)) (remote : GoString → HttpResponse) (w : World)
    (req : LogIDValue) :
    (∀ e, LogService.ValidateLogID req = Except.error e →
      LogHandler.DownloadLog cfg parseZip remote w req
        = (w, ⟨400, some (ReplyError.message ErrInvalidLogID)⟩)) ∧
    (∀ logID, LogService.ValidateLogID req = Except.ok logID →
      (FileService.DownloadLog cfg parseZip remote w logID).2.Success = false →
      (LogHandler.DownloadLog cfg parseZip remote w req).1.logs = w.logs ∧
      (LogHandler.DownloadLog cfg parseZip remote w req).2.status = 500) ∧
    (∀ logID, LogService.ValidateLogID req = Except.ok logID →
      (FileService.DownloadLog cfg parseZip remote w logID).2.Success = true →
      (FileService.DownloadLog cfg parseZip remote w logID).2.ExtractPath
        = FileService.extractPath cfg logID ∧
      (LogHandler.DownloadLog cfg parseZip remote w req).1.logs
        = ⟨logID, [], FileService.extractPath cfg logID, [], []⟩
            :: w.logs.filter (fun l => decide (l.LogID ≠ logID)) ∧
      (LogHandler.DownloadLog cfg parseZip remote w req).2 = ⟨200, none⟩) := by
  refine ⟨?_, ?_, ?_⟩
  · intro e he
    simp [LogHandler.DownloadLog, he]
  · intro logID hid hfail
    have hlogs := FileService.DownloadLog_logs cfg parseZip remote w logID
    simp only [LogHandler.DownloadLog, hid, hfail]
    exact ⟨hlogs, rfl⟩
  · intro logID hid hok
    have hlogs := FileService.DownloadLog_logs cfg parseZip remote w logID
    have hres := FileService.DownloadLog_success cfg parseZip remote w logID hok
    simp only [LogHandler.DownloadLog, hid, hok, hres, LogRepository.Create, hlogs]
    simp

/-! ## The fetch URL (C23) -/

namespace url

theorem hex_roundtrip : ∀ n, n < 16 → ishex (upperhex n) = true ∧ unhex (upperhex n) = n := by
  decide

theorem upperhex_ne_sep : ∀ n, n < 16 → upperhex n ≠ '/' := by decide

theorem unreserved_not_special (c : Char) (h : unreserved c = true) :
    c ≠ '%' ∧ c ≠ '+' ∧ c ≠ '/' ∧ c ≠ ' ' := by
  refine ⟨?_, ?_, ?_, ?_⟩ <;> (intro hc; subst hc; revert h; decide)

theorem unescape_percent (query : Bool) (h1 h2 : Char) (rest : GoString) :
    unescape query ('%' :: h1 :: h2 :: rest)
      = if ishex h1 && ishex h2 then
          (unescape query rest).map (fun t => (unhex h1 * 16 + unhex h2) :: t)
        else none := by
  rw [unescape]
  simp

theorem unescape_plus (query : Bool) (rest : GoString) :
    unescape query ('+' :: rest)
      = (unescape query rest).map (fun t => (if query then 32 else 43) :: t) := by
  cases rest with
  | nil => simp [unescape]
  | cons a t => cases t <;> simp [unescape]

theorem unescape_plain (query : Bool) (c : Char) (rest : GoString) (hp : c ≠ '%')
    (hq : c ≠ '+') :
    unescape query (c :: rest) = (unescape query rest).map (fun t => utf8 [c] ++ t) := by
  cases rest with
  | nil => simp [unescape, hp, hq]
  | cons a t => cases t <;> simp [unescape, hp, hq]

theorem unescape_bytes (query : Bool) (bs : List UInt8) (rest : GoString) :
    unescape query (bs.flatMap (fun b =>
      ['%', upperhex (b.toNat / 16), upperhex (b.toNat % 16)]) ++ rest)
      = (unescape query rest).map (fun t => bs.map UInt8.toNat ++ t) := by
  induction bs with
  | nil => simp
  | cons b bs ih =>
    have hb : b.toNat < 256 := b.toNat_lt
    have h1 := hex_roundtrip (b.toNat / 16) (by omega)
    have h2 := hex_roundtrip (b.toNat % 16) (by omega)
    simp only [List.flatMap_cons, List.cons_append, List.nil_append, List.append_assoc]
    rw [unescape_percent]
    simp only [if_true, h1.1, h2.1, Bool.and_self, h1.2, h2.2, ih, Option.map_map]
    congr 1
    funext t
    simp only [Function.comp, List.map_cons, List.cons_append]
    congr 1
    omega

theorem QueryEscape_cons (c : Char) (s : GoString) :
    QueryEscape (c :: s) = escapeChar c ++ QueryEscape s := by
  simp [QueryEscape, escapeChar, List.flatMap_cons]

theorem unescape_escapeChar (query : Bool) (c : Char) (rest : GoString) :
    unescape query (escapeChar c ++ rest)
      = (unescape query rest).map (fun t =>
          (if c = ' ' ∧ query = false then [43] else utf8 [c]) ++ t) := by
  unfold escapeChar
  by_cases hu : unreserved c = true
  · obtain ⟨h1, h2, _, h4⟩ := unreserved_not_special c hu
    rw [if_pos hu, List.singleton_append, unescape_plain query c rest h1 h2]
    simp [h4]
  · by_cases hs : c = ' '
    · subst hs
      rw [if_neg hu, if_pos rfl, List.singleton_append, unescape_plus]
      cases query
      · simp
      · have : utf8 [' '] = [32] := by decide
        simp [this]
    · rw [if_neg hu, if_neg hs, unescape_bytes]
      simp [utf8, hs]

theorem unescape_QueryEscape (query : Bool) (s : GoString) :
    unescape query (QueryEscape s)
      = some (s.flatMap (fun c => if c = ' ' ∧ query = false then [43] else utf8 [c])) := by
  induction s with
  | nil => simp [QueryEscape, unescape]
  | cons c s ih =>
    rw [QueryEscape_cons, unescape_escapeChar, ih]
    simp [List.flatMap_cons]

theorem utf8_cons (c : Char) (s : GoString) : utf8 (c :: s) = utf8 [c] ++ utf8 s := by
  simp [utf8, List.flatMap_cons]

theorem sep_not_mem_escapeChar (c : Char) : '/' ∉ escapeChar c := by
  unfold escapeChar
  by_cases hu : unreserved c = true
  · simp only [hu, if_true, List.mem_singleton]
    exact fun h => (unreserved_not_special c hu).2.2.1 h.symm
  · by_cases hs : c = ' '
    · subst hs; decide
    · rw [if_neg hu, if_neg hs]
      simp only [List.mem_flatMap, not_exists, not_and]
      intro b _ hm
      have hb : b.toNat < 256 := b.toNat_lt
      simp only [List.mem_cons, List.mem_singleton, List.not_mem_nil, or_false] at hm
      rcases hm with hm | hm | hm
      · revert hm; decide
      · exact upperhex_ne_sep _ (by omega) hm.symm
      · exact upperhex_ne_sep _ (by omega) hm.symm

theorem sep_not_mem_QueryEscape (s : GoString) : '/' ∉ QueryEscape s := by
  induction s with
  | nil => simp [QueryEscape]
  | cons c s ih =>
    rw [QueryEscape_cons, List.mem_append, not_or]
    exact ⟨sep_not_mem_escapeChar c, ih⟩

theorem utf8_space : utf8 [' '] = [32] := by decide

theorem plusForSpace_eq_iff (s : GoString) :
    s.flatMap (fun c => if c = ' ' ∧ false = false then [43] else utf8 [c]) = utf8 s
      ↔ ' ' ∉ s := by
  induction s with
  | nil => simp [utf8]
  | cons c s ih =>
    rw [utf8_cons, List.flatMap_cons]
    by_cases hs : c = ' '
    · subst hs
      simp [utf8_space]
    · have hs2 : ¬ ' ' = c := fun h => hs h.symm
      rw [if_neg (fun h => hs h.1), List.append_cancel_left_eq, ih]
      simp [hs2]

end url

/-- **C23 (as stated) fails.** For the identifier `a b` the fetch URL ends in
`/download-log/a+b`: the space is written as `+`, not as `%20`, and
path-unescaping the last segment gives `a+b`, not the identifier. -/
theorem C23_space_is_escaped_as_plus :
    FileService.downloadURL sampleConfig "a b".toList
      = "https://hlogs.lazycat.cloud/api/v1/download-log/a+b".toList ∧
    url.PathUnescape (url.QueryEscape "a b".toList) = some (utf8 "a+b".toList) ∧
    url.PathUnescape (url.QueryEscape "a b".toList) ≠ some (utf8 "a b".toList) := by
  decide

/-- **C23 (amended).** The fetch URL is the configured base URL, then
`/download-log/`, then the identifier escaped character by character as
`url.QueryEscape` does: an unreserved character stays, a space becomes `+`,
every other character becomes `%XX` for each of its UTF-8 bytes.  The escaped
identifier holds no `/` (it is the last URL segment); query-unescaping it
returns exactly the identifier, and path-unescaping it returns exactly the
identifier if and only if the identifier holds no space. -/
theorem C23_url_is_query_escaped_identifier (cfg : Config) (logID : GoString) :
    FileService.downloadURL cfg logID
      = cfg.RemoteAPI.BaseURL ++ "/download-log/".toList ++ logID.flatMap url.escapeChar ∧
    (∀ c, url.escapeChar c =
      if url.unreserved c then [c]
      else if c = ' ' then ['+']
      else (String.utf8EncodeChar c).flatMap (fun b =>
        ['%', url.upperhex (b.toNat / 16), url.upperhex (b.toNat % 16)])) ∧
    '/' ∉ logID.flatMap url.escapeChar ∧
    url.QueryUnescape (logID.flatMap url.escapeChar) = some (utf8 logID) ∧
    (url.PathUnescape (logID.flatMap url.escapeChar) = some (utf8 logID) ↔ ' ' ∉ logID) := by
  have he : logID.flatMap url.escapeChar = url.QueryEscape logID := rfl
  rw [he]
  refine ⟨rfl, fun c => rfl, url.sep_not_mem_QueryEscape logID, ?_, ?_⟩
  · rw [url.QueryUnescape, url.unescape_QueryEscape]
    simp [utf8]
  · rw [url.PathUnescape, url.unescape_QueryEscape, Option.some_inj]
    exact url.plusForSpace_eq_iff logID

/-! ## Identifier normalisation (C24) -/

theorem digitChar_isDigit (n : Nat) (h : n < 10) :
    (Nat.digitChar n).isDigit = true ∧ (Nat.digitChar n).toNat - 48 = n := by
  revert n
  decide

theorem toDigitsCore_append (fuel n : Nat) (ds : List Char) :
    Nat.toDigitsCore 10 fuel n ds = Nat.toDigitsCore 10 fuel n [] ++ ds := by
  induction fuel generalizing n ds with
  | zero => simp [Nat.toDigitsCore]
  | succ fuel ih =>
    simp only [Nat.toDigitsCore]
    split
    · simp
    · rw [ih (n / 10) (Nat.digitChar (n % 10) :: ds), ih (n / 10) [Nat.digitChar (n % 10)]]
      simp

theorem decimalValue_append_singleton (ds : GoString) (c : Char) :
    decimalValue (ds ++ [c]) = 10 * decimalValue ds + (c.toNat - 48) := by
  simp [decimalValue, List.foldl_append]

theorem toDigitsCore_spec (fuel n : Nat) (h : n < fuel) :
    Nat.toDigitsCore 10 fuel n [] ≠ [] ∧
    (∀ c ∈ Nat.toDigitsCore 10 fuel n [], c.isDigit = true) ∧
    decimalValue (Nat.toDigitsCore 10 fuel n []) = n := by
  induction fuel generalizing n with
  | zero => omega
  | succ fuel ih =>
    have hd := digitChar_isDigit (n % 10) (Nat.mod_lt _ (by decide))
    simp only [Nat.toDigitsCore]
    split
    · rename_i h0
      refine ⟨by simp, by simpa using hd.1, ?_⟩
      simp only [decimalValue, List.foldl_cons, List.foldl_nil, hd.2]
      omega
    · rename_i h0
      rw [toDigitsCore_append]
      obtain ⟨_, h2, h3⟩ := ih (n / 10) (by omega)
      refine ⟨by simp, ?_, ?_⟩
      · intro c hc
        rcases List.mem_append.mp hc with hc | hc
        · exact h2 c hc
        · simp only [List.mem_singleton] at hc
          rw [hc]; exact hd.1
      · rw [decimalValue_append_singleton, h3, hd.2]
        omega

theorem toDigits_spec (n : Nat) :
    Nat.toDigits 10 n ≠ [] ∧ (∀ c ∈ Nat.toDigits 10 n, c.isDigit = true) ∧
    decimalValue (Nat.toDigits 10 n) = n :=
  toDigitsCore_spec (n + 1) n (Nat.lt_succ_self n)

theorem sprintInt_eq (v : Int) : fmt.sprintInt v = plainDecimal (decide (v < 0)) v.natAbs := by
  unfold fmt.sprintInt plainDecimal
  by_cases h : v < 0
  · simp [h]
  · have : v.toNat = v.natAbs := by omega
    simp [h, this]

theorem plainDecimal_ne_nil (negative : Bool) (n : Nat) : plainDecimal negative n ≠ [] := by
  unfold plainDecimal
  have := (toDigits_spec n).1
  simp [this]

namespace filepath

theorem extLoop_plain (xs before suffix : GoString) (h1 : Separator ∉ xs) (h2 : '.' ∉ xs) :
    extLoop (xs ++ before) suffix = extLoop before (xs.reverse ++ suffix) := by
  induction xs generalizing suffix with
  | nil => rfl
  | cons c cs ih =>
    have hc1 : c ≠ Separator := fun hc => h1 (by simp [hc])
    have hc2 : c ≠ '.' := fun hc => h2 (by simp [hc])
    have hcs1 : Separator ∉ cs := fun hcs => h1 (by simp [hcs])
    have hcs2 : '.' ∉ cs := fun hcs => h2 (by simp [hcs])
    rw [List.cons_append, extLoop]
    simp only [hc1, hc2, if_false]
    rw [ih _ hcs1 hcs2]
    simp

/-- The extension of a path ending in a dot and a dot-free, separator-free
tail is that dot with the tail. -/
theorem Ext_of_dot (stem e : GoString) (h1 : Separator ∉ e) (h2 : '.' ∉ e) :
    Ext (stem ++ '.' :: e) = '.' :: e := by
  unfold Ext
  rw [List.reverse_append, List.reverse_cons, List.append_assoc,
    extLoop_plain e.reverse _ [] (by simpa using h1) (by simpa using h2)]
  simp [extLoop, Separator]

/-- A final element without dot has no extension. -/
theorem Ext_of_no_dot (dir name : GoString) (h1 : Separator ∉ name) (h2 : '.' ∉ name) :
    Ext name = [] ∧ Ext (dir ++ Separator :: name) = [] := by
  constructor
  · unfold Ext
    have := extLoop_plain name.reverse [] [] (by simpa using h1) (by simpa using h2)
    simp only [List.append_nil] at this
    rw [this]
    rfl
  · unfold Ext
    rw [List.reverse_append, List.reverse_cons, List.append_assoc,
      extLoop_plain name.reverse _ [] (by simpa using h1) (by simpa using h2)]
    simp [extLoop]

end filepath

namespace FileUtil

theorem DetectFileType_json (unicodeLower : Char → Char) (json : JsonCodec)
    (filename : GoString) (content : Bytes)
    (h : strings.ToLower unicodeLower (filepath.Ext filename) = ".json".toList) :
    DetectFileType unicodeLower json filename content = "json" := by
  simp [DetectFileType, h]

theorem DetectFileType_other (unicodeLower : Char → Char) (json : JsonCodec)
    (filename : GoString) (content : Bytes)
    (h : strings.ToLower unicodeLower (filepath.Ext filename) ∉
        [".json".toList, ".log".toList, ".txt".toList, ".xml".toList, ".yaml".toList,
          ".yml".toList, ".html".toList, ".htm".toList]) :
    DetectFileType unicodeLower json filename content
      = if (json.Unmarshal content).isSome then "json" else "text" := by
  simp only [List.mem_cons, List.mem_singleton, List.not_mem_nil, or_false, not_or] at h
  obtain ⟨h1, h2, h3, h4, h5, h6, h7, h8⟩ := h
  simp only [DetectFileType, isJSON, h1, h2, h3, h4, h5, h6, h7, h8, if_false, or_self]

end FileUtil

/-- **C25.** `DetectFileType(filename, content)` is decided by the
lower-cased extension of `filename` whenever that is a listed one, whatever
the content: `.json` gives `json`, `.log` and `.txt` give `text`, `.xml` gives
`xml`, `.yaml` and `.yml` give `yaml`, `.html` and `.htm` give `html`; for
every other extension, and when there is none, the result is `json` if the
content decodes as JSON and `text` otherwise; the result is always one of the
five kinds.  The extension is the final one: the suffix from the last dot of
the last path element, empty when that element has no dot.  So
`logs/Report.JSON` is `json` whatever it holds, and `v1.2/README` is decided
by its content. -/
theorem C25_type_is_decided_by_extension (unicodeLower : Char → Char) (json : JsonCodec)
    (filename : GoString) (content : Bytes) :
    (strings.ToLower unicodeLower (filepath.Ext filename) = ".json".toList →
      FileUtil.DetectFileType unicodeLower json filename content = "json") ∧
    (strings.ToLower unicodeLower (filepath.Ext filename) = ".log".toList ∨
      strings.ToLower unicodeLower (filepath.Ext filename) = ".txt".toList →
      FileUtil.DetectFileType unicodeLower json filename content = "text") ∧
    (strings.ToLower unicodeLower (filepath.Ext filename) = ".xml".toList →
      FileUtil.DetectFileType unicodeLower json filename content = "xml") ∧
    (strings.ToLower unicodeLower (filepath.Ext filename) = ".yaml".toList ∨
      strings.ToLower unicodeLower (filepath.Ext filename) = ".yml".toList →
      FileUtil.DetectFileType unicodeLower json filename content = "yaml") ∧
    (strings.ToLower unicodeLower (filepath.Ext filename) = ".html".toList ∨
      strings.ToLower unicodeLower (filepath.Ext filename) = ".htm".toList →
      FileUtil.DetectFileType unicodeLower json filename content = "html") ∧
    (strings.ToLower unicodeLower (filepath.Ext filename) ∉
        [".json".toList, ".log".toList, ".txt".toList, ".xml".toList, ".yaml".toList,
          ".yml".toList, ".html".toList, ".htm".toList] →
      FileUtil.DetectFileType unicodeLower json filename content
        = if (json.Unmarshal content).isSome then "json" else "text") ∧
    FileUtil.DetectFileType unicodeLower json filename content
      ∈ ["json", "text", "xml", "yaml", "html"] ∧
    (∀ stem e : GoString, Separator ∉ e → '.' ∉ e →
      filepath.Ext (stem ++ '.' :: e) = '.' :: e) ∧
    (∀ dir name : GoString, Separator ∉ name → '.' ∉ name →
      filepath.Ext name = [] ∧ filepath.Ext (dir ++ Separator :: name) = []) ∧
    FileUtil.DetectFileType unicodeLower json "logs/Report.JSON".toList content = "json" ∧
    FileUtil.DetectFileType unicodeLower json "v1.2/README".toList content
      = (if (json.Unmarshal content).isSome then "json" else "text") := by
  refine ⟨FileUtil.DetectFileType_json unicodeLower json filename content, ?_, ?_, ?_, ?_,
    FileUtil.DetectFileType_other unicodeLower json filename content, ?_,
    filepath.Ext_of_dot, filepath.Ext_of_no_dot, ?_, ?_⟩
  · intro h
    rcases h with h | h <;> simp [FileUtil.DetectFileType, h]
  · intro h
    simp [FileUtil.DetectFileType, h]
  · intro h
    rcases h with h | h <;> simp [FileUtil.DetectFileType, h]
  · intro h
    rcases h with h | h <;> simp [FileUtil.DetectFileType, h]
  · unfold FileUtil.DetectFileType
    simp only []
    repeat' split
    all_goals simp
  · apply FileUtil.DetectFileType_json
    have he : filepath.Ext "logs/Report.JSON".toList = ".JSON".toList := by decide
    rw [he]
    simp [strings.ToLower]
  · apply FileUtil.DetectFileType_other
    have he : filepath.Ext "v1.2/README".toList = [] := by decide
    rw [he]
    simp [strings.ToLower]

/-- **C26.** `FormatContent(content, kind)` returns `content` unchanged for
every kind other than `json` and for `json` content that does not decode; for
`json` content that decodes to `v` it returns `json.MarshalIndent(v, "", "  ")`,
the serialization of `v` indented with two spaces; and formatting a second
time returns the first result unchanged.  The two facts used about the
standard library are its behaviour on values it has decoded itself: encoding
such a value does not fail (`hencode`), and decoding the encoding gives the
value back (`hdecode`). -/
theorem C26_format_content (json : JsonCodec)
    (hencode : ∀ content v, json.Unmarshal content = some v →
      (json.MarshalIndent v [] [' ', ' ']).isSome)
    (hdecode : ∀ content v formatted, json.Unmarshal content = some v →
      json.MarshalIndent v [] [' ', ' '] = some formatted →
      json.Unmarshal formatted = some v) :
    (∀ content kind, kind ≠ "json" → FileUtil.FormatContent json content kind = content) ∧
    (∀ content, json.Unmarshal content = none →
      FileUtil.FormatContent json content "json" = content) ∧
    (∀ content v, json.Unmarshal content = some v →
      json.MarshalIndent v [] [' ', ' ']
        = some (FileUtil.FormatContent json content "json")) ∧
    (∀ content kind,
      FileUtil.FormatContent json (FileUtil.FormatContent json content kind) kind
        = FileUtil.FormatContent json content kind) := by
  have h3 : ∀ content v, json.Unmarshal content = some v →
      json.MarshalIndent v [] [' ', ' ']
        = some (FileUtil.FormatContent json content "json") := by
    intro content v hv
    have := hencode content v hv
    cases hm : json.MarshalIndent v [] [' ', ' '] with
    | none => rw [hm] at this; simp at this
    | some formatted => simp [FileUtil.FormatContent, hv, hm]
  refine ⟨?_, ?_, h3, ?_⟩
  · intro content kind hk
    simp [FileUtil.FormatContent, hk]
  · intro content hn
    simp [FileUtil.FormatContent, hn]
  · intro content kind
    by_cases hk : kind = "json"
    · subst hk
      cases hv : json.Unmarshal content with
      | none =>
        have : FileUtil.FormatContent json content "json" = content := by
          simp [FileUtil.FormatContent, hv]
        rw [this, this]
      | some v =>
        have h1 := h3 content v hv
        have h2 := hdecode content v _ hv h1
        have h4 := h3 _ v h2
        rw [h1] at h4
        exact (Option.some.inj h4).symm
    · simp [FileUtil.FormatContent, hk]

theorem literalCodec_decodes (content : Bytes) (v : JsonValue)
    (h : literalCodec.Unmarshal content = some v) :
    v = JsonValue.null ∨ v = JsonValue.bool true ∨ v = JsonValue.bool false := by
  simp only [literalCodec] at h
  split at h
  · left; exact (Option.some.inj h).symm
  · split at h
    · right; left; exact (Option.some.inj h).symm
    · split at h
      · right; right; exact (Option.some.inj h).symm
      · simp at h

/-- Witness of C26: with the codec of JSON literals, the content ` true`
followed by a line feed is formatted as `true`, and formatting that again
changes nothing. -/
theorem C26_format_content_witness :
    FileUtil.FormatContent literalCodec [32, 116, 114, 117, 101, 10] "json"
      = [116, 114, 117, 101] ∧
    FileUtil.FormatContent literalCodec
        (FileUtil.FormatContent literalCodec [32, 116, 114, 117, 101, 10] "json") "json"
      = FileUtil.FormatContent literalCodec [32, 116, 114, 117, 101, 10] "json" :=
  ⟨by decide,
   (C26_format_content literalCodec
      (fun content v h => by
        rcases literalCodec_decodes content v h with hv | hv | hv <;> subst hv <;> rfl)
      (fun content v formatted h hm => by
        rcases literalCodec_decodes content v h with hv | hv | hv <;> subst hv <;>
          (simp only [literalCodec, Option.some.injEq] at hm; subst hm; rfl))).2.2.2
      [32, 116, 114, 117, 101, 10] "json"⟩

/-! ## What a successful extraction leaves on disk (C27) -/

namespace FS

theorem MkdirAll_keeps (fs : FS) (path q : GoString) (o : FsObj) (h : fs.lookup q = some o) :
    (fs.MkdirAll path).1.lookup q = some o := mkdirChain_keeps _ fs q o h

end FS

namespace ZipUtil

theorem extractFile_keeps (fs : FS) (file : ZipFile) (destPath q : GoString) (o : FsObj)
    (hq : q ≠ filepath.Clean destPath) (h : fs.lookup q = some o) :
    (extractFile fs file destPath).1.lookup q = some o := by
  by_contra hc
  have hne : (extractFile fs file destPath).1.lookup q ≠ fs.lookup q := by rw [h]; exact hc
  exact hq (extractFile_frame fs file destPath q hne)

theorem extractFile_ok (fs : FS) (file : ZipFile) (destPath : GoString) (fs2 : FS)
    (h : extractFile fs file destPath = (fs2, none)) :
    ∃ bytes, file.payload = ZipPayload.data bytes ∧
      fs2.lookup (filepath.Clean destPath) = some (FsObj.file bytes) := by
  unfold extractFile at h
  cases hp : file.payload with
  | openFails => simp [hp] at h
  | copyFails written =>
    simp only [hp] at h
    generalize fs.Create destPath = r at h
    obtain ⟨fs1, _ | e⟩ := r <;> simp at h
  | data bytes =>
    simp only [hp] at h
    have hc := FS.Create_ok_lookup fs destPath
    generalize fs.Create destPath = r at h hc
    obtain ⟨fs1, _ | e⟩ := r
    · simp only [Prod.mk.injEq, and_true] at h
      subst h
      refine ⟨bytes, rfl, ?_⟩
      simpa using FS.Write_lookup fs1 destPath [] bytes (hc rfl)
    · simp at h

theorem extractFile_dir_fails (fs : FS) (file : ZipFile) (destPath : GoString)
    (hd : fs.lookup (filepath.Clean destPath) = some FsObj.dir) :
    (extractFile fs file destPath).2 ≠ none := by
  unfold extractFile
  cases file.payload with
  | openFails => simp
  | copyFails written =>
    by_cases h1 : destPath = []
    · simp [FS.Create, h1]
    · simp [FS.Create, FS.isDir, hd, h1]
  | data bytes =>
    by_cases h1 : destPath = []
    · simp [FS.Create, h1]
    · simp [FS.Create, FS.isDir, hd, h1]

theorem accepts_clean (extractTo : GoString) (file : ZipFile) (h : accepts extractTo file = true) :
    filepath.Clean (filepath.Join extractTo file.Name) = filepath.Join extractTo file.Name := by
  apply filepath.Clean_Join
  intro hn
  unfold accepts strings.HasPrefix at h
  rw [hn] at h
  simp at h

/-- An entry changes no object other than the file it writes. -/
theorem extractEntry_keeps (fs : FS) (extractTo : GoString) (file : ZipFile) (p : GoString)
    (o : FsObj) (hnw : writes extractTo p file = false) (h : fs.lookup p = some o) :
    (extractEntry fs extractTo file).1.lookup p = some o := by
  unfold extractEntry
  simp only []
  by_cases hacc : accepts extractTo file = true
  · have hacc2 : strings.HasPrefix (filepath.Join extractTo file.Name)
        (filepath.Clean extractTo ++ [Separator]) = true := hacc
    simp only [hacc2, Bool.not_true, Bool.false_eq_true, if_false]
    by_cases hd : file.IsDir = true
    · simp only [hd, if_true]
      have hm := FS.MkdirAll_keeps fs (filepath.Join extractTo file.Name) p o h
      generalize fs.MkdirAll (filepath.Join extractTo file.Name) = r at hm
      obtain ⟨fs1, _ | e⟩ := r <;> exact hm
    · simp only [hd, Bool.false_eq_true, if_false]
      have hne : p ≠ filepath.Clean (filepath.Join extractTo file.Name) := by
        rw [accepts_clean extractTo file hacc]
        intro hp
        simp [writes, hacc, hd, hp] at hnw
      have hm := FS.MkdirAll_keeps fs (filepath.Dir (filepath.Join extractTo file.Name)) p o h
      generalize fs.MkdirAll (filepath.Dir (filepath.Join extractTo file.Name)) = r at hm
      obtain ⟨fs1, _ | e⟩ := r
      · simp only [] at hm ⊢
        have hx := extractFile_keeps fs1 file (filepath.Join extractTo file.Name) p o hne hm
        generalize extractFile fs1 file (filepath.Join extractTo file.Name) = r2 at hx
        obtain ⟨fs2, _ | e⟩ := r2 <;> exact hx
      · exact hm
  · have hacc2 : strings.HasPrefix (filepath.Join extractTo file.Name)
        (filepath.Clean extractTo ++ [Separator]) = false := by
      simpa [accepts] using hacc
    simp only [hacc2, Bool.not_false, if_true]
    exact h

/-- What an accepted entry leaves at its path when it succeeds. -/
theorem extractEntry_placed (fs : FS) (extractTo : GoString) (file : ZipFile) (fs1 : FS)
    (hok : extractEntry fs extractTo file = (fs1, none)) (hacc : accepts extractTo file = true) :
    (file.IsDir = true →
      fs1.lookup (filepath.Join extractTo file.Name) = some FsObj.dir) ∧
    (file.IsDir = false → ∃ bytes, file.payload = ZipPayload.data bytes ∧
      fs1.lookup (filepath.Join extractTo file.Name) = some (FsObj.file bytes)) := by
  have hclean := accepts_clean extractTo file hacc
  have hacc2 : strings.HasPrefix (filepath.Join extractTo file.Name)
      (filepath.Clean extractTo ++ [Separator]) = true := hacc
  unfold extractEntry at hok
  simp only [hacc2, Bool.not_true, Bool.false_eq_true, if_false] at hok
  constructor
  · intro hd
    simp only [hd, if_true] at hok
    have hready := FS.MkdirAll_ready fs (filepath.Join extractTo file.Name)
    generalize fs.MkdirAll (filepath.Join extractTo file.Name) = r at hok hready
    obtain ⟨fsm, _ | e⟩ := r
    · simp only [Prod.mk.injEq, and_true] at hok
      subst hok
      have := hready rfl (filepath.Clean (filepath.Join extractTo file.Name)) (Or.inl rfl)
      rw [hclean] at this
      exact this
    · simp at hok
  · intro hd
    simp only [hd, Bool.false_eq_true, if_false] at hok
    generalize fs.MkdirAll (filepath.Dir (filepath.Join extractTo file.Name)) = r at hok
    obtain ⟨fsm, _ | e⟩ := r
    · simp only [] at hok
      have hx := extractFile_ok fsm file (filepath.Join extractTo file.Name)
      generalize extractFile fsm file (filepath.Join extractTo file.Name) = r2 at hok hx
      obtain ⟨fs2, _ | e⟩ := r2
      · simp only [Prod.mk.injEq, and_true] at hok
        subst hok
        obtain ⟨bytes, hb, hl⟩ := hx fs2 rfl
        rw [hclean] at hl
        exact ⟨bytes, hb, hl⟩
      · simp at hok
    · simp at hok

/-- A directory stays a directory through every entry that succeeds. -/
theorem extractEntry_dir (fs : FS) (extractTo : GoString) (file : ZipFile) (fs1 : FS)
    (q : GoString) (hok : extractEntry fs extractTo file = (fs1, none))
    (h : fs.lookup q = some FsObj.dir) : fs1.lookup q = some FsObj.dir := by
  by_cases hw : writes extractTo q file = true
  · exfalso
    simp only [writes, Bool.and_eq_true, Bool.not_eq_true', decide_eq_true_eq] at hw
    obtain ⟨⟨hacc, hd⟩, hq⟩ := hw
    obtain ⟨bytes, _, hl⟩ := (extractEntry_placed fs extractTo file fs1 hok hacc).2 hd
    have hclean := accepts_clean extractTo file hacc
    have hacc2 : strings.HasPrefix (filepath.Join extractTo file.Name)
        (filepath.Clean extractTo ++ [Separator]) = true := hacc
    unfold extractEntry at hok
    simp only [hacc2, Bool.not_true, Bool.false_eq_true, if_false, hd] at hok
    have hm := FS.MkdirAll_keeps fs (filepath.Dir (filepath.Join extractTo file.Name)) q _ h
    generalize fs.MkdirAll (filepath.Dir (filepath.Join extractTo file.Name)) = r at hok hm
    obtain ⟨fsm, _ | e⟩ := r
    · simp only [] at hok hm
      have hf := extractFile_dir_fails fsm file (filepath.Join extractTo file.Name)
        (by rw [hclean, hq]; exact hm)
      generalize extractFile fsm file (filepath.Join extractTo file.Name) = r2 at hok hf
      obtain ⟨fs2, _ | e⟩ := r2
      · exact hf rfl
      · simp at hok
    · simp at hok
  · have := extractEntry_keeps fs extractTo file q _ (by simpa using hw) h
    rw [hok] at this
    exact this

theorem extractLoop_cons_ok (fs : FS) (extractTo : GoString) (file : ZipFile)
    (rest : List ZipFile) (fs2 : FS) (hok : extractLoop fs extractTo (file :: rest) = (fs2, none)) :
    ∃ fs1, extractEntry fs extractTo file = (fs1, none) ∧
      extractLoop fs1 extractTo rest = (fs2, none) := by
  unfold extractLoop at hok
  generalize extractEntry fs extractTo file = r at hok
  obtain ⟨fs1, _ | e⟩ := r
  · exact ⟨fs1, rfl, hok⟩
  · simp at hok

theorem extractLoop_dir (files : List ZipFile) (fs : FS) (extractTo : GoString) (fs2 : FS)
    (q : GoString) (hok : extractLoop fs extractTo files = (fs2, none))
    (h : fs.lookup q = some FsObj.dir) : fs2.lookup q = some FsObj.dir := by
  induction files generalizing fs with
  | nil =>
    simp only [extractLoop, Prod.mk.injEq, and_true] at hok
    subst hok
    exact h
  | cons file rest ih =>
    obtain ⟨fs1, h1, h2⟩ := extractLoop_cons_ok fs extractTo file rest fs2 hok
    exact ih fs1 h2 (extractEntry_dir fs extractTo file fs1 q h1 h)

/-- After a successful loop every path holds what the last file entry written
there carried; a path no file entry was written at keeps its object. -/
theorem extractLoop_files (files : List ZipFile) (fs : FS) (extractTo : GoString) (fs2 : FS)
    (p : GoString) (hok : extractLoop fs extractTo files = (fs2, none)) :
    match lastWhere (writes extractTo p) files with
    | some g => ∃ bytes, g.payload = ZipPayload.data bytes ∧
        fs2.lookup p = some (FsObj.file bytes)
    | none => ∀ o, fs.lookup p = some o → fs2.lookup p = some o := by
  induction files generalizing fs with
  | nil =>
    simp only [extractLoop, Prod.mk.injEq, and_true] at hok
    subst hok
    simp [lastWhere]
  | cons file rest ih =>
    obtain ⟨fs1, h1, h2⟩ := extractLoop_cons_ok fs extractTo file rest fs2 hok
    have hi := ih fs1 h2
    unfold lastWhere
    cases hl : lastWhere (writes extractTo p) rest with
    | some g =>
      rw [hl] at hi
      exact hi
    | none =>
      rw [hl] at hi
      simp only [] at hi ⊢
      by_cases hw : writes extractTo p file = true
      · simp only [hw, if_true]
        simp only [writes, Bool.and_eq_true, Bool.not_eq_true', decide_eq_true_eq] at hw
        obtain ⟨⟨hacc, hd⟩, hq⟩ := hw
        obtain ⟨bytes, hb, hlk⟩ := (extractEntry_placed fs extractTo file fs1 h1 hacc).2 hd
        rw [hq] at hlk
        exact ⟨bytes, hb, hi _ hlk⟩
      · simp only [hw, Bool.false_eq_true, if_false]
        intro o ho
        have := extractEntry_keeps fs extractTo file p o (by simpa using hw) ho
        rw [h1] at this
        exact hi o this

theorem extractLoop_dirs (files : List ZipFile) (fs : FS) (extractTo : GoString) (fs2 : FS)
    (hok : extractLoop fs extractTo files = (fs2, none)) :
    ∀ f ∈ files, accepts extractTo f = true → f.IsDir = true →
      fs2.lookup (filepath.Join extractTo f.Name) = some FsObj.dir := by
  induction files generalizing fs with
  | nil => intro f hf; simp at hf
  | cons file rest ih =>
    obtain ⟨fs1, h1, h2⟩ := extractLoop_cons_ok fs extractTo file rest fs2 hok
    intro f hf hacc hd
    simp only [List.mem_cons] at hf
    rcases hf with hf | hf
    · subst hf
      exact extractLoop_dir rest fs1 extractTo fs2 _ h2
        ((extractEntry_placed fs extractTo f fs1 h1 hacc).1 hd)
    · exact ih fs1 h2 f hf hacc hd

theorem lastWhere_some_of_mem (pred : ZipFile → Bool) (files : List ZipFile) (f : ZipFile)
    (hf : f ∈ files) (hp : pred f = true) : ∃ g, lastWhere pred files = some g := by
  induction files with
  | nil => simp at hf
  | cons file rest ih =>
    unfold lastWhere
    cases hl : lastWhere pred rest with
    | some g => exact ⟨g, rfl⟩
    | none =>
      simp only [List.mem_cons] at hf
      rcases hf with hf | hf
      · subst hf
        exact ⟨f, by simp [hp]⟩
      · obtain ⟨g, hg⟩ := ih hf
        rw [hl] at hg
        simp at hg

theorem lastWhere_congr (p q : ZipFile → Bool) (files : List ZipFile)
    (h : ∀ f ∈ files, p f = q f) : lastWhere p files = lastWhere q files := by
  induction files with
  | nil => rfl
  | cons file rest ih =>
    unfold lastWhere
    rw [ih (fun f hf => h f (by simp [hf])), h file (by simp)]

theorem accepts_of_ordinary (extractTo : GoString) (file : ZipFile)
    (h : filepath.IsOrdinary file.Name) (h1 : filepath.Clean extractTo ≠ ['.'])
    (h2 : filepath.Clean extractTo ≠ [Separator]) : accepts extractTo file = true := by
  unfold accepts
  rw [filepath.Join_ordinary extractTo file.Name h h1 h2]
  simp [strings.HasPrefix]

end ZipUtil

/-- **C27 (as stated) fails.** The archive holds the file entry `a` with the
byte `1` and then the file entry `./a` with the byte `2`.  Extraction into
`out` succeeds; both names join to `out/a`, so the second entry overwrites the
first: `out/a` holds the byte `2`, whereas the last entry named `a` (an
ordinary name) carries the byte `1`. -/
theorem C27_later_alias_overwrites_the_entry :
    (ZipUtil.Extract aliasParse sampleDisk "z.zip".toList "out".toList).2 = none ∧
    filepath.IsOrdinary "a".toList ∧
    (ZipUtil.lastWhere (fun f => !f.IsDir && decide (f.Name = "a".toList)) aliasArchive).map
        (fun f => f.payload) = some (ZipPayload.data [1]) ∧
    (ZipUtil.Extract aliasParse sampleDisk "z.zip".toList "out".toList).1.lookup
        "out/a".toList = some (FsObj.file [2]) := by
  decide

/-- **C27 (amended).** Let the destination clean to neither `.` nor the root
and let `Extract` succeed on the archive `files`.  Every entry whose name is
made of ordinary components is joined to the cleaned destination, a separator
and the name; if it is a directory entry that path is a directory afterwards;
if it is a file entry that path holds a file with exactly the bytes of the
last file entry of the archive that `Extract` wrote at that path, whatever was
there before.  That entry is the last file entry of the same name provided no
differently spelled entry joins to the same path. -/
theorem C27_extract_places_every_ordinary_entry
    (parseZip : Bytes → Option (List ZipFile)) (fs : FS) (zipPath extractTo : GoString)
    (files : List ZipFile) (fs2 : FS)
    (hdot : filepath.Clean extractTo ≠ ['.']) (hroot : filepath.Clean extractTo ≠ [Separator])
    (harchive : ZipUtil.openReader parseZip (fs.MkdirAll extractTo).1 zipPath = some files)
    (hok : ZipUtil.Extract parseZip fs zipPath extractTo = (fs2, none)) :
    ∀ f ∈ files, filepath.IsOrdinary f.Name →
      filepath.Join extractTo f.Name = filepath.Clean extractTo ++ Separator :: f.Name ∧
      (f.IsDir = true →
        fs2.lookup (filepath.Clean extractTo ++ Separator :: f.Name) = some FsObj.dir) ∧
      (f.IsDir = false → ∃ g bytes,
        ZipUtil.lastWhere (ZipUtil.writes extractTo (filepath.Join extractTo f.Name)) files
          = some g ∧
        g.payload = ZipPayload.data bytes ∧
        fs2.lookup (filepath.Clean extractTo ++ Separator :: f.Name)
          = some (FsObj.file bytes) ∧
        ((∀ h ∈ files, filepath.Join extractTo h.Name = filepath.Join extractTo f.Name →
            h.Name = f.Name) →
          ZipUtil.lastWhere (fun h => !h.IsDir && decide (h.Name = f.Name)) files = some g)) := by
  have hloop : ZipUtil.extractLoop (fs.MkdirAll extractTo).1 extractTo files = (fs2, none) := by
    unfold ZipUtil.Extract at hok
    generalize fs.MkdirAll extractTo = r at hok harchive
    obtain ⟨fs1, _ | e⟩ := r
    · simp only [] at hok harchive
      rw [harchive] at hok
      exact hok
    · simp at hok
  intro f hf hord
  have hj := filepath.Join_ordinary extractTo f.Name hord hdot hroot
  have hacc := ZipUtil.accepts_of_ordinary extractTo f hord hdot hroot
  refine ⟨hj, ?_, ?_⟩
  · intro hd
    rw [← hj]
    exact ZipUtil.extractLoop_dirs files _ extractTo fs2 hloop f hf hacc hd
  · intro hd
    have hw : ZipUtil.writes extractTo (filepath.Join extractTo f.Name) f = true := by
      simp [ZipUtil.writes, hacc, hd]
    obtain ⟨g, hg⟩ := ZipUtil.lastWhere_some_of_mem _ files f hf hw
    have hfiles := ZipUtil.extractLoop_files files _ extractTo fs2
      (filepath.Join extractTo f.Name) hloop
    rw [hg] at hfiles
    obtain ⟨bytes, hb, hl⟩ := hfiles
    refine ⟨g, bytes, hg, hb, by rw [← hj]; exact hl, ?_⟩
    intro hspelled
    rw [← hg]
    apply ZipUtil.lastWhere_congr
    intro h hh
    by_cases hn : h.Name = f.Name
    · have hacc2 : ZipUtil.accepts extractTo h = true := by
        unfold ZipUtil.accepts at hacc ⊢
        rw [hn]; exact hacc
      simp [ZipUtil.writes, hacc2, hn]
    · have hne : filepath.Join extractTo h.Name ≠ filepath.Join extractTo f.Name :=
        fun hc => hn (hspelled h hh hc)
      simp [ZipUtil.writes, hn, hne]

/-- Witness of C27: `plainArchive` extracted into `out` leaves the directory
`out/d` and the file `out/a` with the byte `3` of the second entry `a`. -/
theorem C27_extract_places_every_ordinary_entry_witness :
    (ZipUtil.Extract plainParse sampleDisk "z.zip".toList "out".toList).1.lookup
        "out/d".toList = some FsObj.dir ∧
    (ZipUtil.Extract plainParse sampleDisk "z.zip".toList "out".toList).1.lookup
        "out/a".toList = some (FsObj.file [3]) ∧
    ∃ g bytes,
      ZipUtil.lastWhere (fun h => !h.IsDir && decide (h.Name = "a".toList)) plainArchive
        = some g ∧
      g.payload = ZipPayload.data bytes ∧
      (ZipUtil.Extract plainParse sampleDisk "z.zip".toList "out".toList).1.lookup
        "out/a".toList = some (FsObj.file bytes) :=
  ⟨by decide, by decide,
   have h := (C27_extract_places_every_ordinary_entry plainParse sampleDisk "z.zip".toList
     "out".toList plainArchive
     (ZipUtil.Extract plainParse sampleDisk "z.zip".toList "out".toList).1
     (by decide) (by decide) rfl (by decide)
     ⟨"a".toList, false, ZipPayload.data [3]⟩ (by decide) (by decide)).2.2 rfl
   let ⟨g, bytes, _, hb, hl, hlast⟩ := h
   ⟨g, bytes, hlast (by decide), hb, hl⟩⟩

/-! ## Cached tree lookup (C28) -/

namespace Cache

variable {V : Type}

theorem Get_frame (c : Cache V) (now : Int) (key k : GoString) (h : k ≠ key) :
    (c.Get now key).1.items k = c.items k := by
  unfold Get
  split
  · rfl
  · split
    · simp [erase, h]
    · rfl

theorem Get_ttl (c : Cache V) (now : Int) (key : GoString) : (c.Get now key).1.ttl = c.ttl := by
  unfold Get
  split
  · rfl
  · split <;> rfl

theorem Get_none_items (c : Cache V) (now : Int) (key : GoString)
    (h : (c.Get now key).2 = none) : (c.Get now key).1.items key = none := by
  unfold Get at h ⊢
  split
  · assumption
  · rename_i item hitem
    simp only [hitem] at h
    split
    · simp [erase]
    · rename_i hlive
      simp [hlive] at h

end Cache

namespace FileService

/-- The result of `GetFileStructure` on a cache miss: the tree built from the
extraction directory, or why there is none. -/
theorem GetFileStructure_miss (cfg : Config) (w : World) (now : Int) (logID : GoString)
    (h : (w.treeCache.Get now (cacheKey logID)).2 = none) :
    GetFileStructure cfg w now logID
      = (match w.fs.Stat (extractPath cfg logID) with
        | Except.error OsError.ENOENT =>
          ({ w with treeCache := (w.treeCache.Get now (cacheKey logID)).1 },
            Except.error ServiceError.logNotFound)
        | Except.error e =>
          ({ w with treeCache := (w.treeCache.Get now (cacheKey logID)).1 },
            Except.error (ServiceError.os e))
        | Except.ok _ =>
          match FileUtil.BuildTree (w.fs.view w.fs.depthBound (extractPath cfg logID))
              (extractPath cfg logID) [] with
          | Except.error e =>
            ({ w with treeCache := (w.treeCache.Get now (cacheKey logID)).1 },
              Except.error (ServiceError.os e))
          | Except.ok fileNode =>
            ({ w with treeCache := ((w.treeCache.Get now (cacheKey logID)).1.SetInt64 now
                (cacheKey logID) (convertFileNode fileNode)) },
              Except.ok (convertFileNode fileNode))) := by
  unfold GetFileStructure
  generalize w.treeCache.Get now (cacheKey logID) = r at h ⊢
  obtain ⟨cache1, _ | cached⟩ := r
  · rfl
  · simp at h

theorem GetFileStructure_hit (cfg : Config) (w : World) (now : Int) (logID : GoString)
    (cached : FileNode) (h : (w.treeCache.Get now (cacheKey logID)).2 = some cached) :
    GetFileStructure cfg w now logID
      = ({ w with treeCache := (w.treeCache.Get now (cacheKey logID)).1 }, Except.ok cached) := by
  unfold GetFileStructure
  generalize w.treeCache.Get now (cacheKey logID) = r at h ⊢
  obtain ⟨cache1, _ | c⟩ := r
  · simp at h
  · simp only [Option.some.injEq] at h
    subst h
    rfl

/-- Whatever its outcome, `GetFileStructure` changes nothing but the cache. -/
theorem GetFileStructure_frame (cfg : Config) (w : World) (now : Int) (logID : GoString) :
    (∃ cache2, (GetFileStructure cfg w now logID).1 = { w with treeCache := cache2 } ∧
      (cache2 = (w.treeCache.Get now (cacheKey logID)).1 ∨
        ∃ tree,
          cache2 = (w.treeCache.Get now (cacheKey logID)).1.SetInt64 now (cacheKey logID) tree)) := by
  cases hg : (w.treeCache.Get now (cacheKey logID)).2 with
  | some cached =>
    rw [GetFileStructure_hit cfg w now logID cached hg]
    exact ⟨_, rfl, Or.inl rfl⟩
  | none =>
    rw [GetFileStructure_miss cfg w now logID hg]
    cases w.fs.Stat (extractPath cfg logID) with
    | error e => cases e <;> exact ⟨_, rfl, Or.inl rfl⟩
    | ok info =>
      simp only []
      cases FileUtil.BuildTree (w.fs.view w.fs.depthBound (extractPath cfg logID))
          (extractPath cfg logID) [] with
      | error e => exact ⟨_, rfl, Or.inl rfl⟩
      | ok node => exact ⟨_, rfl, Or.inr ⟨_, rfl⟩⟩

end FileService

/-- **C28 (as stated) fails.** Log `log1` was browsed at instant `1000` and
then deleted; its tree is still cached.  A lookup after the entry has expired
finds no extraction directory and fails with the not-found error, and the
cache is not what it was: the lookup has evicted the entry under
`tree:log1`. -/
theorem C28_failed_lookup_evicts_expired_entry :
    (deletedWorld.treeCache.items (FileService.cacheKey "log1".toList)).isSome = true ∧
    (match (FileService.GetFileStructure sampleConfig deletedWorld 300000001001
        "log1".toList).2 with
      | Except.error ServiceError.logNotFound => true
      | _ => false) = true ∧
    ((FileService.GetFileStructure sampleConfig deletedWorld 300000001001
        "log1".toList).1.treeCache.items (FileService.cacheKey "log1".toList)).isSome
      = false := by
  decide

/-- **C28 (amended).** `GetFileStructure(X)` at instant `now`:
* with an unexpired entry under `tree:X` it returns the cached tree and
  leaves the world as it is, whatever the disk holds;
* otherwise its result is the tree built from the extraction directory of `X`
  (the not-found error when the stat of the directory reports that it does
  not exist, the operating-system error as it is when the stat fails in
  another way or the build fails); on success exactly the returned tree is
  stored under `tree:X` with the expiration `now + ttl` as an `int64`; on
  failure nothing is stored: no entry is under `tree:X` afterwards (an
  expired one has been evicted by the lookup), and when there was none the
  world is unchanged;
* in every case all other keys, the TTL, the disk and the records are
  unchanged. -/
theorem C28_lookup_caches_only_successful_builds (cfg : Config) (w : World) (now : Int)
    (logID : GoString) :
    (∀ item, w.treeCache.items (FileService.cacheKey logID) = some item →
      ¬ (item.Expiration > 0 ∧ now > item.Expiration) →
      FileService.GetFileStructure cfg w now logID = (w, Except.ok item.Value) ∧
      ∀ disk, (FileService.GetFileStructure cfg { w with fs := disk } now logID).2
        = Except.ok item.Value) ∧
    ((w.treeCache.Get now (FileService.cacheKey logID)).2 = none →
      (FileService.GetFileStructure cfg w now logID).2
        = (match w.fs.Stat (FileService.extractPath cfg logID) with
          | Except.error OsError.ENOENT => Except.error ServiceError.logNotFound
          | Except.error e => Except.error (ServiceError.os e)
          | Except.ok _ =>
            match FileUtil.BuildTree
                (w.fs.view w.fs.depthBound (FileService.extractPath cfg logID))
                (FileService.extractPath cfg logID) [] with
            | Except.error e => Except.error (ServiceError.os e)
            | Except.ok fileNode => Except.ok (FileService.convertFileNode fileNode)) ∧
      (∀ tree, (FileService.GetFileStructure cfg w now logID).2 = Except.ok tree →
        (FileService.GetFileStructure cfg w now logID).1.treeCache.items
          (FileService.cacheKey logID) = some ⟨tree, int64 (now + w.treeCache.ttl)⟩) ∧
      (∀ e, (FileService.GetFileStructure cfg w now logID).2 = Except.error e →
        (FileService.GetFileStructure cfg w now logID).1.treeCache.items
          (FileService.cacheKey logID) = none ∧
        (w.treeCache.items (FileService.cacheKey logID) = none →
          FileService.GetFileStructure cfg w now logID = (w, Except.error e)))) ∧
    (∀ k, k ≠ FileService.cacheKey logID →
      (FileService.GetFileStructure cfg w now logID).1.treeCache.items k
        = w.treeCache.items k) ∧
    (FileService.GetFileStructure cfg w now logID).1.treeCache.ttl = w.treeCache.ttl ∧
    (FileService.GetFileStructure cfg w now logID).1.fs = w.fs ∧
    (FileService.GetFileStructure cfg w now logID).1.logs = w.logs := by
  have hframe := FileService.GetFileStructure_frame cfg w now logID
  refine ⟨?_, ?_, ?_, ?_, ?_, ?_⟩
  · intro item hitem hlive
    have hget := Cache.Get_of_live w.treeCache now _ item hitem hlive
    have hhit : ∀ disk, FileService.GetFileStructure cfg { w with fs := disk } now logID
        = ({ w with fs := disk }, Except.ok item.Value) := by
      intro disk
      rw [FileService.GetFileStructure_hit cfg { w with fs := disk } now logID item.Value
        (by show (w.treeCache.Get now _).2 = _; rw [hget])]
      show ({ w with fs := disk, treeCache := (w.treeCache.Get now _).1 }, _) = _
      rw [hget]
    exact ⟨hhit w.fs, fun disk => by rw [hhit disk]⟩
  · intro hmiss
    have hnone := Cache.Get_none_items w.treeCache now _ hmiss
    rw [FileService.GetFileStructure_miss cfg w now logID hmiss]
    cases hs : w.fs.Stat (FileService.extractPath cfg logID) with
    | error e0 =>
      cases e0 <;>
      · refine ⟨rfl, fun tree h => by simp at h, fun e he => ⟨hnone, fun habs => ?_⟩⟩
        simp only [] at *
        rw [Cache.Get_of_absent w.treeCache now _ habs]
        simp only [Except.error.injEq] at he
        rw [he]
    | ok info =>
      simp only []
      cases hb : FileUtil.BuildTree
          (w.fs.view w.fs.depthBound (FileService.extractPath cfg logID))
          (FileService.extractPath cfg logID) [] with
      | error e0 =>
        refine ⟨rfl, fun tree h => by simp at h, fun e he => ⟨hnone, fun habs => ?_⟩⟩
        simp only [] at *
        rw [Cache.Get_of_absent w.treeCache now _ habs]
        simp only [Except.error.injEq] at he
        rw [he]
      | ok node =>
        refine ⟨rfl, fun tree h => ?_, fun e he => by simp at he⟩
        simp only [Except.ok.injEq] at h
        subst h
        simp [Cache.SetInt64, Cache.Get_ttl]
  · intro k hk
    obtain ⟨cache2, h1, h2⟩ := hframe
    rw [h1]
    rcases h2 with h2 | ⟨tree, h2⟩
    · rw [h2]; exact Cache.Get_frame _ _ _ _ hk
    · rw [h2]
      simp only [Cache.SetInt64, hk, if_false]
      exact Cache.Get_frame _ _ _ _ hk
  · obtain ⟨cache2, h1, h2⟩ := hframe
    rw [h1]
    rcases h2 with h2 | ⟨tree, h2⟩
    · rw [h2]; exact Cache.Get_ttl _ _ _
    · rw [h2]; exact Cache.Get_ttl _ _ _
  · obtain ⟨cache2, h1, _⟩ := hframe
    rw [h1]
  · obtain ⟨cache2, h1, _⟩ := hframe
    rw [h1]

/-! ## File content requests (C29) -/

namespace FileUtil

theorem tryEncodings_trace (env : ReadEnv) (filePath : GoString) (encodings : List String)
    (attempt : Nat) : ∀ call ∈ (tryEncodings env filePath attempt encodings).2,
      call.path = filePath := by
  induction encodings generalizing attempt with
  | nil => simp [tryEncodings]
  | cons e rest ih =>
    unfold tryEncodings
    split
    · simp [SysCall.path]
    · intro call hc
      simp only [List.mem_cons] at hc
      rcases hc with hc | hc
      · rw [hc]; rfl
      · exact ih _ call hc

theorem readFilePreview_trace (notice : Int → Bytes) (env : ReadEnv) (filePath : GoString)
    (maxBytes : Int) : ∀ call ∈ (readFilePreview notice env filePath maxBytes).2,
      call.path = filePath := by
  unfold readFilePreview
  split
  · simp [SysCall.path]
  · split
    · simp [SysCall.path]
    · split
      · simp [SysCall.path]
      · split
        · simp [SysCall.path]
        · split <;> simp [SysCall.path]

/-- Every system call of `ReadFileContent` is issued on the path it was given. -/
theorem ReadFileContent_trace (cfg : Config) (notice : Int → Bytes) (env : ReadEnv)
    (filePath : GoString) : ∀ call ∈ (ReadFileContent cfg notice env filePath).2,
      call.path = filePath := by
  unfold ReadFileContent
  split
  · simp [SysCall.path]
  · simp only []
    split
    · simp [SysCall.path]
    · split
      · intro call hc
        simp only [List.mem_cons] at hc
        rcases hc with hc | hc
        · rw [hc]; rfl
        · exact readFilePreview_trace _ _ _ _ call hc
      · intro call hc
        simp only [List.mem_cons] at hc
        rcases hc with hc | hc
        · rw [hc]; rfl
        · exact tryEncodings_trace _ _ _ _ call hc

end FileUtil

namespace FileUtil

theorem IsFile_true (fs : FS) (path : GoString) (h : IsFile fs path = true) :
    FS.IsFileAt fs (filepath.Clean path) := by
  unfold IsFile FS.Stat at h
  simp only [] at h
  cases hl : fs.lookup (filepath.Clean path) with
  | none =>
    rw [hl] at h
    simp only [] at h
    by_cases hd : fs.isDir (filepath.Clean path) = true
    · simp [hd] at h
    · by_cases ha : (FS.ancestors (filepath.Clean path)).any fs.isFile = true
      · simp [hd, ha] at h
      · simp [hd, ha] at h
  | some o =>
    cases o with
    | dir =>
      rw [hl] at h
      simp only [] at h
      by_cases hd : fs.isDir (filepath.Clean path) = true
      · simp [hd] at h
      · by_cases ha : (FS.ancestors (filepath.Clean path)).any fs.isFile = true
        · simp [hd, ha] at h
        · simp [hd, ha] at h
    | file d => exact ⟨d, hl⟩

end FileUtil

namespace FileService

theorem GetFileContent_trace (cfg : Config) (unicodeLower : Char → Char) (json : JsonCodec)
    (notice : Int → Bytes) (errorText : ReadError → Bytes) (env : ReadEnv)
    (logID filePath : GoString) :
    ∀ call ∈ (GetFileContent cfg unicodeLower json notice errorText env logID filePath).2,
      call.path = filepath.Join (extractPath cfg logID) filePath := by
  have hr := FileUtil.ReadFileContent_trace cfg notice env
    (filepath.Join (extractPath cfg logID) filePath)
  unfold GetFileContent
  simp only []
  split
  · simp [SysCall.path, extractPath]
  · split
    · simp [SysCall.path, extractPath]
    · split
      · intro call hc
        simp only [List.mem_cons] at hc
        rcases hc with hc | hc | hc
        · rw [hc]; rfl
        · rw [hc]; rfl
        · exact hr call hc
      · intro call hc
        simp only [List.mem_cons] at hc
        rcases hc with hc | hc | hc
        · rw [hc]; rfl
        · rw [hc]; rfl
        · exact hr call hc

end FileService

/-- **C29 (as stated) fails.** For log `log1` the path `../log2/secret.txt`
is joined to `storage/extracted/log2/secret.txt`, which is not below the
extraction directory of `log1`; the file there is statted, read and returned
as content.  The path `../../../app.db` returns the content of `app.db`
outside the extraction root. -/
theorem C29_dotdot_path_reads_outside_the_log :
    (FileService.GetFileContent sampleConfig id literalCodec (fun _ => []) (fun _ => [])
        sharedEnv "log1".toList "../log2/secret.txt".toList)
      = (Except.ok ⟨[115, 51], "text", 2⟩,
          [SysCall.stat "storage/extracted/log2/secret.txt".toList,
           SysCall.stat "storage/extracted/log2/secret.txt".toList,
           SysCall.stat "storage/extracted/log2/secret.txt".toList,
           SysCall.readFile "storage/extracted/log2/secret.txt".toList]) ∧
    (FileService.GetFileContent sampleConfig id literalCodec (fun _ => []) (fun _ => [])
        sharedEnv "log1".toList "../../../app.db".toList).1
      = Except.ok ⟨[1, 2, 3], "text", 3⟩ ∧
    strings.HasPrefix "storage/extracted/log2/secret.txt".toList
      (FileService.extractPath sampleConfig "log1".toList ++ [Separator]) = false := by
  refine ⟨?_, ?_, ?_⟩
  · rfl
  · rfl
  · decide

/-- **C29 (amended).** Every system call of `GetFileContent(X, p)` is issued
on the one path `filepath.Join(extraction directory of X, p)`.  For `p` made
of ordinary components (and an extraction directory that cleans to neither
`.` nor the root) that path is the cleaned extraction directory, a separator
and `p`, hence inside the directory.  A result other than an error is returned
only when a file exists at the joined path, and when nothing exists there the
result is the file-not-found error. -/
theorem C29_content_request_reads_the_joined_path (cfg : Config) (unicodeLower : Char → Char)
    (json : JsonCodec) (notice : Int → Bytes) (errorText : ReadError → Bytes) (env : ReadEnv)
    (logID filePath : GoString) :
    (∀ call ∈ (FileService.GetFileContent cfg unicodeLower json notice errorText env logID
        filePath).2,
      call.path = filepath.Join (FileService.extractPath cfg logID) filePath) ∧
    (filepath.IsOrdinary filePath →
      filepath.Clean (FileService.extractPath cfg logID) ≠ ['.'] →
      filepath.Clean (FileService.extractPath cfg logID) ≠ [Separator] →
      filepath.Join (FileService.extractPath cfg logID) filePath
        = filepath.Clean (FileService.extractPath cfg logID) ++ Separator :: filePath) ∧
    (∀ content, (FileService.GetFileContent cfg unicodeLower json notice errorText env logID
        filePath).1 = Except.ok content →
      FS.IsFileAt env.fs
        (filepath.Clean (filepath.Join (FileService.extractPath cfg logID) filePath))) ∧
    (env.fs.lookup (filepath.Clean (filepath.Join (FileService.extractPath cfg logID) filePath))
        = none →
      filepath.Clean (filepath.Join (FileService.extractPath cfg logID) filePath) ≠ ['.'] →
      filepath.Clean (filepath.Join (FileService.extractPath cfg logID) filePath)
        ≠ [Separator] →
      (FileService.GetFileContent cfg unicodeLower json notice errorText env logID filePath).1
        = Except.error ServiceError.fileNotFound) := by
  refine ⟨FileService.GetFileContent_trace cfg unicodeLower json notice errorText env logID
    filePath, fun h h1 h2 => filepath.Join_ordinary _ _ h h1 h2, ?_, ?_⟩
  · intro content hc
    unfold FileService.GetFileContent at hc
    simp only [] at hc
    split at hc
    · simp at hc
    · split at hc
      · simp at hc
      · rename_i hne hfile
        exact FileUtil.IsFile_true _ _ (by simpa using hfile)
  · intro hl h1 h2
    unfold FileService.GetFileContent
    unfold FileService.extractPath at hl h1 h2
    by_cases ha : (FS.ancestors (filepath.Clean (filepath.Join
        (filepath.Join cfg.Storage.ExtractDir logID) filePath))).any env.fs.isFile = true
    · simp [FS.Stat, hl, FS.isDir, h1, h2, ha, FileUtil.IsFile]
    · simp [FS.Stat, hl, FS.isDir, h1, h2, ha]

/-! ## The legacy tree builder (C30) -/

namespace LogProcessor

theorem sortInner_perm (x : FileNode) (l : List FileNode) :
    ((sortInner x l).1 :: (sortInner x l).2).Perm (x :: l) := by
  induction l generalizing x with
  | nil => simp [sortInner]
  | cons y ys ih =>
    unfold sortInner
    split
    · have h := ih y
      exact (List.Perm.swap _ _ _).trans (List.Perm.cons x h)
    · have h := ih x
      simp only []
      exact ((List.Perm.swap _ _ _).trans (List.Perm.cons y h)).trans (List.Perm.swap _ _ _)

theorem sortInner_length (x : FileNode) (l : List FileNode) :
    (sortInner x l).2.length = l.length := by
  have := (sortInner_perm x l).length_eq
  simpa using this

/-- After the inner loop `Children[i]` has the least name. -/
theorem sortInner_min (x : FileNode) (l : List FileNode) :
    (sortInner x l).1.Name ≤ x.Name ∧ ∀ y ∈ (sortInner x l).2, (sortInner x l).1.Name ≤ y.Name := by
  induction l generalizing x with
  | nil => simp [sortInner]
  | cons y ys ih =>
    unfold sortInner
    split
    · rename_i hgt
      obtain ⟨h1, h2⟩ := ih y
      have hyx : y.Name ≤ x.Name := le_of_lt hgt
      refine ⟨le_trans h1 hyx, ?_⟩
      intro z hz
      simp only [List.mem_cons] at hz
      rcases hz with hz | hz
      · rw [hz]; exact le_trans h1 hyx
      · exact h2 z hz
    · rename_i hle
      obtain ⟨h1, h2⟩ := ih x
      have hxy : x.Name ≤ y.Name := not_lt.mp hle
      refine ⟨h1, ?_⟩
      intro z hz
      simp only [List.mem_cons] at hz
      rcases hz with hz | hz
      · rw [hz]; exact le_trans h1 hxy
      · exact h2 z hz

theorem sortOuter_perm (n : Nat) (l : List FileNode) : (sortOuter n l).Perm l := by
  induction n generalizing l with
  | zero => simp [sortOuter]
  | succ n ih =>
    cases l with
    | nil => simp [sortOuter]
    | cons x rest =>
      simp only [sortOuter]
      exact (List.Perm.cons _ (ih _)).trans (sortInner_perm x rest)

theorem sortOuter_sorted (n : Nat) (l : List FileNode) (h : l.length ≤ n + 1) :
    (sortOuter n l).Pairwise (fun a b => a.Name ≤ b.Name) := by
  induction n generalizing l with
  | zero =>
    cases l with
    | nil => simp [sortOuter]
    | cons x rest =>
      cases rest with
      | nil => simp [sortOuter]
      | cons y ys => simp at h
  | succ n ih =>
    cases l with
    | nil => simp [sortOuter]
    | cons x rest =>
      simp only [sortOuter, List.pairwise_cons]
      refine ⟨?_, ih _ (by rw [sortInner_length]; simpa using h)⟩
      intro z hz
      exact (sortInner_min x rest).2 z ((sortOuter_perm n _).mem_iff.mp hz)

theorem sortByName_perm (l : List FileNode) : (sortByName l).Perm l := sortOuter_perm _ l

theorem sortByName_sorted (l : List FileNode) :
    (sortByName l).Pairwise (fun a b => a.Name ≤ b.Name) :=
  sortOuter_sorted _ l (by omega)

end LogProcessor

/-- **C30 (as stated) fails.** On a directory holding the subdirectory `a`
and the file `B.txt` the legacy `buildTree` lists `B.txt` before `a` (it
compares names only), whereas `FileUtil.BuildTree` lists the directory
first. -/
theorem C30_legacy_order_is_not_directories_first :
    childrenOf (LogProcessor.buildTree mixedCaseView "/data/log1".toList [])
      = some [("B.txt".toList, "file"), ("a".toList, "directory")] ∧
    childrenOf (FileUtil.BuildTree mixedCaseView "/data/log1".toList [])
      = some [("a".toList, "directory"), ("B.txt".toList, "file")] := by
  decide

/-- **C30 (amended).** For every directory listing the legacy
`LogProcessor.buildTree` succeeds with the children that were built, ordered
by name alone (each name at most the names after it, directories not first);
on the fixture `{b.txt, A/, a.txt}` it yields `A`, `a.txt`, `b.txt`, as
`FileUtil.BuildTree` does. -/
theorem C30_legacy_children_sorted_by_name (entries : List (GoString × FsView))
    (rootPath relativePath : GoString) :
    (∃ node, LogProcessor.buildTree (FsView.dir entries) rootPath relativePath = Except.ok node ∧
      node.Children.Pairwise (fun a b => a.Name ≤ b.Name) ∧
      node.Children.Perm (LogProcessor.buildChildren entries rootPath relativePath)) ∧
    childrenOf (LogProcessor.buildTree fixtureView "/data/log1".toList [])
      = some [("A".toList, "directory"), ("a.txt".toList, "file"), ("b.txt".toList, "file")] ∧
    childrenOf (FileUtil.BuildTree fixtureView "/data/log1".toList [])
      = some [("A".toList, "directory"), ("a.txt".toList, "file"), ("b.txt".toList, "file")] := by
  refine ⟨⟨_, by rw [LogProcessor.buildTree], LogProcessor.sortByName_sorted _,
    LogProcessor.sortByName_perm _⟩, by decide, by decide⟩

/-! ## Identifiers that stay below the extraction root (C3) -/

namespace filepath

theorem cleanStep_false_dotdot (stack : List GoString) (e : GoString)
    (h : dotdot ∈ stack) : dotdot ∈ cleanStep false stack e := by
  unfold cleanStep
  by_cases h1 : e = [] ∨ e = ['.']
  · simp [h1, h]
  · simp only [h1, if_false]
    by_cases h2 : e = ['.', '.']
    · simp only [h2, if_true]
      cases stack with
      | nil => simp at h
      | cons top rest =>
        by_cases h3 : top = ['.', '.']
        · simp [h3, dotdot]
        · simp only [h3, if_false]
          simp only [List.mem_cons] at h
          rcases h with h | h
          · exact absurd h.symm h3
          · exact h
    · simp only [h2, if_false]
      simp [h]

/-- While the relative stack holds no `..`, cleaning on top of any stack adds
exactly the relative stack. -/
theorem cleanStep_append (rooted : Bool) (stack acc : List GoString) (e : GoString)
    (h : dotdot ∉ cleanStep false stack e) :
    cleanStep rooted (stack ++ acc) e = cleanStep false stack e ++ acc := by
  unfold cleanStep at h ⊢
  by_cases h1 : e = [] ∨ e = ['.']
  · simp [h1]
  · simp only [h1, if_false] at h ⊢
    by_cases h2 : e = ['.', '.']
    · simp only [h2, if_true] at h ⊢
      cases stack with
      | nil => simp [dotdot] at h
      | cons top rest =>
        by_cases h3 : top = ['.', '.']
        · simp [h3, dotdot] at h
        · simp [h3]
    · simp [h2]

theorem foldl_cleanStep_append (es : List GoString)
    (h : dotdot ∉ es.foldl (cleanStep false) []) (rooted : Bool) (acc : List GoString) :
    es.foldl (cleanStep rooted) acc = es.foldl (cleanStep false) [] ++ acc := by
  induction es using List.reverseRecOn with
  | nil => simp
  | append_singleton es e ih =>
    simp only [List.foldl_append, List.foldl_cons, List.foldl_nil] at h ⊢
    have h0 : dotdot ∉ es.foldl (cleanStep false) [] :=
      fun hc => h (cleanStep_false_dotdot _ e hc)
    rw [ih h0]
    exact cleanStep_append rooted _ acc e h

theorem Normal_mem {rooted : Bool} {stack : List GoString} (h : Normal rooted stack)
    (e : GoString) (he : e ∈ stack) : e ≠ [] ∧ e ≠ ['.'] ∧ Separator ∉ e := by
  induction stack with
  | nil => simp at he
  | cons x xs ih =>
    simp only [List.mem_cons] at he
    rcases he with he | he
    · subst he
      exact ⟨h.1, h.2.1, h.2.2.1⟩
    · exact ih (Normal_tail h) he

theorem relStack_normal (name : GoString) : Normal false (relStack name) :=
  foldl_cleanStep_normal _ _ [] trivial (fun e he => not_mem_of_mem_splitSep name e he)

theorem isRooted_append_sep (root rest : GoString) (hroot : root ≠ []) :
    isRooted (root ++ Separator :: rest) = isRooted root := by
  cases root with
  | nil => exact absurd rfl hroot
  | cons c cs => simp [isRooted]

/-- The stack of `root/name` for a name that stays below. -/
theorem cleanStack_append_below (root name : GoString) (hroot : root ≠ [])
    (h : dotdot ∉ relStack name) :
    cleanStack (root ++ Separator :: name) = relStack name ++ cleanStack root := by
  unfold cleanStack
  rw [isRooted_append_sep root name hroot, splitSep_append_sep, List.foldl_append]
  exact foldl_cleanStep_append _ h _ _

theorem splitSep_render (rooted : Bool) (stack : List GoString) (hn : Normal rooted stack)
    (hne : stack ≠ []) :
    splitSep (render rooted stack) = (if rooted then [[]] else []) ++ stack.reverse := by
  have hj : splitSep (joinSep stack.reverse) = stack.reverse :=
    splitSep_joinSep _ (by simpa using hne)
      (fun e he => (Normal_mem hn e (by simpa using he)).2.2)
  unfold render
  cases rooted with
  | true =>
    simp only [if_true]
    rw [show [Separator] ++ joinSep stack.reverse = [] ++ Separator :: joinSep stack.reverse
      from rfl, splitSep_append_sep, hj]
    simp [splitSep]
  | false => simpa using hj

theorem takeWhile_head_splitSep (r : GoString) :
    (splitSep r).head? = some (r.takeWhile (fun c => decide (c ≠ Separator))) := by
  induction r with
  | nil => simp [splitSep]
  | cons c cs ih =>
    simp only [splitSep]
    by_cases hc : c = Separator
    · simp [hc]
    · simp only [hc, if_false]
      cases hs : splitSep cs with
      | nil => exact absurd hs (splitSep_ne_nil cs)
      | cons x xs =>
        rw [hs] at ih
        simp only [List.head?_cons, Option.some.injEq] at ih
        simp [List.takeWhile, hc, ih]

theorem joinSep_named (es : List GoString) (hne : es ≠ [])
    (h : ∀ e ∈ es, e ≠ [] ∧ e ≠ ['.'] ∧ Separator ∉ e) :
    joinSep es ≠ [] ∧ isRooted (joinSep es) = false ∧
    strings.HasPrefix (joinSep es) (['.'] ++ [Separator]) = false ∧
    strings.HasPrefix (Separator :: joinSep es) ([Separator] ++ [Separator]) = false := by
  cases es with
  | nil => exact absurd rfl hne
  | cons e rest =>
    obtain ⟨h1, h2, h3⟩ := h e (by simp)
    cases e with
    | nil => exact absurd rfl h1
    | cons c cs =>
      have hc : c ≠ Separator := fun hc => h3 (by simp [hc])
      have hc2 : ¬ (Separator = c) := fun hc2 => hc hc2.symm
      have hj : ∃ t, joinSep ((c :: cs) :: rest) = c :: (cs ++ t) := by
        cases rest with
        | nil => exact ⟨[], by simp [joinSep]⟩
        | cons x xs => exact ⟨Separator :: joinSep (x :: xs), by simp [joinSep]⟩
      obtain ⟨t, ht⟩ := hj
      rw [ht]
      refine ⟨by simp, by simp [isRooted, hc], ?_, by simp [strings.HasPrefix, List.isPrefixOf, hc2]⟩
      cases cs with
      | nil =>
        have hcd : c ≠ '.' := fun hcd => h2 (by simp [hcd])
        have hcd2 : ¬ ('.' = c) := fun h => hcd h.symm
        simp [strings.HasPrefix, List.isPrefixOf, hcd2]
      | cons c2 cs2 =>
        have hc3 : c2 ≠ Separator := fun hc => h3 (by simp [hc])
        have hc4 : ¬ (Separator = c2) := fun h => hc3 h.symm
        simp [strings.HasPrefix, List.isPrefixOf, hc4]


theorem relStack_nil : relStack [] = [] := by decide

/-- Joining a directory with a name that stays below gives the cleaned
directory followed by the cleaned name. -/
theorem below_Join_staysBelow (root name : GoString) (h : StaysBelow name)
    (hr : root ≠ [] ∨ isRooted name = false) :
    below (Clean root) (Join root name) = some (joinSep (relStack name).reverse) := by
  obtain ⟨hne, hdd⟩ := h
  have hnorm := relStack_normal name
  have hnamed : ∀ e ∈ (relStack name).reverse, e ≠ [] ∧ e ≠ ['.'] ∧ Separator ∉ e :=
    fun e he => Normal_mem hnorm e (by simpa using he)
  have hrev : (relStack name).reverse ≠ [] := by simpa using hne
  obtain ⟨hj1, hj2, hj3, hj4⟩ := joinSep_named _ hrev hnamed
  have hname : name ≠ [] := by
    intro hn
    rw [hn] at hne
    exact hne relStack_nil
  have hdot : below ['.'] (joinSep (relStack name).reverse)
      = some (joinSep (relStack name).reverse) := by
    unfold below
    rw [hj3]
    simp [hj2]
  by_cases hroot : root = []
  · subst hroot
    have hnr : isRooted name = false := by
      rcases hr with hr | hr
      · exact absurd rfl hr
      · exact hr
    have hj : Join [] name = joinSep (relStack name).reverse := by
      unfold Join Clean cleanStack
      simp only [ne_eq, not_true_eq_false, if_false, hname, not_false_eq_true, if_true, hnr]
      show (if render false (relStack name) = [] then ['.'] else render false (relStack name)) = _
      have : render false (relStack name) = joinSep (relStack name).reverse := by simp [render]
      rw [this]
      simp [hj1]
    have hc : Clean [] = ['.'] := by decide
    rw [hj, hc]
    exact hdot
  · have hs := cleanStack_append_below root name hroot hdd
    have hrt := isRooted_append_sep root name hroot
    have hn := cleanStack_normal root
    have hjoin : Join root name
        = render (isRooted root) (relStack name ++ cleanStack root) := by
      unfold Join
      simp only [hroot, ne_eq, not_false_eq_true, if_true]
      unfold Clean
      have hne2 : root ++ Separator :: name ≠ [] := by simp
      simp only [hne2, if_false, hrt, hs]
      have hnn : Normal (isRooted root) (relStack name ++ cleanStack root) := by
        have := cleanStack_normal (root ++ Separator :: name)
        rw [hrt, hs] at this
        exact this
      have := render_ne_nil (isRooted root) (relStack name ++ cleanStack root) hnn
        (Or.inl (by simp [hne]))
      simp [this]
    by_cases hst : cleanStack root = []
    · have hcr : Clean root = if isRooted root then [Separator] else ['.'] := by
        unfold Clean
        simp only [hroot, if_false, hst]
        cases hrt2 : isRooted root <;> simp [render, joinSep]
      rw [hjoin, hcr, hst]
      cases hrt2 : isRooted root
      · simp only [render, Bool.false_eq_true, if_false, List.nil_append, List.append_nil]
        exact hdot
      · simp only [render, if_true, List.append_nil, List.singleton_append]
        unfold below
        rw [hj4]
        simp [isRooted, Separator]
    · have hne3 := render_ne_nil (isRooted root) (cleanStack root) hn (Or.inl hst)
      have hcr : Clean root = render (isRooted root) (cleanStack root) := by
        unfold Clean
        simp [hroot, hne3]
      have hj2 : Join root name = Clean root ++ Separator :: joinSep (relStack name).reverse := by
        rw [hjoin, hcr]
        simp only [render, List.reverse_append, List.append_assoc]
        rw [joinSep_append _ _ (by simpa using hst) hrev]
      rw [hj2]
      unfold below
      have hp : strings.HasPrefix (Clean root ++ Separator :: joinSep (relStack name).reverse)
          (Clean root ++ [Separator]) = true := by
        simp [strings.HasPrefix]
      rw [hp]
      simp

/-- A name that stays below is resolved to a proper subdirectory. -/
theorem IsProperSubdir_Join_staysBelow (root name : GoString) (h : StaysBelow name)
    (hr : root ≠ [] ∨ isRooted name = false) : IsProperSubdir root (Join root name) = true := by
  have hb := below_Join_staysBelow root name h hr
  obtain ⟨hne, hdd⟩ := h
  have hnorm := relStack_normal name
  have hnamed : ∀ e ∈ (relStack name).reverse, e ≠ [] ∧ e ≠ ['.'] ∧ Separator ∉ e :=
    fun e he => Normal_mem hnorm e (by simpa using he)
  have hrev : (relStack name).reverse ≠ [] := by simpa using hne
  have hsp : splitSep (joinSep (relStack name).reverse) = (relStack name).reverse :=
    splitSep_joinSep _ hrev (fun e he => (hnamed e he).2.2)
  unfold IsProperSubdir
  rw [hb]
  have h1 := (joinSep_named _ hrev hnamed).1
  have h2 : joinSep (relStack name).reverse ≠ ['.'] := by
    intro hc
    rw [hc] at hsp
    have : ['.'] ∈ (relStack name).reverse := by rw [← hsp]; simp [splitSep, Separator]
    exact (hnamed _ this).2.1 rfl
  have h3 : (joinSep (relStack name).reverse).takeWhile (fun c => decide (c ≠ Separator))
      ≠ dotdot := by
    intro hc
    have hh := takeWhile_head_splitSep (joinSep (relStack name).reverse)
    rw [hsp, hc] at hh
    have : dotdot ∈ (relStack name).reverse := List.mem_of_mem_head? hh
    exact hdd (by simpa using this)
  simp only [h1, h2, h3, ne_eq, not_false_eq_true, decide_True, Bool.and_self]

theorem length_le_of_mem_splitSep (s e : GoString) (h : e ∈ splitSep s) :
    e.length ≤ s.length := by
  induction s generalizing e with
  | nil =>
    simp [splitSep] at h
    simp [h]
  | cons c s ih =>
    simp only [splitSep] at h
    by_cases hc : c = Separator
    · simp only [hc, if_true, List.mem_cons] at h
      rcases h with h | h
      · simp [h]
      · have := ih e h
        simp only [List.length_cons]
        omega
    · simp only [hc, if_false] at h
      cases hs : splitSep s with
      | nil => exact absurd hs (splitSep_ne_nil s)
      | cons x xs =>
        rw [hs] at h ih
        simp only [List.mem_cons] at h
        rcases h with h | h
        · have := ih x (by simp)
          simp only [h, List.length_cons]
          omega
        · have := ih e (by simp [h])
          simp only [List.length_cons]
          omega

theorem cleanStep_subset (rooted : Bool) (stack : List GoString) (e x : GoString)
    (h : x ∈ cleanStep rooted stack e) : x ∈ stack ∨ x = e := by
  unfold cleanStep at h
  by_cases h1 : e = [] ∨ e = ['.']
  · simp only [h1, if_true] at h
    exact Or.inl h
  · simp only [h1, if_false] at h
    by_cases h2 : e = ['.', '.']
    · simp only [h2, if_true] at h
      cases stack with
      | nil =>
        cases rooted with
        | true => simp at h
        | false =>
          simp only [Bool.false_eq_true, if_false, List.mem_singleton] at h
          exact Or.inr (by rw [h, h2])
      | cons top rest =>
        by_cases h3 : top = ['.', '.']
        · simp only [h3, if_true, List.mem_cons] at h
          rcases h with h | h | h
          · exact Or.inr (by rw [h, h2])
          · exact Or.inl (by simp [h, h3])
          · exact Or.inl (by simp [h])
        · simp only [h3, if_false] at h
          exact Or.inl (by simp [h])
    · simp only [h2, if_false, List.mem_cons] at h
      rcases h with h | h
      · exact Or.inr h
      · exact Or.inl h

/-- The step at which cleaning `root/name` leaves a one-element root. -/
theorem cleanStep_leaves_root (root : GoString) (hroot : IsElement root)
    (stack : List GoString) (e : GoString) (h1 : dotdot ∉ stack)
    (hd : dotdot ∈ cleanStep false stack e) : cleanStep false (stack ++ [root]) e = [] := by
  unfold cleanStep at hd ⊢
  by_cases he1 : e = [] ∨ e = ['.']
  · simp only [he1, if_true] at hd
    exact absurd hd h1
  · simp only [he1, if_false] at hd ⊢
    by_cases he2 : e = ['.', '.']
    · simp only [he2, if_true] at hd ⊢
      cases stack with
      | nil => simp [hroot.2.2.2]
      | cons top rest =>
        by_cases h3 : top = ['.', '.']
        · exact absurd (by simp [h3, dotdot]) h1
        · simp only [h3, if_false] at hd
          exact absurd (by simp [hd]) h1
    · simp only [he2, if_false, List.mem_cons] at hd
      rcases hd with hd | hd
      · exact absurd hd.symm he2
      · exact absurd hd h1

/-- Cleaning `root/name` for a one-element root: either the name stays below
and its stack is put on top of the root, or the root has been left and every
element kept comes from the name. -/
theorem foldl_cleanStep_on_root (root : GoString) (hroot : IsElement root) (es : List GoString) :
    (dotdot ∉ es.foldl (cleanStep false) [] ∧
      es.foldl (cleanStep false) [root] = es.foldl (cleanStep false) [] ++ [root]) ∨
    (dotdot ∈ es.foldl (cleanStep false) [] ∧
      ∀ x ∈ es.foldl (cleanStep false) [root], x ∈ es) := by
  induction es using List.reverseRecOn with
  | nil => left; simp
  | append_singleton es e ih =>
    simp only [List.foldl_append, List.foldl_cons, List.foldl_nil]
    by_cases hd : dotdot ∈ cleanStep false (es.foldl (cleanStep false) []) e
    · right
      refine ⟨hd, ?_⟩
      rcases ih with ⟨h1, h2⟩ | ⟨h1, h2⟩
      · have hstep := cleanStep_leaves_root root hroot _ e h1 hd
        rw [h2]
        rw [hstep]
        simp
      · intro x hx
        rcases cleanStep_subset _ _ _ _ hx with hx | hx
        · simp [h2 x hx]
        · simp [hx]
    · left
      refine ⟨hd, ?_⟩
      have h0 : dotdot ∉ es.foldl (cleanStep false) [] :=
        fun hc => hd (cleanStep_false_dotdot _ e hc)
      rcases ih with ⟨_, h2⟩ | ⟨h1, _⟩
      · rw [h2]
        exact cleanStep_append false _ [root] e hd
      · exact absurd h1 h0

theorem freshRoot_element (name : GoString) : IsElement (freshRoot name) := by
  unfold IsElement freshRoot
  refine ⟨by simp, ?_, ?_, ?_⟩
  · intro h
    have := List.eq_of_mem_replicate h
    simp [Separator] at this
  · intro h
    have h2 : '.' ∈ List.replicate (name.length + 1) 'r' := by rw [h]; simp
    have := List.eq_of_mem_replicate h2
    simp at this
  · intro h
    have h2 : '.' ∈ List.replicate (name.length + 1) 'r' := by rw [h]; simp
    have := List.eq_of_mem_replicate h2
    simp at this

theorem freshRoot_not_mem (name : GoString) : freshRoot name ∉ splitSep name := by
  intro h
  have := length_le_of_mem_splitSep name _ h
  simp [freshRoot] at this

/-- A name that does not stay below leaves some directory: joined to a
directory name that is none of its elements, it is not resolved to a proper
subdirectory. -/
theorem not_IsProperSubdir_of_not_staysBelow (name : GoString) (h : ¬ StaysBelow name) :
    IsProperSubdir (freshRoot name) (Join (freshRoot name) name) = false := by
  have hroot := freshRoot_element name
  have hfresh := freshRoot_not_mem name
  generalize freshRoot name = root at hroot hfresh
  have hrne : root ≠ [] := hroot.1
  have hcr : Clean root = root := Clean_element root hroot
  have hrt := isRooted_append_sep root name hrne
  have hrr := isRooted_of_element root hroot
  have hstack : cleanStack (root ++ Separator :: name)
      = (splitSep name).foldl (cleanStep false) [root] := by
    unfold cleanStack
    rw [hrt, hrr, splitSep_append_sep, List.foldl_append, splitSep_of_not_mem root hroot.2.1]
    simp [cleanStep_element, hroot]
  have hn := cleanStack_normal (root ++ Separator :: name)
  rw [hrt, hrr] at hn
  have hjoin : Join root name = Clean (root ++ Separator :: name) := by
    simp [Join, hrne]
  have hpre : strings.HasPrefix (Join root name) (root ++ [Separator]) = false := by
    by_contra hc
    have hp : root ++ [Separator] <+: Join root name := by simpa [strings.HasPrefix] using hc
    obtain ⟨t, ht⟩ := hp
    have ht2 : Join root name = root ++ Separator :: t := by simpa using ht.symm
    have hsplit : splitSep (Join root name) = root :: splitSep t := by
      rw [ht2, splitSep_append_sep, splitSep_of_not_mem root hroot.2.1]
      rfl
    rcases Clean_cases (root ++ Separator :: name) with hdot | ⟨hren, _⟩
    · rw [hjoin, hdot] at hsplit
      simp only [splitSep] at hsplit
      simp [Separator] at hsplit
      exact hroot.2.2.1 hsplit.1.symm
    · rw [hrt, hrr] at hren
      rcases foldl_cleanStep_on_root root hroot (splitSep name) with ⟨h1, h2⟩ | ⟨_, h2⟩
      · have hnil : relStack name = [] := by
          by_contra hne
          exact h ⟨hne, h1⟩
        have hnil2 : (splitSep name).foldl (cleanStep false) [] = [] := hnil
        rw [hnil2] at h2
        have : Join root name = root := by
          rw [hjoin, hren, hstack, h2]
          simp [render, joinSep]
        rw [this] at ht2
        have := congrArg List.length ht2
        simp at this
      · by_cases hs : cleanStack (root ++ Separator :: name) = []
        · rw [hjoin, hren, hs] at ht2
          simp [render, joinSep] at ht2
        · have hsp := splitSep_render false _ hn hs
          rw [← hren, ← hjoin, hsplit] at hsp
          have hmem : root ∈ cleanStack (root ++ Separator :: name) := by
            have : root ∈ (cleanStack (root ++ Separator :: name)).reverse := by
              simp only [Bool.false_eq_true, if_false, List.nil_append] at hsp
              rw [← hsp]
              simp
            simpa using this
          rw [hstack] at hmem
          exact hfresh (h2 root hmem)
  unfold IsProperSubdir below
  rw [hcr, hpre]
  have h1 : root ≠ ['.'] := hroot.2.2.1
  have h2 : root ≠ [Separator] := by
    intro hc
    exact hroot.2.1 (by rw [hc]; simp)
  simp [h1, h2]

theorem relStack_element (name : GoString) (h : IsElement name) : relStack name = [name] := by
  unfold relStack
  rw [splitSep_of_not_mem name h.2.1]
  simp [cleanStep_element, h]

theorem StaysBelow_of_element (name : GoString) (h : IsElement name) :
    StaysBelow name ∧ isRooted name = false ∧ joinSep (relStack name).reverse = name := by
  refine ⟨⟨?_, ?_⟩, isRooted_of_element name h, ?_⟩
  · rw [relStack_element name h]; simp
  · rw [relStack_element name h]
    simp only [List.mem_singleton]
    exact fun hc => h.2.2.2 hc.symm
  · rw [relStack_element name h]; simp [joinSep]

end filepath

/-- Plain decimal notation is one ordinary path element. -/
theorem plainDecimal_element (negative : Bool) (n : Nat) :
    filepath.IsElement (plainDecimal negative n) := by
  obtain ⟨hne, hdig, _⟩ := toDigits_spec n
  have hall : ∀ c ∈ plainDecimal negative n, c = '-' ∨ c.isDigit = true := by
    intro c hc
    unfold plainDecimal at hc
    simp only [List.mem_append] at hc
    rcases hc with hc | hc
    · cases negative with
      | true => left; simpa using hc
      | false => simp at hc
    · exact Or.inr (hdig c hc)
  have hdot : '.' ∉ plainDecimal negative n := by
    intro hc
    rcases hall _ hc with h | h
    · exact absurd h (by decide)
    · exact absurd h (by decide)
  refine ⟨plainDecimal_ne_nil negative n, ?_, ?_, ?_⟩
  · intro hc
    rcases hall _ hc with h | h
    · exact absurd h (by decide)
    · exact absurd h (by decide)
  · intro hc
    exact hdot (by rw [hc]; simp)
  · intro hc
    exact hdot (by rw [hc]; simp)

/-- Every identifier that `ValidateLogID` renders from a number is one
ordinary path element. -/
theorem ValidateLogID_numeric_element (v : LogIDValue) (id : GoString)
    (hvalid : LogService.ValidateLogID v = Except.ok id)
    (hnum : (∃ x, v = LogIDValue.float64 x) ∨ (∃ n, v = LogIDValue.int n) ∨
      (∃ n, v = LogIDValue.int64 n)) : filepath.IsElement id := by
  rcases hnum with ⟨x, hx⟩ | ⟨n, hn⟩ | ⟨n, hn⟩
  · subst hx
    simp only [LogService.ValidateLogID, Except.ok.injEq] at hvalid
    rw [← hvalid]
    exact plainDecimal_element x.sign (fmt.roundHalfEven x.mant x.exp)
  · subst hn
    simp only [LogService.ValidateLogID, Except.ok.injEq] at hvalid
    rw [← hvalid, sprintInt_eq]
    exact plainDecimal_element _ _
  · subst hn
    simp only [LogService.ValidateLogID, Except.ok.injEq] at hvalid
    rw [← hvalid, sprintInt_eq]
    exact plainDecimal_element _ _

/-- **C3 (amended).** For every identifier accepted by `ValidateLogID` that
stays below the directory it is joined to (cleaned as a relative path it keeps
at least one element and no `..`), and an extraction root that is not empty
(as `config.Load` always yields, an empty setting falling back to the
default; or else an identifier that is not rooted), the extraction directory
`filepath.Join(ExtractDir, id)` is the cleaned identifier inside the cleaned
extraction root, hence a proper subdirectory of that root.  Every identifier
made of one ordinary path element stays below, and every identifier rendered
from a number (`float64`, `int`, `int64`) is one ordinary path element.  For
an accepted identifier that does not stay below there is an extraction root,
itself one ordinary directory name, of which the extraction directory is not
a proper subdirectory. -/
theorem C3_identifier_staying_below_is_inside_root (cfg : Config) (v : LogIDValue)
    (id : GoString) (hvalid : LogService.ValidateLogID v = Except.ok id) :
    (filepath.StaysBelow id →
      (cfg.Storage.ExtractDir ≠ [] ∨ filepath.isRooted id = false) →
      filepath.below (filepath.Clean cfg.Storage.ExtractDir) (FileService.extractPath cfg id)
        = some (filepath.joinSep (filepath.relStack id).reverse) ∧
      filepath.IsProperSubdir cfg.Storage.ExtractDir (FileService.extractPath cfg id) = true) ∧
    (filepath.IsElement id →
      filepath.StaysBelow id ∧ filepath.isRooted id = false ∧
      filepath.joinSep (filepath.relStack id).reverse = id) ∧
    ((∃ x, v = LogIDValue.float64 x) ∨ (∃ n, v = LogIDValue.int n) ∨
        (∃ n, v = LogIDValue.int64 n) → filepath.IsElement id) ∧
    (¬ filepath.StaysBelow id →
      ∃ root, filepath.IsElement root ∧
        filepath.IsProperSubdir root (filepath.Join root id) = false) :=
  ⟨fun hs hr => ⟨filepath.below_Join_staysBelow _ id hs hr,
      filepath.IsProperSubdir_Join_staysBelow _ id hs hr⟩,
   filepath.StaysBelow_of_element id,
   ValidateLogID_numeric_element v id hvalid,
   fun hn => ⟨filepath.freshRoot id, filepath.freshRoot_element id,
      filepath.not_IsProperSubdir_of_not_staysBelow id hn⟩⟩

/-- Witness of the amended C3: the identifier `a/../b/c` is accepted, stays
below, and with the default extraction root its directory is
`storage/extracted/b/c`. -/
theorem C3_identifier_staying_below_is_inside_root_witness :
    LogService.ValidateLogID (LogIDValue.str "a/../b/c".toList) = Except.ok "a/../b/c".toList ∧
    filepath.StaysBelow "a/../b/c".toList ∧
    filepath.below (filepath.Clean sampleConfig.Storage.ExtractDir)
      (FileService.extractPath sampleConfig "a/../b/c".toList)
        = some (filepath.joinSep (filepath.relStack "a/../b/c".toList).reverse) ∧
    filepath.IsProperSubdir sampleConfig.Storage.ExtractDir
      (FileService.extractPath sampleConfig "a/../b/c".toList) = true ∧
    FileService.extractPath sampleConfig "a/../b/c".toList = "storage/extracted/b/c".toList :=
  ⟨rfl, by decide,
   ((C3_identifier_staying_below_is_inside_root sampleConfig
      (LogIDValue.str "a/../b/c".toList) "a/../b/c".toList rfl).1 (by decide)
      (Or.inl (by decide))).1,
   ((C3_identifier_staying_below_is_inside_root sampleConfig
      (LogIDValue.str "a/../b/c".toList) "a/../b/c".toList rfl).1 (by decide)
      (Or.inl (by decide))).2,
   by decide⟩

/-! ## Extraction stays inside the destination (C1) -/

namespace filepath

theorem Normal_dotdot_below {rooted : Bool} (above below : List GoString)
    (h : Normal rooted (above ++ below)) (hd : dotdot ∈ above) :
    rooted = false ∧ ∀ x ∈ below, x = dotdot := by
  induction above with
  | nil => simp at hd
  | cons a rest ih =>
    by_cases ha : a = dotdot
    · have := h.2.2.2.1 ha
      exact ⟨this.1, fun x hx => this.2 x (by simp [hx])⟩
    · simp only [List.mem_cons] at hd
      rcases hd with hd | hd
      · exact absurd hd.symm ha
      · exact ih (Normal_tail h) hd

/-- The elements that follow a cleaned directory inside a cleaned path are
ordinary, unless the directory is a chain of `..`. -/
theorem ordinary_after_clean (x y r : GoString)
    (h : Clean y = Clean x ++ Separator :: r) (hx : ¬ IsDotDotChain (Clean x)) :
    IsOrdinary r := by
  have hsplit : splitSep (Clean y) = splitSep (Clean x) ++ splitSep r := by
    rw [h, splitSep_append_sep]
  have hxne := Clean_ne_nil x
  have hlen : 2 ≤ (Clean y).length := by
    rw [h]
    have : 0 < (Clean x).length := List.length_pos.mpr hxne
    simp only [List.length_append, List.length_cons]
    omega
  have hroot : isRooted (Clean y) = isRooted (Clean x) := by
    rw [h]
    exact isRooted_append_sep (Clean x) r hxne
  rcases Clean_cases y with hdot | ⟨hren, hne⟩
  · rw [hdot] at hlen
    simp at hlen
  · have hny := cleanStack_normal y
    by_cases hsy : cleanStack y = []
    · rw [hren, hsy] at hlen
      cases hry : isRooted y <;> simp [render, joinSep, hry] at hlen
    · have hry : isRooted (Clean y) = isRooted y := by
        rw [hren]; exact isRooted_render _ _ hny hne
      have hspy := splitSep_render _ _ hny hsy
      rw [← hren, hsplit] at hspy
      -- the shape of the cleaned directory
      have hkey : ∃ pre : List GoString, (cleanStack y).reverse = pre ++ splitSep r ∧
          (dotdot ∈ splitSep r → IsDotDotChain (Clean x)) := by
        rcases Clean_cases x with hdx | ⟨hrenx, hnex⟩
        · exfalso
          rw [hdx] at hspy hroot
          have hf : isRooted y = false := by rw [← hry, hroot]; rfl
          rw [hf] at hspy
          have : ['.'] ∈ (cleanStack y).reverse := by
            simp only [Bool.false_eq_true, if_false, List.nil_append] at hspy
            rw [← hspy]
            simp [splitSep, Separator]
          exact (Normal_mem hny _ (by simpa using this)).2.1 rfl
        · have hnx := cleanStack_normal x
          have hrx : isRooted (Clean x) = isRooted x := by
            rw [hrenx]; exact isRooted_render _ _ hnx hnex
          have hrr : isRooted y = isRooted x := by rw [← hry, hroot, hrx]
          by_cases hsx : cleanStack x = []
          · exfalso
            have hxr : isRooted x = true := by
              rcases hnex with h1 | h1
              · exact absurd hsx h1
              · exact h1
            rw [hrenx, hsx, hxr, hrr, hxr] at hspy
            have : ([] : GoString) ∈ (cleanStack y).reverse := by
              have h2 : splitSep (render true []) = [[], []] := by
                simp [render, joinSep, splitSep]
              rw [h2] at hspy
              simp only [if_true, List.cons_append, List.nil_append, List.cons.injEq,
                true_and] at hspy
              rw [← hspy]
              simp
            exact (Normal_mem hny _ (by simpa using this)).1 rfl
          · have hspx := splitSep_render _ _ hnx hsx
            rw [← hrenx] at hspx
            rw [hspx, hrr, List.append_assoc] at hspy
            have heq := List.append_cancel_left hspy
            refine ⟨(cleanStack x).reverse, heq.symm, ?_⟩
            intro hd
            have hstack : cleanStack y = (splitSep r).reverse ++ cleanStack x := by
              have := congrArg List.reverse heq
              simpa using this.symm
            rw [hstack] at hny
            obtain ⟨hf, hall⟩ := Normal_dotdot_below _ _ hny (by simpa using hd)
            intro e he
            rw [hspx, ← hrr, hf] at he
            simp only [Bool.false_eq_true, if_false, List.nil_append, List.mem_reverse] at he
            exact hall e he
      obtain ⟨pre, hpre, hchain⟩ := hkey
      intro e he
      have hmem : e ∈ cleanStack y := by
        have : e ∈ (cleanStack y).reverse := by rw [hpre]; simp [he]
        simpa using this
      obtain ⟨h1, h2, h3⟩ := Normal_mem hny e hmem
      refine ⟨h1, h3, h2, ?_⟩
      intro hd
      exact hx (hchain (by rw [← show e = dotdot from hd]; exact he))

end filepath

namespace FS

theorem MkdirAll_frame_clean (fs : FS) (path q : GoString)
    (h : (fs.MkdirAll path).1.lookup q ≠ fs.lookup q) :
    q = filepath.Clean path ∨ q ∈ ancestors (filepath.Clean path) := by
  unfold MkdirAll at h
  obtain ⟨hm, _⟩ := mkdirChain_frame _ _ _ h
  simp only [List.mem_append, List.mem_singleton] at hm
  exact hm.symm

end FS

namespace ZipUtil

/-- Every path one loop iteration changes is a cleaned path or a parent of
one. -/
theorem extractEntry_frame_clean (fs : FS) (extractTo : GoString) (file : ZipFile)
    (q : GoString) (h : (extractEntry fs extractTo file).1.lookup q ≠ fs.lookup q) :
    ∃ y, q = filepath.Clean y ∨ q ∈ FS.ancestors (filepath.Clean y) := by
  unfold extractEntry at h
  simp only [] at h
  by_cases hpre : strings.HasPrefix (filepath.Join extractTo file.Name)
      (filepath.Clean extractTo ++ [Separator]) = true
  · simp only [hpre, Bool.not_true, Bool.false_eq_true, if_false] at h
    by_cases hdir : file.IsDir = true
    · simp only [hdir, if_true] at h
      have hfr := FS.MkdirAll_frame_clean fs (filepath.Join extractTo file.Name) q
      rcases hmk : fs.MkdirAll (filepath.Join extractTo file.Name) with ⟨fs1, _ | e⟩
      · rw [hmk] at h hfr; exact ⟨_, hfr h⟩
      · rw [hmk] at h hfr; exact ⟨_, hfr h⟩
    · simp only [hdir, Bool.false_eq_true, if_false] at h
      have hfr := FS.MkdirAll_frame_clean fs
        (filepath.Dir (filepath.Join extractTo file.Name)) q
      rcases hmk : fs.MkdirAll (filepath.Dir (filepath.Join extractTo file.Name))
        with ⟨fs1, _ | e⟩
      · rw [hmk] at h hfr
        simp only [] at h hfr
        by_cases hq1 : fs1.lookup q = fs.lookup q
        · have hef := extractFile_frame fs1 file (filepath.Join extractTo file.Name) q
          rcases hex : extractFile fs1 file (filepath.Join extractTo file.Name)
            with ⟨fs2, _ | e⟩
          · rw [hex] at h hef
            simp only [] at h hef
            exact ⟨_, Or.inl (hef (by rw [hq1]; exact h))⟩
          · rw [hex] at h hef
            simp only [] at h hef
            exact ⟨_, Or.inl (hef (by rw [hq1]; exact h))⟩
        · exact ⟨_, hfr hq1⟩
      · rw [hmk] at h hfr
        exact ⟨_, hfr h⟩
  · simp [hpre] at h

theorem extractLoop_frame_clean (files : List ZipFile) (fs : FS) (extractTo : GoString)
    (q : GoString) (h : (extractLoop fs extractTo files).1.lookup q ≠ fs.lookup q) :
    ∃ y, q = filepath.Clean y ∨ q ∈ FS.ancestors (filepath.Clean y) := by
  induction files generalizing fs with
  | nil => simp [extractLoop] at h
  | cons file rest ih =>
    unfold extractLoop at h
    have hfr := extractEntry_frame_clean fs extractTo file q
    rcases hen : extractEntry fs extractTo file with ⟨fs1, _ | e⟩
    · rw [hen] at h hfr
      simp only [] at h hfr
      by_cases hq1 : fs1.lookup q = fs.lookup q
      · exact ih fs1 (by rw [hq1]; exact h)
      · exact hfr hq1
    · rw [hen] at h hfr
      exact hfr h

/-- What `Extract` changes after it has made the destination: a path that
continues the cleaned destination, and a cleaned path or a parent of one. -/
theorem Extract_frame (parseZip : Bytes → Option (List ZipFile)) (fs : FS)
    (zipPath extractTo p : GoString)
    (hchanged : (Extract parseZip fs zipPath extractTo).1.lookup p
      ≠ (fs.MkdirAll extractTo).1.lookup p) :
    filepath.Clean extractTo ++ [Separator] <+: p ∧
    ∃ y, p = filepath.Clean y ∨ p ∈ FS.ancestors (filepath.Clean y) := by
  unfold Extract at hchanged
  have hready := FS.MkdirAll_ready fs extractTo
  rcases hmk : fs.MkdirAll extractTo with ⟨fs1, _ | e⟩
  · rw [hmk] at hchanged hready
    simp only [] at hchanged
    cases hop : openReader parseZip fs1 zipPath with
    | none => simp [hop] at hchanged
    | some files =>
      simp only [hop] at hchanged
      exact ⟨extractLoop_frame files fs1 extractTo (hready rfl) p hchanged,
        extractLoop_frame_clean files fs1 extractTo p hchanged⟩
  · rw [hmk] at hchanged
    simp at hchanged

end ZipUtil

namespace filepath

/-- A cleaned path, or a parent of one, that continues a cleaned directory
other than a chain of `..` does so with ordinary elements only. -/
theorem ordinary_below_of_clean_path (x q : GoString)
    (hq : ∃ y, q = Clean y ∨ q ∈ FS.ancestors (Clean y))
    (hp : Clean x ++ [Separator] <+: q) (hx : ¬ IsDotDotChain (Clean x)) :
    ∃ r, q = Clean x ++ Separator :: r ∧ IsOrdinary r := by
  obtain ⟨r, hr⟩ := hp
  have hr2 : q = Clean x ++ Separator :: r := by simpa using hr.symm
  refine ⟨r, hr2, ?_⟩
  obtain ⟨y, hy | hy⟩ := hq
  · exact ordinary_after_clean x y r (by rw [← hy, hr2]) hx
  · obtain ⟨_, t, ht⟩ := (FS.mem_ancestors _ _).mp hy
    have h2 : Clean y = Clean x ++ Separator :: (r ++ Separator :: t) := by
      rw [ht, hr2]; simp
    have := ordinary_after_clean x y _ h2 hx
    intro e he
    apply this e
    rw [splitSep_append_sep]
    simp [he]

/-- A path that continues the cleaned directory with ordinary elements is a
proper subdirectory of it. -/
theorem IsProperSubdir_of_ordinary (root r : GoString) (h : IsOrdinary r) :
    IsProperSubdir root (Clean root ++ Separator :: r) = true := by
  unfold IsProperSubdir below
  have hp : strings.HasPrefix (Clean root ++ Separator :: r) (Clean root ++ [Separator])
      = true := by
    simp [strings.HasPrefix]
  rw [hp]
  simp only [if_true, List.length_append, List.length_singleton]
  have hdrop : (Clean root ++ Separator :: r).drop ((Clean root).length + 1) = r := by
    rw [show Clean root ++ Separator :: r = (Clean root ++ [Separator]) ++ r by simp]
    rw [List.drop_left' (by simp)]
  have hdrop2 : List.drop ((Clean root).length + 1) (Clean root ++ Separator :: r) = r := hdrop
  have hhead := takeWhile_head_splitSep r
  have helem : IsElement (r.takeWhile (fun c => decide (c ≠ Separator))) :=
    h _ (List.mem_of_mem_head? hhead)
  have h1 : r ≠ [] := IsOrdinary_ne_nil r h
  have h2 : r ≠ ['.'] := by
    intro hc
    have := h ['.'] (by rw [hc]; simp [splitSep, Separator])
    exact this.2.2.1 rfl
  have h3 : r.takeWhile (fun c => decide (c ≠ Separator)) ≠ dotdot := helem.2.2.2
  simp only [hdrop2, h1, h2, h3, ne_eq, not_false_eq_true, decide_True, Bool.and_self]

end filepath

/-- **C1 (as stated) fails.** Extracting `sampleArchive` into the destination
`..` succeeds and writes the member `../x` to `../../x`.  That path starts
with the cleaned destination followed by the separator, so it passes the
prefix test, but it lies outside the destination: it is not a proper
subdirectory of `..`, it is two levels up. -/
theorem C1_destination_dotdot_is_escaped :
    (ZipUtil.Extract sampleParse sampleDisk "z.zip".toList "..".toList).2 = none ∧
    (sampleDisk.MkdirAll "..".toList).1.lookup "../../x".toList = none ∧
    (ZipUtil.Extract sampleParse sampleDisk "z.zip".toList "..".toList).1.lookup
        "../../x".toList = some (FsObj.file [3]) ∧
    strings.HasPrefix "../../x".toList (filepath.Clean "..".toList ++ [Separator]) = true ∧
    filepath.IsProperSubdir "..".toList "../../x".toList = false := by
  decide

/-- **C1 (amended).** For every archive (whatever the stored names), every
archive location and every destination directory, each path whose content
after `Extract` differs from what it was right after the destination directory
had been created (each directory made and each file created or written for an
archive member) starts with `filepath.Clean(extractTo)` followed by the path
separator.  When the cleaned destination is not a chain of `..` elements, such
a path is the cleaned destination followed by ordinary elements only (none
empty, `.` or `..`), hence a proper subdirectory of the destination: no entry
causes a write outside it. -/
theorem C1_extract_writes_inside_destination
    (parseZip : Bytes → Option (List ZipFile)) (fs : FS) (zipPath extractTo p : GoString)
    (hchanged : (ZipUtil.Extract parseZip fs zipPath extractTo).1.lookup p
      ≠ (fs.MkdirAll extractTo).1.lookup p) :
    strings.HasPrefix p (filepath.Clean extractTo ++ [Separator]) = true ∧
    (¬ filepath.IsDotDotChain (filepath.Clean extractTo) →
      (∃ r, p = filepath.Clean extractTo ++ Separator :: r ∧ filepath.IsOrdinary r) ∧
      filepath.IsProperSubdir extractTo p = true) := by
  obtain ⟨hpre, hclean⟩ := ZipUtil.Extract_frame parseZip fs zipPath extractTo p hchanged
  refine ⟨by simpa [strings.HasPrefix] using hpre, fun hx => ?_⟩
  obtain ⟨r, hr, hord⟩ := filepath.ordinary_below_of_clean_path extractTo p hclean hpre hx
  refine ⟨⟨r, hr, hord⟩, ?_⟩
  rw [hr]
  exact filepath.IsProperSubdir_of_ordinary extractTo r hord

/-- Witness of the amended C1: extracting `sampleArchive` into `/tmp/out`
writes the file `/tmp/out/etc/passwd`, which is inside `/tmp/out`. -/
theorem C1_extract_writes_inside_destination_witness :
    (ZipUtil.Extract sampleParse sampleDisk "z.zip".toList "/tmp/out".toList).1.lookup
        "/tmp/out/etc/passwd".toList
      ≠ (sampleDisk.MkdirAll "/tmp/out".toList).1.lookup "/tmp/out/etc/passwd".toList ∧
    strings.HasPrefix "/tmp/out/etc/passwd".toList
      (filepath.Clean "/tmp/out".toList ++ [Separator]) = true ∧
    (¬ filepath.IsDotDotChain (filepath.Clean "/tmp/out".toList) →
      (∃ r, "/tmp/out/etc/passwd".toList = filepath.Clean "/tmp/out".toList ++ Separator :: r ∧
        filepath.IsOrdinary r) ∧
      filepath.IsProperSubdir "/tmp/out".toList "/tmp/out/etc/passwd".toList = true) :=
  ⟨by decide,
   C1_extract_writes_inside_destination sampleParse sampleDisk "z.zip".toList "/tmp/out".toList
     "/tmp/out/etc/passwd".toList (by decide)⟩

/-! ## Which members the extraction skips (C2) -/

namespace filepath

/-- A cleaned path that lies below a directory is its parent followed by one
element, and the parent is a cleaned path. -/
theorem Dir_split (x d : GoString) (hd : d ≠ []) (h : d ++ [Separator] <+: Clean x) :
    ∃ e, Clean x = Dir (Clean x) ++ Separator :: e ∧ Dir (Clean x) ≠ [] ∧
      Clean (Dir (Clean x)) = Dir (Clean x) := by
  obtain ⟨r, hr⟩ := h
  have hr2 : Clean x = d ++ Separator :: r := by simpa using hr.symm
  rcases Clean_cases x with h1 | ⟨h1, hne⟩
  · rw [h1] at hr2
    cases d with
    | nil => exact absurd rfl hd
    | cons c d =>
      simp only [List.cons_append, List.cons.injEq] at hr2
      have := hr2.2
      simp at this
  · have hn := cleanStack_normal x
    cases hst : cleanStack x with
    | nil =>
      rw [hst] at h1
      rw [h1] at hr2
      cases d with
      | nil => exact absurd rfl hd
      | cons c d =>
        cases hrt : isRooted x <;> simp [render, joinSep, hrt] at hr2
    | cons e below =>
      rw [hst] at hn h1
      have hes : Separator ∉ e := hn.2.2.1
      cases below with
      | nil =>
        exfalso
        rw [h1] at hr2
        cases hrt : isRooted x with
        | false =>
          simp only [render, hrt, Bool.false_eq_true, if_false, List.nil_append, List.reverse_cons,
            List.reverse_nil, joinSep] at hr2
          exact hes (by rw [hr2]; simp)
        | true =>
          simp only [render, hrt, if_true, List.reverse_cons, List.reverse_nil, List.nil_append,
            joinSep, List.singleton_append] at hr2
          cases d with
          | nil => exact absurd rfl hd
          | cons c d =>
            simp only [List.cons_append, List.cons.injEq] at hr2
            exact hes (by rw [hr2.2]; simp)
      | cons b below =>
        have hnb : Normal (isRooted x) (b :: below) := Normal_tail hn
        have hA : Clean x = render (isRooted x) (b :: below) ++ Separator :: e := by
          rw [h1]
          simp only [render, List.reverse_cons, List.append_assoc]
          rw [← List.append_assoc below.reverse [b] [e],
            joinSep_append_singleton _ e (by simp)]
        have hAne : render (isRooted x) (b :: below) ≠ [] :=
          render_ne_nil _ _ hnb (Or.inl (by simp))
        have hDir : Dir (Clean x) = render (isRooted x) (b :: below) := by
          unfold Dir
          rw [hA, dirPart_append _ _ hes, Clean_append_sep _ hAne]
          exact Clean_render _ _ hnb (Or.inl (by simp))
        refine ⟨e, by rw [hDir]; exact hA, by rw [hDir]; exact hAne, ?_⟩
        rw [hDir]
        exact Clean_render _ _ hnb (Or.inl (by simp))

end filepath

namespace FS

/-- A chain of `mkdir` calls succeeds when none of its paths is a regular
file. -/
theorem mkdirChain_succeeds (qs : List GoString) (fs : FS)
    (h : ∀ q ∈ qs, fs.isFile q = false) : (mkdirChain fs qs).2 = none := by
  induction qs generalizing fs with
  | nil => rfl
  | cons q0 qs ih =>
    unfold mkdirChain
    have h0 := h q0 (by simp)
    cases hl : fs.lookup q0 with
    | none =>
      simp only []
      apply ih
      intro q hq
      unfold isFile
      rw [lookup_put]
      by_cases hqq : q = q0
      · simp [hqq]
      · simp only [hqq, if_false]
        exact h q (by simp [hq])
    | some o =>
      cases o with
      | dir =>
        simp only []
        exact ih fs (fun q hq => h q (by simp [hq]))
      | file d => simp [isFile, hl] at h0

theorem MkdirAll_succeeds (fs : FS) (path : GoString)
    (h : ∀ q, (q = filepath.Clean path ∨ q ∈ ancestors (filepath.Clean path)) →
      fs.isFile q = false) : (fs.MkdirAll path).2 = none := by
  unfold MkdirAll
  apply mkdirChain_succeeds
  intro q hq
  simp only [List.mem_append, List.mem_singleton] at hq
  exact h q hq.symm

end FS

namespace ZipUtil

/-- An entry that passes the prefix test is carried out whenever no regular
file stands where a directory is needed, no directory stands where the file
goes, and the member can be read. -/
theorem extractEntry_succeeds (fs : FS) (extractTo : GoString) (file : ZipFile)
    (hacc : accepts extractTo file = true)
    (hfree : ∀ a ∈ FS.ancestors (filepath.Join extractTo file.Name), fs.isFile a = false)
    (hdir : file.IsDir = true → fs.isFile (filepath.Join extractTo file.Name) = false)
    (hfile : file.IsDir = false →
      fs.lookup (filepath.Join extractTo file.Name) ≠ some FsObj.dir ∧
      ∃ bytes, file.payload = ZipPayload.data bytes) :
    ∃ fs1, extractEntry fs extractTo file = (fs1, none) := by
  have hclean := accepts_clean extractTo file hacc
  have hacc2 : strings.HasPrefix (filepath.Join extractTo file.Name)
      (filepath.Clean extractTo ++ [Separator]) = true := hacc
  have hp : filepath.Clean extractTo ++ [Separator] <+: filepath.Join extractTo file.Name := by
    simpa [strings.HasPrefix] using hacc2
  unfold extractEntry
  simp only [hacc2, Bool.not_true, Bool.false_eq_true, if_false]
  by_cases hd : file.IsDir = true
  · simp only [hd, if_true]
    have hok := FS.MkdirAll_succeeds fs (filepath.Join extractTo file.Name) (by
      intro q hq
      rw [hclean] at hq
      rcases hq with hq | hq
      · rw [hq]; exact hdir hd
      · exact hfree q hq)
    generalize fs.MkdirAll (filepath.Join extractTo file.Name) = r at hok
    obtain ⟨fs1, _ | e⟩ := r
    · exact ⟨fs1, rfl⟩
    · simp at hok
  · have hd2 : file.IsDir = false := by simpa using hd
    simp only [hd2, Bool.false_eq_true, if_false]
    obtain ⟨hnd, bytes, hbytes⟩ := hfile hd2
    generalize hP : filepath.Join extractTo file.Name = P at *
    obtain ⟨e, hsplit, hAne, hAclean⟩ :=
      filepath.Dir_split P (filepath.Clean extractTo) (filepath.Clean_ne_nil extractTo)
        (by rw [hclean]; exact hp)
    rw [hclean] at hsplit hAne hAclean
    generalize hA : filepath.Dir P = A at *
    have hanc : ∀ q, (q = A ∨ q ∈ FS.ancestors A) → q ∈ FS.ancestors P := by
      intro q hq
      rw [FS.mem_ancestors]
      rcases hq with hq | hq
      · rw [hq]; exact ⟨hAne, e, hsplit⟩
      · obtain ⟨hq1, t, ht⟩ := (FS.mem_ancestors _ _).mp hq
        exact ⟨hq1, t ++ Separator :: e, by rw [hsplit, ht]; simp⟩
    have hok := FS.MkdirAll_succeeds fs A (by
      intro q hq
      rw [hAclean] at hq
      exact hfree q (hanc q hq))
    have hready := FS.MkdirAll_ready fs A hok
    have hframe := FS.MkdirAll_frame_clean fs A P
    generalize fs.MkdirAll A = r at hok hready hframe
    obtain ⟨fs1, _ | err⟩ := r
    · simp only [] at hready hframe ⊢
      have hPA : ¬ (P = filepath.Clean A ∨ P ∈ FS.ancestors (filepath.Clean A)) := by
        rw [hAclean]
        rintro (h1 | h1)
        · have := congrArg List.length hsplit
          rw [← h1] at this
          simp at this
        · obtain ⟨_, t, ht⟩ := (FS.mem_ancestors _ _).mp h1
          have := congrArg List.length hsplit
          rw [ht] at this
          simp at this
      have hsame : fs1.lookup P = fs.lookup P := by
        by_contra hc
        exact hPA (hframe hc)
      have hPlen : 2 ≤ P.length := by
        have := congrArg List.length hsplit
        have h0 : 0 < A.length := List.length_pos.mpr hAne
        simp only [List.length_append, List.length_cons] at this
        omega
      have hnotdir : fs1.isDir P = false := by
        unfold FS.isDir
        rw [hsame]
        cases hl : fs.lookup P with
        | none =>
          have h1 : P ≠ ['.'] := fun h => by rw [h] at hPlen; simp at hPlen
          have h2 : P ≠ [Separator] := fun h => by rw [h] at hPlen; simp at hPlen
          simp [h1, h2]
        | some o =>
          cases o with
          | dir => exact absurd hl hnd
          | file d => rfl
      have hparent : fs1.isDir A = true := by
        have := hready (filepath.Clean A) (Or.inl rfl)
        rw [hAclean] at this
        simp [FS.isDir, this]
      have hPne : P ≠ [] := fun h => by rw [h] at hPlen; simp at hPlen
      have hcreate : fs1.Create P = (fs1.put P (FsObj.file []), none) := by
        unfold FS.Create
        simp only [hclean, hPne, if_false, hnotdir, Bool.false_eq_true, hA, hparent, if_true]
      simp only [extractFile, hbytes, hcreate]
      exact ⟨_, rfl⟩
    · simp at hok

end ZipUtil

namespace ZipUtil

/-- An entry that fails the prefix test changes nothing and reports no
error. -/
theorem extractEntry_skip (fs : FS) (extractTo : GoString) (file : ZipFile)
    (h : accepts extractTo file = false) : extractEntry fs extractTo file = (fs, none) := by
  have h2 : strings.HasPrefix (filepath.Join extractTo file.Name)
      (filepath.Clean extractTo ++ [Separator]) = false := h
  simp [extractEntry, h2]

/-- The loop runs as if an entry that fails the prefix test were absent. -/
theorem extractLoop_skip (fs : FS) (extractTo : GoString) (before after : List ZipFile)
    (file : ZipFile) (h : accepts extractTo file = false) :
    extractLoop fs extractTo (before ++ file :: after)
      = extractLoop fs extractTo (before ++ after) := by
  induction before generalizing fs with
  | nil => simp [extractLoop, extractEntry_skip _ _ _ h]
  | cons b bs ih =>
    simp only [List.cons_append, extractLoop]
    rcases extractEntry fs extractTo b with ⟨fs1, _ | e⟩
    · exact ih fs1
    · rfl

end ZipUtil

/-- **C2 (amended).** What decides whether `Extract` skips a member is the
prefix test alone (`ZipUtil.accepts`: `filepath.Join(extractTo, name)` starts
with `filepath.Clean(extractTo)` followed by the separator):
* a member that fails the test changes nothing and reports no error on any
  disk, and the loop runs as if the member were absent from the archive, so
  the members before and after it are extracted as usual;
* a member that passes the test is extracted at the joined path: whenever its
  loop iteration succeeds, a directory member is a directory there and a file
  member is a file there holding exactly its bytes; the iteration does succeed
  when no regular file stands at a parent of that path, a directory member
  does not meet a regular file and a readable file member does not meet a
  directory;
* hence a member is skipped on every disk exactly when it fails the test. -/
theorem C2_member_is_skipped_exactly_when_guard_fails (extractTo : GoString)
    (file : ZipFile) :
    (ZipUtil.accepts extractTo file = false →
      (∀ fs, ZipUtil.extractEntry fs extractTo file = (fs, none)) ∧
      ∀ fs before after, ZipUtil.extractLoop fs extractTo (before ++ file :: after)
        = ZipUtil.extractLoop fs extractTo (before ++ after)) ∧
    (ZipUtil.accepts extractTo file = true →
      (∀ fs fs1, ZipUtil.extractEntry fs extractTo file = (fs1, none) →
        (file.IsDir = true →
          fs1.lookup (filepath.Join extractTo file.Name) = some FsObj.dir) ∧
        (file.IsDir = false → ∃ bytes, file.payload = ZipPayload.data bytes ∧
          fs1.lookup (filepath.Join extractTo file.Name) = some (FsObj.file bytes))) ∧
      (∀ fs : FS,
        (∀ a ∈ FS.ancestors (filepath.Join extractTo file.Name), fs.isFile a = false) →
        (file.IsDir = true → fs.isFile (filepath.Join extractTo file.Name) = false) →
        (file.IsDir = false →
          fs.lookup (filepath.Join extractTo file.Name) ≠ some FsObj.dir ∧
          ∃ bytes, file.payload = ZipPayload.data bytes) →
        ∃ fs1, ZipUtil.extractEntry fs extractTo file = (fs1, none))) ∧
    ((∀ fs, ZipUtil.extractEntry fs extractTo file = (fs, none)) ↔
      ZipUtil.accepts extractTo file = false) := by
  have hskip : ZipUtil.accepts extractTo file = false →
      ∀ fs, ZipUtil.extractEntry fs extractTo file = (fs, none) :=
    fun h fs => ZipUtil.extractEntry_skip fs extractTo file h
  refine ⟨fun h => ⟨hskip h, fun fs before after =>
      ZipUtil.extractLoop_skip fs extractTo before after file h⟩,
    fun h => ⟨fun fs fs1 hok => ZipUtil.extractEntry_placed fs extractTo file fs1 hok h,
      fun fs h1 h2 h3 => ZipUtil.extractEntry_succeeds fs extractTo file h h1 h2 h3⟩,
    ⟨fun hall => ?_, hskip⟩⟩
  by_contra hacc
  have hacc2 : ZipUtil.accepts extractTo file = true := by simpa using hacc
  have hplaced := ZipUtil.extractEntry_placed ⟨[]⟩ extractTo file ⟨[]⟩ (hall ⟨[]⟩) hacc2
  have hempty : ∀ p, (⟨[]⟩ : FS).lookup p = none := fun p => rfl
  cases hd : file.IsDir with
  | true =>
    have := hplaced.1 hd
    rw [hempty] at this
    simp at this
  | false =>
    obtain ⟨bytes, _, hl⟩ := hplaced.2 hd
    rw [hempty] at hl
    simp at hl

/-! ## The truncated preview (C7) -/

namespace FileUtil

/-- The preview branch of `ReadFileContent`: for a file longer than a
non-negative preview limit and within the file limit, the result is what the
one `Read` delivers followed by the notice. -/
theorem ReadFileContent_preview
    (cfg : Config) (notice : Int → Bytes) (env : ReadEnv) (filePath : GoString) (data : Bytes)
    (hfile : env.fs.lookup (filepath.Clean filePath) = some (FsObj.file data))
    (hopen : env.failOpen = false) (hread : env.failRead = false)
    (hlimit : 0 ≤ cfg.Storage.MaxPreview)
    (hlow : cfg.Storage.MaxPreview < (data.length : Int))
    (hhigh : (data.length : Int) ≤ cfg.Storage.MaxFileSize) :
    (ReadFileContent cfg notice env filePath).1
      = Except.ok (data.take (min cfg.Storage.MaxPreview.toNat maxRW)
          ++ notice cfg.Storage.MaxPreview) := by
  have hstat := Stat_file env.fs filePath data hfile
  have h1 : ¬ ((data.length : Int) > cfg.Storage.MaxFileSize) := by omega
  have h2 : (data.length : Int) > cfg.Storage.MaxPreview := hlow
  have h3 : ¬ (cfg.Storage.MaxPreview < 0) := by omega
  simp [ReadFileContent, hstat, h1, h2, readFilePreview, hopen, hfile, h3, hread]

end FileUtil

/-- **C7 (as stated) fails.**
* The notice does not name the byte limit: it prints the limit in kilobytes
  with two decimals, so the limits 0 and 2 give the same notice, and so do the
  default limit of 10 MiB and that limit plus one; a three-byte file read with
  limit 2 yields its first two bytes followed by `0.00 KB`.
* With the preview limit `-1` the same file yields no preview: allocating the
  buffer fails.
* A file of `2^30 + 2` bytes read with the preview limit `2^30 + 1` yields
  only its first `2^30` bytes before the notice, which is what a single `Read`
  delivers at most. -/
theorem C7_notice_gives_kilobytes_and_read_is_clamped :
    FileUtil.previewNotice 0 = FileUtil.previewNotice 2 ∧
    FileUtil.previewNotice 10485760 = FileUtil.previewNotice 10485761 ∧
    FileUtil.previewNotice 2 = utf8 "\n\n... (文件太大，仅显示前 0.00 KB)".toList ∧
    (FileUtil.ReadFileContent ⟨⟨[], [], [], 50, 2⟩, ⟨[]⟩⟩ FileUtil.previewNotice readEnv
        "/logs/a.txt".toList).1
      = Except.ok ([104, 105] ++ utf8 "\n\n... (文件太大，仅显示前 0.00 KB)".toList) ∧
    (FileUtil.ReadFileContent ⟨⟨[], [], [], 50, -1⟩, ⟨[]⟩⟩ FileUtil.previewNotice readEnv
        "/logs/a.txt".toList).1 = Except.error ReadError.makeslicePanic ∧
    (FileUtil.ReadFileContent ⟨⟨[], [], [], 2147483648, 1073741825⟩, ⟨[]⟩⟩
        FileUtil.previewNotice bigEnv "/big".toList).1
      = Except.ok (List.replicate 1073741824 0 ++ FileUtil.previewNotice 1073741825) := by
  refine ⟨by decide, by decide, by decide, by rfl, by rfl, ?_⟩
  rw [FileUtil.ReadFileContent_preview ⟨⟨[], [], [], 2147483648, 1073741825⟩, ⟨[]⟩⟩
    FileUtil.previewNotice bigEnv "/big".toList (List.replicate 1073741826 0) rfl rfl rfl
    (by decide) (by rw [List.length_replicate]; decide) (by rw [List.length_replicate]; decide)]
  rw [List.take_replicate]
  rfl

/-- **C7 (amended).** For a file with `MaxPreview < size ≤ MaxFileSize`, a
preview limit between 0 and `2^30`, and when opening and reading succeed,
`ReadFileContent` returns exactly the first `MaxPreview` bytes of the file
followed by the notice `\n\n... (文件太大，仅显示前 N KB)`, where `N` is the limit
divided by 1024, printed with two decimals; in particular a file of exactly
`MaxPreview + 1` bytes yields `MaxPreview` bytes of content plus the
notice. -/
theorem C7_preview_is_prefix_plus_kilobyte_notice
    (cfg : Config) (env : ReadEnv) (filePath : GoString) (data : Bytes)
    (hfile : env.fs.lookup (filepath.Clean filePath) = some (FsObj.file data))
    (hopen : env.failOpen = false) (hread : env.failRead = false)
    (hlimit : 0 ≤ cfg.Storage.MaxPreview)
    (hclamp : cfg.Storage.MaxPreview ≤ 1073741824)
    (hlow : cfg.Storage.MaxPreview < (data.length : Int))
    (hhigh : (data.length : Int) ≤ cfg.Storage.MaxFileSize) :
    (FileUtil.ReadFileContent cfg FileUtil.previewNotice env filePath).1
      = Except.ok (data.take cfg.Storage.MaxPreview.toNat
          ++ utf8 ("\n\n... (文件太大，仅显示前 ".toList ++
              fmt.sprintFloat2 (Float64.ofInt cfg.Storage.MaxPreview).div1024 ++
              " KB)".toList)) ∧
    ((data.take cfg.Storage.MaxPreview.toNat).length : Int) = cfg.Storage.MaxPreview ∧
    (Float64.ofInt cfg.Storage.MaxPreview).div1024
      = ⟨false, cfg.Storage.MaxPreview.toNat, -10⟩ := by
  have hmin : min cfg.Storage.MaxPreview.toNat FileUtil.maxRW = cfg.Storage.MaxPreview.toNat := by
    unfold FileUtil.maxRW
    omega
  refine ⟨?_, ?_, ?_⟩
  · rw [FileUtil.ReadFileContent_preview cfg FileUtil.previewNotice env filePath data hfile hopen
      hread hlimit hlow hhigh, hmin]
    rfl
  · rw [List.length_take]
    omega
  · have hnat : cfg.Storage.MaxPreview.natAbs = cfg.Storage.MaxPreview.toNat := by omega
    have hsmall : cfg.Storage.MaxPreview.toNat < 9007199254740992 := by omega
    have hneg : ¬ cfg.Storage.MaxPreview < 0 := by omega
    simp [Float64.ofInt, Float64.div1024, hnat, hsmall, hneg, fmt.roundHalfEven]

/-- Witness of C7: a three-byte file with preview limit 2 (`MaxPreview + 1`
bytes) and file limit 50. -/
theorem C7_preview_is_prefix_plus_kilobyte_notice_witness :
    (FileUtil.ReadFileContent ⟨⟨[], [], [], 50, 2⟩, ⟨[]⟩⟩ FileUtil.previewNotice readEnv
        "/logs/a.txt".toList).1
      = Except.ok ([104, 105, 10].take (2 : Int).toNat
          ++ utf8 ("\n\n... (文件太大，仅显示前 ".toList ++
              fmt.sprintFloat2 (Float64.ofInt 2).div1024 ++ " KB)".toList)) ∧
    ((([104, 105, 10] : Bytes).take (2 : Int).toNat).length : Int) = 2 ∧
    (Float64.ofInt 2).div1024 = ⟨false, (2 : Int).toNat, -10⟩ :=
  C7_preview_is_prefix_plus_kilobyte_notice ⟨⟨[], [], [], 50, 2⟩, ⟨[]⟩⟩ readEnv
    "/logs/a.txt".toList [104, 105, 10] (by decide) rfl rfl (by decide) (by decide) (by decide)
    (by decide)

/-! ## `Set` with the expiration computed in `int64` (C14) -/

theorem int64_of_IsInt64 (n : Int) (h : IsInt64 n) : int64 n = n := by
  unfold IsInt64 at h
  unfold int64
  omega

theorem IsInt64_int64 (n : Int) : IsInt64 (int64 n) := by
  unfold IsInt64 int64
  omega

namespace Cache

/-- When the expiration instant is representable, the two renderings of `Set`
agree. -/
theorem SetInt64_eq_Set {V : Type} (c : Cache V) (now : Int) (key : GoString) (value : V)
    (h : IsInt64 (now + c.ttl)) : c.SetInt64 now key value = c.Set now key value := by
  unfold SetInt64 Set
  rw [int64_of_IsInt64 _ h]

end Cache

/-- **C14 (as stated) fails.** In a cache whose TTL is the largest `int64`,
`Set` at instant 1000 stores the expiration `-9223372036854774809`, not
`t + TTL = 9223372036854776807`: the sum is computed in `int64` and wraps
around. -/
theorem C14_expiration_wraps_around :
    (((Cache.NewCache 9223372036854775807 : Cache Nat).SetInt64 1000 "k".toList 7).items
        "k".toList).map (fun item => item.Expiration) = some (-9223372036854774809) ∧
    (((Cache.NewCache 9223372036854775807 : Cache Nat).SetInt64 1000 "k".toList 7).items
        "k".toList).map (fun item => item.Expiration)
      ≠ some (1000 + (Cache.NewCache 9223372036854775807 : Cache Nat).ttl) := by
  decide

/-- **C14 (amended).** With instants and the TTL in the range of `int64`:
after `Set(k, v)` at instant `t` the entry of `k` is `v` whatever `k` held
before, with the expiration `t + TTL` computed in `int64` (which is `t + TTL`
whenever that instant is representable), every other key keeps its entry, and
a `Get(k)` at any instant not later than `t + TTL` returns `v` as present and
leaves the cache as it is. -/
theorem C14_get_after_set_returns_value_int64 {V : Type} (c : Cache V) (t later : Int)
    (k : GoString) (v : V) (ht : IsInt64 t) (httl : IsInt64 c.ttl) (hlater : IsInt64 later)
    (hwithin : later ≤ t + c.ttl) :
    (c.SetInt64 t k v).items k = some ⟨v, int64 (t + c.ttl)⟩ ∧
    (IsInt64 (t + c.ttl) → (c.SetInt64 t k v).items k = some ⟨v, t + c.ttl⟩) ∧
    (∀ other, other ≠ k → (c.SetInt64 t k v).items other = c.items other) ∧
    (c.SetInt64 t k v).ttl = c.ttl ∧
    (c.SetInt64 t k v).Get later k = (c.SetInt64 t k v, some v) := by
  have hitem : (c.SetInt64 t k v).items k = some ⟨v, int64 (t + c.ttl)⟩ := by
    simp [Cache.SetInt64]
  refine ⟨hitem, ?_, ?_, rfl, ?_⟩
  · intro h
    rw [hitem, int64_of_IsInt64 _ h]
  · intro other hne
    simp [Cache.SetInt64, hne]
  · have hlive : ¬ ((⟨v, int64 (t + c.ttl)⟩ : CacheItem V).Expiration > 0 ∧
        later > (⟨v, int64 (t + c.ttl)⟩ : CacheItem V).Expiration) := by
      simp only [not_and]
      unfold IsInt64 at ht httl hlater
      unfold int64
      omega
    exact Cache.Get_of_live _ later k _ hitem hlive

/-- Witness of C14: `sampleCache` overwritten at instant 2000 and read at the
last instant of the TTL. -/
theorem C14_get_after_set_returns_value_int64_witness :
    (sampleCache.SetInt64 2000 "tree:log1".toList 8).items "tree:log1".toList
      = some ⟨8, int64 (2000 + sampleCache.ttl)⟩ ∧
    (IsInt64 (2000 + sampleCache.ttl) →
      (sampleCache.SetInt64 2000 "tree:log1".toList 8).items "tree:log1".toList
        = some ⟨8, 2000 + sampleCache.ttl⟩) ∧
    (∀ other, other ≠ "tree:log1".toList →
      (sampleCache.SetInt64 2000 "tree:log1".toList 8).items other = sampleCache.items other) ∧
    (sampleCache.SetInt64 2000 "tree:log1".toList 8).ttl = sampleCache.ttl ∧
    (sampleCache.SetInt64 2000 "tree:log1".toList 8).Get 300000002000 "tree:log1".toList
      = (sampleCache.SetInt64 2000 "tree:log1".toList 8, some 8) :=
  C14_get_after_set_returns_value_int64 sampleCache 2000 300000002000 "tree:log1".toList 8
    (by decide) (by decide) (by decide) (by decide)

end LogView
